import Mathlib

/-!
Shallow embedding of the Hanan-graph router (`compiler/router/hanan_graph.py`)
and proofs about it: geometric primitives, blockage collection, Cartesian
value extraction, node generation, pruning, and the A* search.

Coordinates are rationals; layers are integers (the code only ever creates
layers 0 and 1).  The helper classes `vector3d`, `hanan_node`, `hanan_probe`
and the `pin_layout` shape methods are not part of the provided sources; they
are modelled from the spec where used, and each such definition says so in
its doc comment.  Everything else is translated directly from
`hanan_graph.py`.
-/

namespace HananGraph

/-- Modelled from the spec: a 3-D point with (x, y, layer) semantics, as the
`vector3d` class used for node centers. -/
structure vector3d where
  x : ℚ
  y : ℚ
  z : ℤ
deriving DecidableEq, Inhabited

/-- Modelled from the spec: a 2-D point, as returned by the corner and center
accessors of the shape class. -/
structure point2 where
  x : ℚ
  y : ℚ
deriving DecidableEq, Inhabited

/-- Modelled from the spec: an axis-aligned rectangle with a layer-purpose
tag.  `lpp` is kept as the layer index itself: the code maps tags to indices
via `router.get_zindex`, which we take to be the identity on layers 0/1. -/
structure shape where
  llx : ℚ
  lly : ℚ
  urx : ℚ
  ury : ℚ
  lpp : ℤ
deriving DecidableEq, Inhabited

namespace shape

def width (s : shape) : ℚ := s.urx - s.llx

def height (s : shape) : ℚ := s.ury - s.lly

/-- Modelled from the spec: upper center point of the rectangle. -/
def uc (s : shape) : point2 := ⟨(s.llx + s.urx) / 2, s.ury⟩

/-- Modelled from the spec: bottom center point of the rectangle. -/
def bc (s : shape) : point2 := ⟨(s.llx + s.urx) / 2, s.lly⟩

/-- Modelled from the spec: left center point of the rectangle. -/
def lc (s : shape) : point2 := ⟨s.llx, (s.lly + s.ury) / 2⟩

/-- Modelled from the spec: right center point of the rectangle. -/
def rc (s : shape) : point2 := ⟨s.urx, (s.lly + s.ury) / 2⟩

/-- Modelled from the spec: center point of the rectangle. -/
def center (s : shape) : point2 := ⟨(s.llx + s.urx) / 2, (s.lly + s.ury) / 2⟩

/-- Modelled from the spec: `pin_layout.inflated_pin(spacing, multiple)` grows
the rectangle on every side by `spacing` plus `multiple` grid units; with
`spacing = layer_width/2` and `multiple = 1` this is the spec's "inflated by
half a routing-layer width plus one grid unit". -/
def inflated_pin (s : shape) (spacing : ℚ) (multiple : ℚ) (grid : ℚ) : shape :=
  { s with
    llx := s.llx - (spacing + multiple * grid)
    lly := s.lly - (spacing + multiple * grid)
    urx := s.urx + (spacing + multiple * grid)
    ury := s.ury + (spacing + multiple * grid) }

/-- Modelled from the spec: overlap of two shapes is closed-rectangle
intersection on matching layer tags (the exact boundary-inclusion convention
is flagged as an open question in the spec; no claim proved here depends on
it). -/
def overlaps (s t : shape) : Bool :=
  s.lpp == t.lpp && decide (s.llx ≤ t.urx) && decide (t.llx ≤ s.urx) &&
    decide (s.lly ≤ t.ury) && decide (t.lly ≤ s.ury)

end shape

/-- Embeds `hanan_graph.inside_shape`: false on a layer mismatch, otherwise
the point is tested against the rectangle (`vector.on_segment` is modelled
from the spec as inclusive containment). -/
def inside_shape (p : vector3d) (s : shape) : Bool :=
  p.z == s.lpp && decide (s.llx ≤ p.x) && decide (p.x ≤ s.urx) &&
    decide (s.lly ≤ p.y) && decide (p.y ≤ s.ury)

/-- Modelled from the spec: `hanan_probe` is a degenerate rectangle spanning
two same-layer points, tagged with the routing tag of that layer
(`vert_lpp` when `p1.z` is truthy, else `horiz_lpp`; both kept as the layer
index). -/
def hanan_probe (p1 p2 : vector3d) : shape :=
  { llx := min p1.x p2.x
    lly := min p1.y p2.y
    urx := max p1.x p2.x
    ury := max p1.y p2.y
    lpp := if p1.z ≠ 0 then 1 else 0 }

/-- Embeds `hanan_graph.is_probe_blocked`: some collected blockage overlaps
the probe shape between the two points. -/
def is_probe_blocked (graph_blockages : List shape) (p1 p2 : vector3d) : Bool :=
  graph_blockages.any (fun blockage => blockage.overlaps (hanan_probe p1 p2))

/-- Modelled from the spec: the slice of the Hanan router's state that
`hanan_graph` reads.  `raw_obstructions` are the supplied obstruction shapes
before inflation; `pins` is the catalog of pins keyed by net name;
`layer_width0` is `router.layer_widths[0]`; `grid` is `drc["grid"]`; `pitch`
is the routing pitch used to expand the region of interest. -/
structure router_state where
  raw_obstructions : List shape
  pins : List (String × List shape)
  layer_width0 : ℚ
  grid : ℚ
  pitch : ℚ

/-- Modelled from the spec: `router.blockages` as seen by `get_blockages`.
The `hanan_router` code that populates it is not in the sources; per the spec
every supplied obstruction is inflated by half a routing-layer width plus one
grid unit before the graph uses it. -/
def router_blockages (r : router_state) : List shape :=
  r.raw_obstructions.map (fun s => s.inflated_pin (r.layer_width0 / 2) 1 r.grid)

/-- Embeds `hanan_graph.get_blockages`: a copy of the router's blockages plus
every pin of every net other than `pin_name`, each such pin inflated with
`spacing = layer_widths[0]/2` and `multiple = 1`. -/
def get_blockages (r : router_state) (pin_name : String) : List shape :=
  r.pins.foldl
    (fun acc np =>
      if np.1 = pin_name then acc
      else acc ++ np.2.map (fun p => p.inflated_pin (r.layer_width0 / 2) 1 r.grid))
    (router_blockages r)

/-- Embeds the aspect-ratio rule of `generate_cartesian_values`: a tall pin
(ratio at most 1/2) contributes its top and bottom centers, a fat pin (ratio
at least 2) its left and right centers, any other pin its center. -/
def shape_points (sh : shape) : List point2 :=
  if sh.width / sh.height ≤ 1 / 2 then [sh.uc, sh.bc]
  else if 2 ≤ sh.width / sh.height then [sh.lc, sh.rc]
  else [sh.center]

/-- Embeds `generate_cartesian_values`: x and y values from the source and
target points and the blockage corners offset by one grid unit, collected
into sets and returned sorted (Python builds `set`s and sorts the resulting
lists; deduplicating before sorting yields the same lists). -/
def generate_cartesian_values (source target : shape)
    (graph_blockages : List shape) (grid : ℚ) : List ℚ × List ℚ :=
  let pts := shape_points source ++ shape_points target
  let xs := pts.map point2.x ++
    graph_blockages.flatMap (fun b => [b.llx - grid, b.urx + grid])
  let ys := pts.map point2.y ++
    graph_blockages.flatMap (fun b => [b.lly - grid, b.ury + grid])
  (xs.dedup.mergeSort (fun a b => decide (a ≤ b)),
   ys.dedup.mergeSort (fun a b => decide (a ≤ b)))

/-- Modelled from the spec: `hanan_node` carries a unique creation id
(monotonically increasing, used for deterministic tie-breaking) and its 3-D
center.  Adjacency lives in the graph-level map below, keyed by node id (the
spec's own arena representation for the cyclic neighbor structure). -/
structure hanan_node where
  id : ℕ
  center : vector3d
deriving DecidableEq, Inhabited

/-- Adjacency map: node id to list of neighbor ids, newest binding first. -/
abbrev adjmap := List (ℕ × List ℕ)

def adj_get (adj : adjmap) (k : ℕ) : List ℕ := (adj.lookup k).getD []

def adj_set (adj : adjmap) (k : ℕ) (v : List ℕ) : adjmap := (k, v) :: adj

/-- Modelled from the spec: `hanan_node.add_neighbor` appends each node to the
other's neighbor list, creating the edge symmetrically. -/
def add_neighbor (adj : adjmap) (a b : ℕ) : adjmap :=
  let adj1 := adj_set adj a (adj_get adj a ++ [b])
  adj_set adj1 b (adj_get adj1 b ++ [a])

/-- Modelled from the spec: `hanan_node.remove_all_neighbors` removes the node
from each of its neighbors' lists (first occurrence, Python's
`list.remove`) and then clears its own list. -/
def remove_all_neighbors (adj : adjmap) (rid : ℕ) : adjmap :=
  let adj1 := (adj_get adj rid).foldl
    (fun a b => adj_set a b ((adj_get a b).erase rid)) adj
  adj_set adj1 rid []

/-- The graph state built by `create_graph`: surviving nodes, adjacency,
the source/target classification lists, and the arena of every node ever
created (Python reaches nodes through object references; the arena resolves
ids back to nodes, including nodes pruned from `nodes`). -/
structure hgraph where
  nodes : List hanan_node
  adj : adjmap
  source_nodes : List hanan_node
  target_nodes : List hanan_node
  arena : List hanan_node

/-- One (x, y) iteration of `generate_hanan_nodes`: create the layer-0 and
layer-1 nodes, connect them (via edge), probe-connect each to the pair
immediately below (`self.nodes[-2]`, `self.nodes[-1]`) and immediately to
the left (`self.nodes[left_offset]`, `self.nodes[left_offset+1]`), then
classify the two nodes as source or target.  `count` is
`len(self.nodes) // 2`; node ids coincide with creation order. -/
def hanan_step (graph_blockages : List shape) (source target : shape)
    (y_len : ℕ) (st : hgraph) (x y : ℚ) : hgraph :=
  let below : hanan_node := ⟨st.nodes.length, ⟨x, y, 0⟩⟩
  let above : hanan_node := ⟨st.nodes.length + 1, ⟨x, y, 1⟩⟩
  let adj0 := add_neighbor st.adj below.id above.id
  let count := st.nodes.length / 2
  let len := st.nodes.length
  let downB := st.nodes.getD (len - 2) default
  let downA := st.nodes.getD (len - 1) default
  let leftB := st.nodes.getD (len - 2 * y_len) default
  let leftA := st.nodes.getD (len - 2 * y_len + 1) default
  let adj1 :=
    if count % y_len ≠ 0 ∧ ¬ is_probe_blocked graph_blockages below.center downB.center
    then add_neighbor adj0 below.id downB.id else adj0
  let adj2 :=
    if y_len ≤ count ∧ ¬ is_probe_blocked graph_blockages below.center leftB.center
    then add_neighbor adj1 below.id leftB.id else adj1
  let adj3 :=
    if count % y_len ≠ 0 ∧ ¬ is_probe_blocked graph_blockages above.center downA.center
    then add_neighbor adj2 above.id downA.id else adj2
  let adj4 :=
    if y_len ≤ count ∧ ¬ is_probe_blocked graph_blockages above.center leftA.center
    then add_neighbor adj3 above.id leftA.id else adj3
  let src1 :=
    if inside_shape below.center source then st.source_nodes ++ [below]
    else st.source_nodes
  let tgt1 :=
    if ¬ inside_shape below.center source ∧ inside_shape below.center target
    then st.target_nodes ++ [below] else st.target_nodes
  let src2 :=
    if inside_shape above.center source then src1 ++ [above] else src1
  let tgt2 :=
    if ¬ inside_shape above.center source ∧ inside_shape above.center target
    then tgt1 ++ [above] else tgt1
  { nodes := st.nodes ++ [below, above]
    adj := adj4
    source_nodes := src2
    target_nodes := tgt2
    arena := st.arena ++ [below, above] }

/-- Embeds `generate_hanan_nodes`: iterate the step over every (x, y) pair of
the sorted Cartesian values, x outer, y inner. -/
def generate_hanan_nodes (graph_blockages : List shape) (source target : shape)
    (x_values y_values : List ℚ) : hgraph :=
  x_values.foldl
    (fun st x =>
      y_values.foldl
        (fun st2 y => hanan_step graph_blockages source target y_values.length st2 x y)
        st)
    ⟨[], [], [], [], []⟩

/-- Embeds `remove_blocked_nodes`: the loop runs from the last index down to
the first, removing each node whose center is inside some blockage and
severing its edges; removal at an index only shifts already-visited entries,
so the loop is the right fold below (the innermost application is the last
node, matching the descending order). -/
def remove_blocked_nodes (graph_blockages : List shape) (g : hgraph) : hgraph :=
  let pr := g.nodes.foldr
    (fun n acc =>
      if graph_blockages.any (fun blockage => inside_shape n.center blockage)
      then (acc.1, remove_all_neighbors acc.2 n.id)
      else (n :: acc.1, acc.2))
    ([], g.adj)
  { g with nodes := pr.1, adj := pr.2 }

/-- Modelled from the spec: the bounding region covering source and target
(`region = deepcopy(source); region.bbox([target])`). -/
def region_box (source target : shape) : shape :=
  { llx := min source.llx target.llx
    lly := min source.lly target.lly
    urx := max source.urx target.urx
    ury := max source.ury target.ury
    lpp := source.lpp }

/-- Modelled from the spec: the region is expanded by one routing pitch
(`region.inflated_pin(multiple=1)`). -/
def inflated_region (r : router_state) (s : shape) : shape :=
  { s with
    llx := s.llx - r.pitch
    lly := s.lly - r.pitch
    urx := s.urx + r.pitch
    ury := s.ury + r.pitch }

/-- Region filter of `create_graph`: `region.lpp` is overwritten with each
blockage's tag before `region.overlaps(blockage)`, so the layer comparison
always succeeds and the test is plain rectangle overlap. -/
def region_overlaps (region blockage : shape) : Bool :=
  shape.overlaps { region with lpp := blockage.lpp } blockage

/-- Blockage collection of `create_graph`: all blockages of `get_blockages`
that overlap the inflated routing region. -/
def graph_blockages_of (r : router_state) (pin_name : String)
    (source target : shape) : List shape :=
  (get_blockages r pin_name).filter
    (region_overlaps (inflated_region r (region_box source target)))

/-- Embeds `create_graph`: collect the blockages in the routing region,
generate the Cartesian values and the Hanan nodes, then prune blocked
nodes. -/
def create_graph (r : router_state) (pin_name : String)
    (source target : shape) : hgraph :=
  let gb := graph_blockages_of r pin_name source target
  let xy := generate_cartesian_values source target gb r.grid
  remove_blocked_nodes gb (generate_hanan_nodes gb source target xy.1 xy.2)

/-- Resolve a node's neighbor list to node values through the arena (Python
holds object references; construction assigns each node a unique id). -/
def neighbors_of (g : hgraph) (n : hanan_node) : List hanan_node :=
  (adj_get g.adj n.id).filterMap (fun j => g.arena.find? (fun m => m.id == j))

/-- Embeds the local function `h` of `find_shortest_path`: the minimum over
all target nodes of the planar distance to the target plus the absolute
layer difference, starting from infinity (`float("inf")` becomes the top
element).  `dist` stands for `vector3d.distance`, which is not in the
sources; the spec specifies planar Euclidean distance and keeps the cost
model pluggable, so it is a parameter here. -/
def heur (g : hgraph) (dist : vector3d → vector3d → ℚ) (n : hanan_node) : WithTop ℚ :=
  g.target_nodes.foldl
    (fun m t =>
      min m ((dist t.center n.center + ((t.center.z - n.center.z).natAbs : ℚ) : ℚ) : WithTop ℚ))
    ⊤

/-- Queue entry, mirroring the pushed tuple
`(f_scores[node.id], node.id, node)`. -/
abbrev sentry := WithTop ℚ × ℕ × hanan_node

/-- Comparison key of a queue entry: Python's tuple comparison orders entries
by f-score and then by node id (the third component is never compared, since
two entries agreeing on both keys carry the same node and f-score). -/
def ekey (e : sentry) : WithTop ℚ × ℕ := (e.1, e.2.1)

/-- Lexicographic order on entry keys, as Python tuple comparison. -/
def key_le (a b : WithTop ℚ × ℕ) : Bool :=
  decide (a.1 < b.1) || (decide (a.1 = b.1) && decide (a.2 ≤ b.2))

/-- Heap pop: remove and return an entry with the least key (`heapq.heappop`
always yields an entry minimal in tuple order; the remaining entries are
kept, their internal arrangement being irrelevant to later pops). -/
def pop_min : List sentry → Option (sentry × List sentry)
  | [] => none
  | e :: es =>
    match pop_min es with
    | none => some (e, [])
    | some (m, rest) =>
      if key_le (ekey e) (ekey m) then some (e, es) else some (m, e :: rest)

/-- Mutable state of the A* search loop: the priority queue, the closed set,
and the predecessor / g-score / f-score maps (newest binding first, as the
Python dict updates). -/
structure astate where
  queue : List sentry
  close_set : List hanan_node
  came_from : List (ℕ × hanan_node)
  g_scores : List (ℕ × ℚ)
  f_scores : List (ℕ × WithTop ℚ)

/-- Seeding of one source node: g-score 0, f-score `h(node)`, and a queue
entry `(f_scores[id], id, node)`. -/
def seed_step (g : hgraph) (dist : vector3d → vector3d → ℚ)
    (st : astate) (node : hanan_node) : astate :=
  { st with
    g_scores := (node.id, 0) :: st.g_scores
    f_scores := (node.id, heur g dist node) :: st.f_scores
    queue := (heur g dist node, node.id, node) :: st.queue }

/-- Initial scores and queue of `find_shortest_path`: every source node is
seeded in order. -/
def init_state (g : hgraph) (dist : vector3d → vector3d → ℚ) : astate :=
  g.source_nodes.foldl (seed_step g dist) ⟨[], [], [], [], []⟩

/-- Neighbor relaxation of one finalized node: for each neighbor, the
tentative score is the edge cost plus the current node's g-score; on
improvement the predecessor, g-score and f-score maps are updated and the
entry `(f_scores[node.id], node.id, node)` is pushed.  `cost` stands for
`hanan_node.get_edge_cost`, not in the sources and kept pluggable as the
spec specifies.  `relax` folds `relax_step` over the neighbor list. -/
def relax_step (g : hgraph) (cost : hanan_node → hanan_node → ℚ)
    (dist : vector3d → vector3d → ℚ) (current : hanan_node)
    (st2 : astate) (node : hanan_node) : astate :=
  let tentative : ℚ := cost current node + (st2.g_scores.lookup current.id).getD 0
  let improved : Bool :=
    match st2.g_scores.lookup node.id with
    | none => true
    | some gv => decide (tentative < gv)
  if improved then
    let fval : WithTop ℚ := (tentative : WithTop ℚ) + heur g dist node
    { queue := (fval, node.id, node) :: st2.queue
      close_set := st2.close_set
      came_from := (node.id, current) :: st2.came_from
      g_scores := (node.id, tentative) :: st2.g_scores
      f_scores := (node.id, fval) :: st2.f_scores }
  else st2

def relax (g : hgraph) (cost : hanan_node → hanan_node → ℚ)
    (dist : vector3d → vector3d → ℚ) (current : hanan_node) (st : astate) : astate :=
  (neighbors_of g current).foldl (relax_step g cost dist current) st

/-- Path reconstruction of `find_shortest_path`: walk the predecessor map
from the found target, appending each node, and return the list without
reversing it.  The fuel bounds the walk; the caller passes more fuel than
any predecessor chain can use, and on a cyclic map (never produced by the
search) the result is `none` where Python would not terminate. -/
def back_walk (cf : List (ℕ × hanan_node)) :
    ℕ → hanan_node → List hanan_node → Option (List hanan_node)
  | 0, _, _ => none
  | fuel + 1, current, path =>
    match cf.lookup current.id with
    | none => some (path ++ [current])
    | some prev => back_walk cf fuel prev (path ++ [current])

/-- Main loop of `find_shortest_path`: pop the least entry, skip it if the
node is already closed, otherwise close the node; a closed target returns
the reconstructed path, any other node has its neighbors relaxed.  The fuel
only bounds the iteration count; `find_shortest_path` supplies more fuel
than the loop can consume, since every iteration pops one entry and the
number of pushes is bounded. -/
def astar_loop (g : hgraph) (cost : hanan_node → hanan_node → ℚ)
    (dist : vector3d → vector3d → ℚ) : ℕ → astate → Option (List hanan_node)
  | 0, _ => none
  | fuel + 1, st =>
    match pop_min st.queue with
    | none => none
    | some (e, rest) =>
      let current := e.2.2
      if current ∈ st.close_set then
        astar_loop g cost dist fuel { st with queue := rest }
      else
        let st1 : astate := { st with queue := rest, close_set := current :: st.close_set }
        if current ∈ g.target_nodes then
          back_walk st1.came_from (st1.came_from.length + 1) current []
        else
          astar_loop g cost dist fuel (relax g cost dist current st1)

/-- Fuel bound for the search loop: pops never exceed pushes, and pushes are
bounded by the initial seeds plus one relaxation per adjacency entry for
each finalizable node. -/
def search_fuel (g : hgraph) : ℕ :=
  g.source_nodes.length +
    (g.source_nodes.length + g.arena.length) *
      (g.adj.foldl (fun acc kv => acc + kv.2.length) 0 + 1) + 1

/-- Embeds `find_shortest_path`: run the A* loop from the seeded state. -/
def find_shortest_path (g : hgraph) (cost : hanan_node → hanan_node → ℚ)
    (dist : vector3d → vector3d → ℚ) : Option (List hanan_node) :=
  astar_loop g cost dist (search_fuel g) (init_state g dist)

/-- Secondary heap keys pushed during one relaxation, in push order, paired
with the resulting state.  Mirrors `relax`: every push carries the relaxed
node's id as its secondary key. -/
def relax_keys_step (g : hgraph) (cost : hanan_node → hanan_node → ℚ)
    (dist : vector3d → vector3d → ℚ) (current : hanan_node)
    (pr : List ℕ × astate) (node : hanan_node) : List ℕ × astate :=
  let st2 := pr.2
  let tentative : ℚ := cost current node + (st2.g_scores.lookup current.id).getD 0
  let improved : Bool :=
    match st2.g_scores.lookup node.id with
    | none => true
    | some gv => decide (tentative < gv)
  if improved then
    let fval : WithTop ℚ := (tentative : WithTop ℚ) + heur g dist node
    (pr.1 ++ [node.id],
     { queue := (fval, node.id, node) :: st2.queue
       close_set := st2.close_set
       came_from := (node.id, current) :: st2.came_from
       g_scores := (node.id, tentative) :: st2.g_scores
       f_scores := (node.id, fval) :: st2.f_scores })
  else pr

def relax_keys (g : hgraph) (cost : hanan_node → hanan_node → ℚ)
    (dist : vector3d → vector3d → ℚ) (current : hanan_node) (st : astate) :
    List ℕ × astate :=
  (neighbors_of g current).foldl (relax_keys_step g cost dist current) ([], st)

/-- Secondary heap keys pushed by the loop after seeding, in push order.
Mirrors `astar_loop`. -/
def astar_keys (g : hgraph) (cost : hanan_node → hanan_node → ℚ)
    (dist : vector3d → vector3d → ℚ) : ℕ → astate → List ℕ
  | 0, _ => []
  | fuel + 1, st =>
    match pop_min st.queue with
    | none => []
    | some (e, rest) =>
      let current := e.2.2
      if current ∈ st.close_set then
        astar_keys g cost dist fuel { st with queue := rest }
      else
        let st1 : astate := { st with queue := rest, close_set := current :: st.close_set }
        if current ∈ g.target_nodes then []
        else
          let pr := relax_keys g cost dist current st1
          pr.1 ++ astar_keys g cost dist fuel pr.2

/-- All secondary heap keys in push order over a whole search: the seeding
pushes use each source node's id, then the loop pushes follow. -/
def push_keys (g : hgraph) (cost : hanan_node → hanan_node → ℚ)
    (dist : vector3d → vector3d → ℚ) : List ℕ :=
  g.source_nodes.map hanan_node.id ++
    astar_keys g cost dist (search_fuel g) (init_state g dist)

/-- Edge cost of a node sequence taken in order, summing the pluggable cost
over consecutive pairs. -/
def walk_cost (cost : hanan_node → hanan_node → ℚ) : List hanan_node → ℚ
  | a :: b :: rest => cost a b + walk_cost cost (b :: rest)
  | _ => 0

/-- Walks through the graph that start at some source node, carried with
their node list; the second index is the final node. -/
inductive walk_to (g : hgraph) : List hanan_node → hanan_node → Prop
  | base {s : hanan_node} : s ∈ g.source_nodes → walk_to g [s] s
  | step {q : List hanan_node} {u v : hanan_node} :
      walk_to g q u → v ∈ neighbors_of g u → walk_to g (q ++ [v]) v

/-- A complete source-to-target walk. -/
def st_walk (g : hgraph) (q : List hanan_node) : Prop :=
  ∃ t, walk_to g q t ∧ t ∈ g.target_nodes

/-- Every node value the search can touch: the seeded sources and the arena
(neighbor resolution never leaves the arena). -/
def node_pool (g : hgraph) : List hanan_node := g.source_nodes ++ g.arena

/-- Ids are injective over the pool, as guaranteed by creation order for
constructed graphs. -/
def uid_ok (g : hgraph) : Prop :=
  ∀ a ∈ node_pool g, ∀ b ∈ node_pool g, a.id = b.id → a = b

/-- Boolean check that a sequence of heap keys never decreases from one push
to the next. -/
def mono_keys : List ℕ → Bool
  | a :: b :: rest => decide (a ≤ b) && mono_keys (b :: rest)
  | _ => true

/-- Symmetry of the adjacency map: node `i` lists `j` exactly when `j`
lists `i`. -/
def adj_sym (adj : adjmap) : Prop :=
  ∀ i j, j ∈ adj_get adj i → i ∈ adj_get adj j

/-- Every per-node neighbor list is duplicate free. -/
def adj_nodup (adj : adjmap) : Prop := ∀ k, (adj_get adj k).Nodup

/-- Well-formedness of the node-generation state, established for the empty
state and preserved by every `hanan_step`: node ids list the creation
positions, the node count stays even, adjacency mentions only created ids,
neighbor lists are duplicate free and symmetric, each even id is
via-connected to its odd partner at the same (x, y), layers follow id
parity, centers are injective, and classified source/target nodes are graph
nodes backed by the arena. -/
structure gen_wf (st : hgraph) : Prop where
  ids_range : st.nodes.map hanan_node.id = List.range st.nodes.length
  even_len : st.nodes.length % 2 = 0
  adj_hi : ∀ k, st.nodes.length ≤ k → adj_get st.adj k = []
  adj_lt : ∀ k j, j ∈ adj_get st.adj k → j < st.nodes.length ∧ k < st.nodes.length
  nodup : adj_nodup st.adj
  symm : adj_sym st.adj
  via : ∀ a ∈ st.nodes, ∀ b ∈ st.nodes, b.id = a.id + 1 → a.id % 2 = 0 →
    b.id ∈ adj_get st.adj a.id ∧ a.id ∈ adj_get st.adj b.id ∧
      a.center.x = b.center.x ∧ a.center.y = b.center.y
  partner : ∀ a ∈ st.nodes, a.id % 2 = 0 → ∃ b ∈ st.nodes, b.id = a.id + 1
  z_mem : ∀ a ∈ st.nodes, a.center.z = if a.id % 2 = 0 then 0 else 1
  xy_uniq : ∀ a ∈ st.nodes, ∀ b ∈ st.nodes,
    a.center.x = b.center.x → a.center.y = b.center.y → a.center.z = b.center.z → a = b
  src_sub : ∀ n ∈ st.source_nodes, n ∈ st.nodes
  tgt_sub : ∀ n ∈ st.target_nodes, n ∈ st.nodes
  arena_eq : st.arena = st.nodes

/-- The grid pairs processed by `generate_hanan_nodes`, x outer, y inner. -/
def grid_pairs (x_values y_values : List ℚ) : List (ℚ × ℚ) :=
  x_values.flatMap (fun x => y_values.map (fun y => (x, y)))

/-- Invariants of the search state used by the path-shape analysis: queue
entries carry their node's id, are drawn from the pool, and have a recorded
g-score; every predecessor binding records an edge into the bound id with
both endpoints scored; an id that is scored but has no predecessor is a
source with score zero; the closed set stays inside the pool. -/
structure path_inv (g : hgraph) (st : astate) : Prop where
  ent_key : ∀ e ∈ st.queue, e.2.1 = e.2.2.id
  ent_pool : ∀ e ∈ st.queue, e.2.2 ∈ node_pool g
  ent_g : ∀ e ∈ st.queue, ∃ gv, st.g_scores.lookup e.2.1 = some gv
  cf_edge : ∀ id u, st.came_from.lookup id = some u →
    u ∈ node_pool g ∧ (∃ gu, st.g_scores.lookup u.id = some gu) ∧
      (∃ gv, st.g_scores.lookup id = some gv) ∧
      ∃ v, v ∈ neighbors_of g u ∧ v.id = id
  nocf_src : ∀ id gv, st.g_scores.lookup id = some gv →
    st.came_from.lookup id = none → gv = 0 ∧ ∃ s ∈ g.source_nodes, s.id = id
  closed_pool : ∀ n ∈ st.close_set, n ∈ node_pool g

/-- Full invariant of the A* loop used by the optimality analysis, on top of
`path_inv`: scores are nonnegative sums of edge costs along actual walks,
every queue entry dominates its node's current score plus heuristic, every
scored node is closed or still openly represented, closed nodes carry
optimal scores and have relaxed all their edges, predecessor bindings
over-approximate the bound score, sources keep score at most zero, and no
target is closed (the loop returns at the first closed target). -/
structure astar_inv (g : hgraph) (cost : hanan_node → hanan_node → ℚ)
    (dist : vector3d → vector3d → ℚ) (st : astate) : Prop where
  base : path_inv g st
  g_nonneg : ∀ id gv, st.g_scores.lookup id = some gv → 0 ≤ gv
  ent_le : ∀ e ∈ st.queue, ∃ gv, st.g_scores.lookup e.2.1 = some gv ∧
    (gv : WithTop ℚ) + heur g dist e.2.2 ≤ e.1
  known_open : ∀ n ∈ node_pool g, ∀ gv, st.g_scores.lookup n.id = some gv →
    n ∈ st.close_set ∨ ∃ e ∈ st.queue, e.2.2 = n ∧ e.1 ≤ (gv : WithTop ℚ) + heur g dist n
  closed_relax : ∀ n ∈ st.close_set, ∀ v ∈ neighbors_of g n, ∃ gu gv,
    st.g_scores.lookup n.id = some gu ∧ st.g_scores.lookup v.id = some gv ∧
      gv ≤ gu + cost n v
  closed_opt : ∀ n ∈ st.close_set, ∃ gv, st.g_scores.lookup n.id = some gv ∧
    ∀ q, walk_to g q n → gv ≤ walk_cost cost q
  g_sound : ∀ id gv, st.g_scores.lookup id = some gv →
    ∃ n q, n ∈ node_pool g ∧ n.id = id ∧ walk_to g q n ∧ walk_cost cost q ≤ gv
  cf_cost : ∀ id u, st.came_from.lookup id = some u → ∃ gu gv v,
    st.g_scores.lookup u.id = some gu ∧ st.g_scores.lookup id = some gv ∧
      v ∈ neighbors_of g u ∧ v.id = id ∧ gu + cost u v ≤ gv
  src_le : ∀ s ∈ g.source_nodes, ∃ gv, st.g_scores.lookup s.id = some gv ∧ gv ≤ 0
  no_tgt_closed : ∀ t ∈ g.target_nodes, t ∉ st.close_set

/-- Hypotheses on the pluggable cost and distance functions under which the
search is optimal: edge costs in the pool are nonnegative, the heuristic is
consistent along pool edges, each target is at planar distance zero from
itself, and planar distances from targets into the pool are nonnegative
(the spec's admissibility conditions on the cost model, in their standard
edge-local form). -/
structure cost_ok (g : hgraph) (cost : hanan_node → hanan_node → ℚ)
    (dist : vector3d → vector3d → ℚ) : Prop where
  nonneg : ∀ u ∈ node_pool g, ∀ v ∈ neighbors_of g u, 0 ≤ cost u v
  cons : ∀ u ∈ node_pool g, ∀ v ∈ neighbors_of g u,
    heur g dist u ≤ (cost u v : WithTop ℚ) + heur g dist v
  self0 : ∀ t ∈ g.target_nodes, dist t.center t.center = 0
  dpos : ∀ t ∈ g.target_nodes, ∀ n ∈ node_pool g, 0 ≤ dist t.center n.center

/-! Concrete inputs used by the witnesses and counterexamples below. -/

/-- Unit edge cost. -/
def unit_cost : hanan_node → hanan_node → ℚ := fun _ _ => 1

/-- Degenerate planar distance. -/
def zero_dist : vector3d → vector3d → ℚ := fun _ _ => 0

/-- Manhattan edge cost with unit via penalty, a valid instance of the
spec's cost model. -/
def manhattan_cost : hanan_node → hanan_node → ℚ := fun a b =>
  |a.center.x - b.center.x| + |a.center.y - b.center.y| +
    ((a.center.z - b.center.z).natAbs : ℚ)

/-- Manhattan planar distance. -/
def manhattan_dist : vector3d → vector3d → ℚ := fun a b =>
  |a.x - b.x| + |a.y - b.y|

def exnS : hanan_node := ⟨0, ⟨0, 0, 0⟩⟩

def exnM : hanan_node := ⟨2, ⟨0, 1, 0⟩⟩

def exnT : hanan_node := ⟨1, ⟨1, 0, 0⟩⟩

/-- Two-node graph with one source, one target, one edge. -/
def exg1 : hgraph :=
  { nodes := [exnS, exnT]
    adj := [(0, [1]), (1, [0])]
    source_nodes := [exnS]
    target_nodes := [exnT]
    arena := [exnS, exnT] }

/-- Three-node line graph source - middle - target. -/
def exg2 : hgraph :=
  { nodes := [exnS, exnM, exnT]
    adj := [(0, [2]), (2, [0, 1]), (1, [2])]
    source_nodes := [exnS]
    target_nodes := [exnT]
    arena := [exnS, exnM, exnT] }

/-- Source-only graph with no target nodes. -/
def exg3 : hgraph :=
  { nodes := [exnS]
    adj := []
    source_nodes := [exnS]
    target_nodes := []
    arena := [exnS] }

def exnA : hanan_node := ⟨4, ⟨0, 0, 0⟩⟩

def exnB : hanan_node := ⟨0, ⟨1, 0, 0⟩⟩

def exnC : hanan_node := ⟨5, ⟨2, 0, 0⟩⟩

/-- Line graph whose source has a larger creation id than the node relaxed
from it, as happens whenever a source sits past the first grid column. -/
def exg4 : hgraph :=
  { nodes := [exnA, exnB, exnC]
    adj := [(4, [0]), (0, [4, 5]), (5, [0])]
    source_nodes := [exnA]
    target_nodes := [exnC]
    arena := [exnA, exnB, exnC] }

/-- Tall example pin: width 1, height 4. -/
def extall : shape := ⟨0, 0, 1, 4, 0⟩

/-- Fat example pin: width 4, height 1. -/
def exfat : shape := ⟨0, 0, 4, 1, 0⟩

/-- Example blockage. -/
def exblk : shape := ⟨2, 2, 3, 3, 0⟩

/-- Example source pin, a unit square at the origin on layer 0. -/
def exsrc : shape := ⟨0, 0, 1, 1, 0⟩

/-- Example target pin, a unit square at x = 10 on layer 0. -/
def extgt : shape := ⟨10, 0, 11, 1, 0⟩

/-- Example router state: one tall obstruction between the pins, no other
nets. -/
def exrouter : router_state :=
  { raw_obstructions := [⟨4, -5, 6, 5, 0⟩]
    pins := [("A", [exsrc]), ("B", [⟨20, 20, 21, 21, 0⟩])]
    layer_width0 := 0
    grid := 0
    pitch := 1 }

/-- The graph the builder produces for the example router and pins. -/
def exbuilt : hgraph := create_graph exrouter "A" exsrc extgt

/-- Layer-0 blockage covering the center of `exnS` but not of `exnT`. -/
def exblk2 : shape := ⟨-1, -1, 1 / 2, 1, 0⟩

/-!
### Theorems

Helper lemmas first, then one theorem per claim (with witnesses and
counterexamples where required).
-/

/-- Intermediate invariant of one relaxation fold: all `astar_inv` fields,
except that the just-closed node `cur` (with fixed g-score `gc`) has relaxed
all its neighbors apart from those still in `rem`. -/
structure mid_inv (g : hgraph) (cost : hanan_node → hanan_node → ℚ)
    (dist : vector3d → vector3d → ℚ) (cur : hanan_node) (gc : ℚ)
    (rem : List hanan_node) (st2 : astate) : Prop where
  base : path_inv g st2
  gcur : st2.g_scores.lookup cur.id = some gc
  g_nonneg : ∀ id gv, st2.g_scores.lookup id = some gv → 0 ≤ gv
  ent_le : ∀ e ∈ st2.queue, ∃ gv, st2.g_scores.lookup e.2.1 = some gv ∧
    (gv : WithTop ℚ) + heur g dist e.2.2 ≤ e.1
  known_open : ∀ n ∈ node_pool g, ∀ gv, st2.g_scores.lookup n.id = some gv →
    n ∈ st2.close_set ∨ ∃ e ∈ st2.queue, e.2.2 = n ∧
      e.1 ≤ (gv : WithTop ℚ) + heur g dist n
  closed_relax2 : ∀ n ∈ st2.close_set, ∀ v ∈ neighbors_of g n,
    (n = cur ∧ v ∈ rem) ∨ ∃ gu gv, st2.g_scores.lookup n.id = some gu ∧
      st2.g_scores.lookup v.id = some gv ∧ gv ≤ gu + cost n v
  closed_opt : ∀ n ∈ st2.close_set, ∃ gv, st2.g_scores.lookup n.id = some gv ∧
    ∀ q, walk_to g q n → gv ≤ walk_cost cost q
  g_sound : ∀ id gv, st2.g_scores.lookup id = some gv →
    ∃ n q, n ∈ node_pool g ∧ n.id = id ∧ walk_to g q n ∧ walk_cost cost q ≤ gv
  cf_cost : ∀ id u, st2.came_from.lookup id = some u → ∃ gu gv v,
    st2.g_scores.lookup u.id = some gu ∧ st2.g_scores.lookup id = some gv ∧
      v ∈ neighbors_of g u ∧ v.id = id ∧ gu + cost u v ≤ gv
  src_le : ∀ s ∈ g.source_nodes, ∃ gv, st2.g_scores.lookup s.id = some gv ∧ gv ≤ 0
  no_tgt_closed : ∀ t ∈ g.target_nodes, t ∉ st2.close_set

/-- Invariant of the search state used by the determinism analysis: the
structural facts of `path_inv`, every queue entry dominating its node's
current score plus heuristic, and queue entries being determined by their
comparison keys (so the heap pop is unambiguous). -/
structure det_inv (g : hgraph) (cost : hanan_node → hanan_node → ℚ)
    (dist : vector3d → vector3d → ℚ) (st : astate) : Prop where
  base : path_inv g st
  ent_le : ∀ e ∈ st.queue, ∃ gv, st.g_scores.lookup e.2.1 = some gv ∧
    (gv : WithTop ℚ) + heur g dist e.2.2 ≤ e.1
  uniq : ∀ e1 ∈ st.queue, ∀ e2 ∈ st.queue, ekey e1 = ekey e2 → e1 = e2

/-- A second source node for the two-source example graph. -/
def exnP : hanan_node := ⟨3, ⟨0, 2, 0⟩⟩

/-- Example graph with two source nodes, both adjacent to the target. -/
def exg5 : hgraph :=
  { nodes := [exnS, exnP, exnT]
    adj := [(0, [1]), (3, [1]), (1, [0, 3])]
    source_nodes := [exnS, exnP]
    target_nodes := [exnT]
    arena := [exnS, exnP, exnT] }

theorem get_blockages_eq (r : router_state) (pn : String) :
    get_blockages r pn = router_blockages r ++
      (r.pins.filter (fun np => decide (np.1 ≠ pn))).flatMap
        (fun np => np.2.map (fun p => p.inflated_pin (r.layer_width0 / 2) 1 r.grid)) := by
  unfold get_blockages
  suffices h : ∀ (l : List (String × List shape)) (init : List shape),
      l.foldl
        (fun acc np =>
          if np.1 = pn then acc
          else acc ++ np.2.map (fun p => p.inflated_pin (r.layer_width0 / 2) 1 r.grid))
        init =
      init ++ (l.filter (fun np => decide (np.1 ≠ pn))).flatMap
        (fun np => np.2.map (fun p => p.inflated_pin (r.layer_width0 / 2) 1 r.grid)) by
    exact h r.pins (router_blockages r)
  intro l
  induction l with
  | nil => intro init; simp
  | cons a rest ih =>
    intro init
    by_cases h : a.1 = pn
    · simp [h, ih]
    · simp [h, ih]

/-- C5.  The blockage set handed to graph construction is exactly the
supplied obstructions plus every other net's pins, each inflated by half a
routing-layer width plus one grid unit (the obstruction inflation is
performed by the router before `get_blockages` copies the list; that code is
not in the sources and is modelled from the spec by `router_blockages`). -/
theorem claim5_blockage_set (r : router_state) (pin_name : String) :
    (∀ b, b ∈ get_blockages r pin_name ↔
      ((∃ s ∈ r.raw_obstructions,
          b = s.inflated_pin (r.layer_width0 / 2) 1 r.grid) ∨
        (∃ np ∈ r.pins, np.1 ≠ pin_name ∧
          ∃ p ∈ np.2, b = p.inflated_pin (r.layer_width0 / 2) 1 r.grid))) ∧
    (∀ s : shape, s.inflated_pin (r.layer_width0 / 2) 1 r.grid =
      { llx := s.llx - (r.layer_width0 / 2 + r.grid)
        lly := s.lly - (r.layer_width0 / 2 + r.grid)
        urx := s.urx + (r.layer_width0 / 2 + r.grid)
        ury := s.ury + (r.layer_width0 / 2 + r.grid)
        lpp := s.lpp }) := by
  constructor
  · intro b
    rw [get_blockages_eq]
    simp only [List.mem_append, router_blockages, List.mem_map, List.mem_flatMap,
      List.mem_filter, decide_eq_true_eq]
    constructor
    · rintro (⟨s, hs, rfl⟩ | ⟨np, ⟨hnp, hne⟩, p, hp, rfl⟩)
      · exact Or.inl ⟨s, hs, rfl⟩
      · exact Or.inr ⟨np, hnp, hne, p, hp, rfl⟩
    · rintro (⟨s, hs, rfl⟩ | ⟨np, hnp, hne, p, hp, rfl⟩)
      · exact Or.inl ⟨s, hs, rfl⟩
      · exact Or.inr ⟨np, ⟨hnp, hne⟩, p, hp, rfl⟩
  · intro s
    simp only [shape.inflated_pin, one_mul]

theorem mem_mergeSort_dedup (l : List ℚ) (v : ℚ) :
    (v ∈ l.dedup.mergeSort (fun a b => decide (a ≤ b))) ↔ v ∈ l := by
  rw [(List.mergeSort_perm l.dedup _).mem_iff, List.mem_dedup]

theorem sorted_mergeSort_dedup (l : List ℚ) :
    List.Sorted (· ≤ ·) (l.dedup.mergeSort (fun a b => decide (a ≤ b))) := by
  have h := @List.sorted_mergeSort ℚ (fun a b : ℚ => decide (a ≤ b))
    (by intro a b c hab hbc; simp only [decide_eq_true_eq] at *; exact le_trans hab hbc)
    (by intro a b; simp only [Bool.or_eq_true, decide_eq_true_eq]; exact le_total a b)
    l.dedup
  exact h.imp (by simp)

theorem nodup_mergeSort_dedup (l : List ℚ) :
    (l.dedup.mergeSort (fun a b => decide (a ≤ b))).Nodup :=
  (List.mergeSort_perm l.dedup _).symm.nodup l.nodup_dedup

theorem shape_points_x (sh : shape) (v : ℚ) :
    (∃ p ∈ shape_points sh, v = p.x) ↔
      ((sh.width / sh.height ≤ 1 / 2 ∧ (v = sh.uc.x ∨ v = sh.bc.x)) ∨
        (2 ≤ sh.width / sh.height ∧ (v = sh.lc.x ∨ v = sh.rc.x)) ∨
        (1 / 2 < sh.width / sh.height ∧ sh.width / sh.height < 2 ∧
          v = sh.center.x)) := by
  unfold shape_points
  split_ifs with h1 h2
  · constructor
    · rintro ⟨p, hp, rfl⟩
      simp only [List.mem_cons, List.not_mem_nil, or_false] at hp
      rcases hp with rfl | rfl
      · exact Or.inl ⟨h1, Or.inl rfl⟩
      · exact Or.inl ⟨h1, Or.inr rfl⟩
    · rintro (⟨_, (rfl | rfl)⟩ | ⟨h2, _⟩ | ⟨hl, _, _⟩)
      · exact ⟨sh.uc, by simp, rfl⟩
      · exact ⟨sh.bc, by simp, rfl⟩
      · exact absurd h1 (by linarith)
      · exact absurd h1 (not_le.mpr hl)
  · constructor
    · rintro ⟨p, hp, rfl⟩
      simp only [List.mem_cons, List.not_mem_nil, or_false] at hp
      rcases hp with rfl | rfl
      · exact Or.inr (Or.inl ⟨h2, Or.inl rfl⟩)
      · exact Or.inr (Or.inl ⟨h2, Or.inr rfl⟩)
    · rintro (⟨hc, _⟩ | ⟨_, (rfl | rfl)⟩ | ⟨_, hc, _⟩)
      · exact absurd hc h1
      · exact ⟨sh.lc, by simp, rfl⟩
      · exact ⟨sh.rc, by simp, rfl⟩
      · exact absurd h2 (not_le.mpr hc)
  · constructor
    · rintro ⟨p, hp, rfl⟩
      simp only [List.mem_cons, List.not_mem_nil, or_false] at hp
      rcases hp with rfl
      exact Or.inr (Or.inr ⟨not_le.mp h1, not_le.mp h2, rfl⟩)
    · rintro (⟨hc, _⟩ | ⟨hc, _⟩ | ⟨_, _, rfl⟩)
      · exact absurd hc h1
      · exact absurd hc h2
      · exact ⟨sh.center, by simp, rfl⟩

theorem shape_points_y (sh : shape) (v : ℚ) :
    (∃ p ∈ shape_points sh, v = p.y) ↔
      ((sh.width / sh.height ≤ 1 / 2 ∧ (v = sh.uc.y ∨ v = sh.bc.y)) ∨
        (2 ≤ sh.width / sh.height ∧ (v = sh.lc.y ∨ v = sh.rc.y)) ∨
        (1 / 2 < sh.width / sh.height ∧ sh.width / sh.height < 2 ∧
          v = sh.center.y)) := by
  unfold shape_points
  split_ifs with h1 h2
  · constructor
    · rintro ⟨p, hp, rfl⟩
      simp only [List.mem_cons, List.not_mem_nil, or_false] at hp
      rcases hp with rfl | rfl
      · exact Or.inl ⟨h1, Or.inl rfl⟩
      · exact Or.inl ⟨h1, Or.inr rfl⟩
    · rintro (⟨_, (rfl | rfl)⟩ | ⟨h2, _⟩ | ⟨hl, _, _⟩)
      · exact ⟨sh.uc, by simp, rfl⟩
      · exact ⟨sh.bc, by simp, rfl⟩
      · exact absurd h1 (by linarith)
      · exact absurd h1 (not_le.mpr hl)
  · constructor
    · rintro ⟨p, hp, rfl⟩
      simp only [List.mem_cons, List.not_mem_nil, or_false] at hp
      rcases hp with rfl | rfl
      · exact Or.inr (Or.inl ⟨h2, Or.inl rfl⟩)
      · exact Or.inr (Or.inl ⟨h2, Or.inr rfl⟩)
    · rintro (⟨hc, _⟩ | ⟨_, (rfl | rfl)⟩ | ⟨_, hc, _⟩)
      · exact absurd hc h1
      · exact ⟨sh.lc, by simp, rfl⟩
      · exact ⟨sh.rc, by simp, rfl⟩
      · exact absurd h2 (not_le.mpr hc)
  · constructor
    · rintro ⟨p, hp, rfl⟩
      simp only [List.mem_cons, List.not_mem_nil, or_false] at hp
      rcases hp with rfl
      exact Or.inr (Or.inr ⟨not_le.mp h1, not_le.mp h2, rfl⟩)
    · rintro (⟨hc, _⟩ | ⟨hc, _⟩ | ⟨_, _, rfl⟩)
      · exact absurd hc h1
      · exact absurd hc h2
      · exact ⟨sh.center, by simp, rfl⟩

theorem gcv_mem_x (source target : shape) (B : List shape) (grid : ℚ) (v : ℚ) :
    v ∈ (generate_cartesian_values source target B grid).1 ↔
      ((∃ p ∈ shape_points source, v = p.x) ∨ (∃ p ∈ shape_points target, v = p.x) ∨
        ∃ b ∈ B, v = b.llx - grid ∨ v = b.urx + grid) := by
  rw [show (generate_cartesian_values source target B grid).1 =
    ((shape_points source ++ shape_points target).map point2.x ++
      B.flatMap (fun b => [b.llx - grid, b.urx + grid])).dedup.mergeSort
        (fun a b => decide (a ≤ b)) from rfl]
  rw [mem_mergeSort_dedup]
  simp only [List.mem_append, List.mem_map, List.mem_flatMap, List.mem_cons,
    List.not_mem_nil, or_false]
  constructor
  · rintro (⟨p, (hp | hp), rfl⟩ | ⟨b, hb, h⟩)
    · exact Or.inl ⟨p, hp, rfl⟩
    · exact Or.inr (Or.inl ⟨p, hp, rfl⟩)
    · exact Or.inr (Or.inr ⟨b, hb, h⟩)
  · rintro (⟨p, hp, rfl⟩ | ⟨p, hp, rfl⟩ | ⟨b, hb, h⟩)
    · exact Or.inl ⟨p, Or.inl hp, rfl⟩
    · exact Or.inl ⟨p, Or.inr hp, rfl⟩
    · exact Or.inr ⟨b, hb, h⟩

theorem gcv_mem_y (source target : shape) (B : List shape) (grid : ℚ) (v : ℚ) :
    v ∈ (generate_cartesian_values source target B grid).2 ↔
      ((∃ p ∈ shape_points source, v = p.y) ∨ (∃ p ∈ shape_points target, v = p.y) ∨
        ∃ b ∈ B, v = b.lly - grid ∨ v = b.ury + grid) := by
  rw [show (generate_cartesian_values source target B grid).2 =
    ((shape_points source ++ shape_points target).map point2.y ++
      B.flatMap (fun b => [b.lly - grid, b.ury + grid])).dedup.mergeSort
        (fun a b => decide (a ≤ b)) from rfl]
  rw [mem_mergeSort_dedup]
  simp only [List.mem_append, List.mem_map, List.mem_flatMap, List.mem_cons,
    List.not_mem_nil, or_false]
  constructor
  · rintro (⟨p, (hp | hp), rfl⟩ | ⟨b, hb, h⟩)
    · exact Or.inl ⟨p, hp, rfl⟩
    · exact Or.inr (Or.inl ⟨p, hp, rfl⟩)
    · exact Or.inr (Or.inr ⟨b, hb, h⟩)
  · rintro (⟨p, hp, rfl⟩ | ⟨p, hp, rfl⟩ | ⟨b, hb, h⟩)
    · exact Or.inl ⟨p, Or.inl hp, rfl⟩
    · exact Or.inl ⟨p, Or.inr hp, rfl⟩
    · exact Or.inr ⟨b, hb, h⟩

/-- C7.  The Cartesian extraction: each returned coordinate list is sorted
and duplicate free, and a value occurs in it exactly when contributed by the
aspect-ratio rule on the source or the target (ratio at most 1/2: top and
bottom centers; ratio at least 2: left and right centers; any other shape:
only the centroid) or by a blockage lower-left corner minus one grid unit or
upper-right corner plus one grid unit. -/
theorem claim7_cartesian_values (source target : shape) (B : List shape)
    (grid : ℚ) (_hs : 0 < source.height) (_ht : 0 < target.height) :
    List.Sorted (· ≤ ·) (generate_cartesian_values source target B grid).1 ∧
    (generate_cartesian_values source target B grid).1.Nodup ∧
    List.Sorted (· ≤ ·) (generate_cartesian_values source target B grid).2 ∧
    (generate_cartesian_values source target B grid).2.Nodup ∧
    (∀ v : ℚ, v ∈ (generate_cartesian_values source target B grid).1 ↔
      (((source.width / source.height ≤ 1 / 2 ∧ (v = source.uc.x ∨ v = source.bc.x)) ∨
          (2 ≤ source.width / source.height ∧ (v = source.lc.x ∨ v = source.rc.x)) ∨
          (1 / 2 < source.width / source.height ∧ source.width / source.height < 2 ∧
            v = source.center.x)) ∨
        ((target.width / target.height ≤ 1 / 2 ∧ (v = target.uc.x ∨ v = target.bc.x)) ∨
          (2 ≤ target.width / target.height ∧ (v = target.lc.x ∨ v = target.rc.x)) ∨
          (1 / 2 < target.width / target.height ∧ target.width / target.height < 2 ∧
            v = target.center.x)) ∨
        ∃ b ∈ B, v = b.llx - grid ∨ v = b.urx + grid)) ∧
    (∀ v : ℚ, v ∈ (generate_cartesian_values source target B grid).2 ↔
      (((source.width / source.height ≤ 1 / 2 ∧ (v = source.uc.y ∨ v = source.bc.y)) ∨
          (2 ≤ source.width / source.height ∧ (v = source.lc.y ∨ v = source.rc.y)) ∨
          (1 / 2 < source.width / source.height ∧ source.width / source.height < 2 ∧
            v = source.center.y)) ∨
        ((target.width / target.height ≤ 1 / 2 ∧ (v = target.uc.y ∨ v = target.bc.y)) ∨
          (2 ≤ target.width / target.height ∧ (v = target.lc.y ∨ v = target.rc.y)) ∨
          (1 / 2 < target.width / target.height ∧ target.width / target.height < 2 ∧
            v = target.center.y)) ∨
        ∃ b ∈ B, v = b.lly - grid ∨ v = b.ury + grid)) := by
  refine ⟨sorted_mergeSort_dedup _, nodup_mergeSort_dedup _,
    sorted_mergeSort_dedup _, nodup_mergeSort_dedup _, ?_, ?_⟩
  · intro v
    rw [gcv_mem_x, shape_points_x, shape_points_x]
  · intro v
    rw [gcv_mem_y, shape_points_y, shape_points_y]

/-- C7 witness: the characterization applied to the concrete tall and fat
example pins with one blockage, and one concrete membership instance. -/
theorem claim7_witness :
    (0 : ℚ) < extall.height ∧ (0 : ℚ) < exfat.height ∧
    List.Sorted (· ≤ ·) (generate_cartesian_values extall exfat [exblk] 1).1 ∧
    ((1 : ℚ) ∈ (generate_cartesian_values extall exfat [exblk] 1).1 ↔
      (((extall.width / extall.height ≤ 1 / 2 ∧
            ((1 : ℚ) = extall.uc.x ∨ (1 : ℚ) = extall.bc.x)) ∨
          (2 ≤ extall.width / extall.height ∧
            ((1 : ℚ) = extall.lc.x ∨ (1 : ℚ) = extall.rc.x)) ∨
          (1 / 2 < extall.width / extall.height ∧ extall.width / extall.height < 2 ∧
            (1 : ℚ) = extall.center.x)) ∨
        ((exfat.width / exfat.height ≤ 1 / 2 ∧
            ((1 : ℚ) = exfat.uc.x ∨ (1 : ℚ) = exfat.bc.x)) ∨
          (2 ≤ exfat.width / exfat.height ∧
            ((1 : ℚ) = exfat.lc.x ∨ (1 : ℚ) = exfat.rc.x)) ∨
          (1 / 2 < exfat.width / exfat.height ∧ exfat.width / exfat.height < 2 ∧
            (1 : ℚ) = exfat.center.x)) ∨
        ∃ b ∈ [exblk], (1 : ℚ) = b.llx - 1 ∨ (1 : ℚ) = b.urx + 1)) := by
  have h := claim7_cartesian_values extall exfat [exblk] 1
    (by with_unfolding_all decide) (by with_unfolding_all decide)
  exact ⟨by with_unfolding_all decide, by with_unfolding_all decide, h.1, h.2.2.2.2.1 1⟩

theorem pop_min_eq_none {q : List sentry} (h : pop_min q = none) : q = [] := by
  cases q with
  | nil => rfl
  | cons a as =>
    rcases hpm : pop_min as with _ | ⟨m, r⟩ <;> simp only [pop_min, hpm] at h
    · simp at h
    · split at h <;> simp at h

theorem pop_min_mem {q : List sentry} {e : sentry} {rest : List sentry}
    (h : pop_min q = some (e, rest)) : e ∈ q := by
  induction q generalizing e rest with
  | nil => simp [pop_min] at h
  | cons a as ih =>
    rcases hpm : pop_min as with _ | ⟨m, r⟩ <;>
      simp only [pop_min, hpm, Option.some.injEq, Prod.mk.injEq] at h
    · rcases h with ⟨rfl, rfl⟩
      exact List.mem_cons_self a as
    · split at h <;> simp only [Option.some.injEq, Prod.mk.injEq] at h <;>
        rcases h with ⟨rfl, rfl⟩
      · exact List.mem_cons_self a as
      · exact List.mem_cons_of_mem a (ih hpm)

theorem pop_min_perm {q : List sentry} {e : sentry} {rest : List sentry}
    (h : pop_min q = some (e, rest)) : q.Perm (e :: rest) := by
  induction q generalizing e rest with
  | nil => simp [pop_min] at h
  | cons a as ih =>
    rcases hpm : pop_min as with _ | ⟨m, r⟩ <;>
      simp only [pop_min, hpm, Option.some.injEq, Prod.mk.injEq] at h
    · rcases h with ⟨rfl, rfl⟩
      rw [pop_min_eq_none hpm]
    · split at h <;> simp only [Option.some.injEq, Prod.mk.injEq] at h <;>
        rcases h with ⟨rfl, rfl⟩
      · exact List.Perm.refl _
      · exact ((ih hpm).cons a).trans (List.Perm.swap _ _ _)

theorem pop_min_mem_rest {q : List sentry} {e e' : sentry} {rest : List sentry}
    (h : pop_min q = some (e, rest)) (h' : e' ∈ rest) : e' ∈ q :=
  (pop_min_perm h).mem_iff.mpr (List.mem_cons_of_mem e h')

theorem seed_foldl (g : hgraph) (dist : vector3d → vector3d → ℚ) :
    ∀ (l : List hanan_node) (st : astate),
      l.foldl (seed_step g dist) st =
        ⟨(l.reverse.map fun s => ((heur g dist s, s.id, s) : sentry)) ++ st.queue,
          st.close_set, st.came_from,
          (l.reverse.map fun s => (s.id, (0 : ℚ))) ++ st.g_scores,
          (l.reverse.map fun s => (s.id, heur g dist s)) ++ st.f_scores⟩ := by
  intro l
  induction l with
  | nil => intro st; simp
  | cons a as ih =>
    intro st
    rw [List.foldl_cons, ih]
    simp [seed_step]

theorem init_state_queue (g : hgraph) (dist : vector3d → vector3d → ℚ) :
    (init_state g dist).queue =
      g.source_nodes.reverse.map fun s => ((heur g dist s, s.id, s) : sentry) := by
  unfold init_state
  rw [seed_foldl]
  simp

theorem init_state_close (g : hgraph) (dist : vector3d → vector3d → ℚ) :
    (init_state g dist).close_set = [] := by
  unfold init_state
  rw [seed_foldl]

theorem init_state_cf (g : hgraph) (dist : vector3d → vector3d → ℚ) :
    (init_state g dist).came_from = [] := by
  unfold init_state
  rw [seed_foldl]

theorem init_state_g (g : hgraph) (dist : vector3d → vector3d → ℚ) :
    (init_state g dist).g_scores =
      g.source_nodes.reverse.map fun s => (s.id, (0 : ℚ)) := by
  unfold init_state
  rw [seed_foldl]
  simp

theorem init_queue_src (g : hgraph) (dist : vector3d → vector3d → ℚ) :
    ∀ e ∈ (init_state g dist).queue, e.2.2 ∈ g.source_nodes ∧
      e.2.1 = e.2.2.id ∧ e.1 = heur g dist e.2.2 := by
  intro e he
  rw [init_state_queue] at he
  rcases List.mem_map.mp he with ⟨s, hs, rfl⟩
  exact ⟨List.mem_reverse.mp hs, rfl, rfl⟩

theorem relax_queue_walks (g : hgraph) (cost : hanan_node → hanan_node → ℚ)
    (dist : vector3d → vector3d → ℚ) (current : hanan_node) (st : astate)
    (hcur : ∃ q, walk_to g q current)
    (hst : ∀ e ∈ st.queue, ∃ q, walk_to g q e.2.2) :
    ∀ e ∈ (relax g cost dist current st).queue, ∃ q, walk_to g q e.2.2 := by
  unfold relax
  have main : ∀ (ns : List hanan_node), (∀ v ∈ ns, v ∈ neighbors_of g current) →
      ∀ (st2 : astate), (∀ e ∈ st2.queue, ∃ q, walk_to g q e.2.2) →
      ∀ e ∈ (ns.foldl (relax_step g cost dist current) st2).queue,
        ∃ q, walk_to g q e.2.2 := by
    intro ns
    induction ns with
    | nil => intro _ st2 hst2; exact hst2
    | cons v vs ih =>
      intro hsub st2 hst2
      rw [List.foldl_cons]
      refine ih (fun w hw => hsub w (List.mem_cons_of_mem v hw)) _ ?_
      intro e he
      simp only [relax_step] at he
      split at he
      · rcases List.mem_cons.mp he with rfl | he'
        · obtain ⟨q, hq⟩ := hcur
          exact ⟨q ++ [v], hq.step (hsub v (List.mem_cons_self v vs))⟩
        · exact hst2 e he'
      · exact hst2 e he
  exact main _ (fun v hv => hv) st hst

theorem astar_loop_walks (g : hgraph) (cost : hanan_node → hanan_node → ℚ)
    (dist : vector3d → vector3d → ℚ) :
    ∀ (fuel : ℕ) (st : astate),
      (∀ e ∈ st.queue, ∃ q, walk_to g q e.2.2) →
      ∀ p, astar_loop g cost dist fuel st = some p → ∃ q, st_walk g q := by
  intro fuel
  induction fuel with
  | zero => intro st _ p h; simp [astar_loop] at h
  | succ n ih =>
    intro st hq p h
    rw [astar_loop] at h
    rcases hpm : pop_min st.queue with _ | ⟨e, rest⟩ <;> rw [hpm] at h
    · simp at h
    · simp only at h
      split at h
      · exact ih _ (fun e' he' => hq e' (pop_min_mem_rest hpm he')) p h
      · split at h
        · obtain ⟨q, hwq⟩ := hq e (pop_min_mem hpm)
          exact ⟨q, e.2.2, hwq, by assumption⟩
        · refine ih _ ?_ p h
          refine relax_queue_walks g cost dist e.2.2 _ (hq e (pop_min_mem hpm)) ?_
          intro e' he'
          exact hq e' (pop_min_mem_rest hpm he')

/-- C3.  On any graph in which no complete source-to-target walk exists
(empty source or target lists included), the search drains the queue and
returns the `None` failure sentinel; being a total function of the state, it
neither faults nor produces a partial path. -/
theorem claim3_unreachable_returns_none (g : hgraph)
    (cost : hanan_node → hanan_node → ℚ) (dist : vector3d → vector3d → ℚ)
    (h : ∀ q, ¬ st_walk g q) :
    find_shortest_path g cost dist = none := by
  rcases hfind : find_shortest_path g cost dist with _ | p
  · rfl
  · exfalso
    have hinit : ∀ e ∈ (init_state g dist).queue, ∃ q, walk_to g q e.2.2 := by
      intro e he
      exact ⟨[e.2.2], walk_to.base (init_queue_src g dist e he).1⟩
    obtain ⟨q, hq⟩ := astar_loop_walks g cost dist (search_fuel g)
      (init_state g dist) hinit p hfind
    exact h q hq

/-- C3 witness: the empty-target example graph, where no source-to-target
walk can exist, indeed yields `none`. -/
theorem claim3_witness :
    find_shortest_path exg3 unit_cost zero_dist = none :=
  claim3_unreachable_returns_none exg3 unit_cost zero_dist
    (fun q hq => by
      obtain ⟨t, _, ht⟩ := hq
      simp [exg3] at ht)

theorem adj_get_set_self (adj : adjmap) (k : ℕ) (v : List ℕ) :
    adj_get (adj_set adj k v) k = v := by
  simp [adj_get, adj_set, List.lookup]

theorem adj_get_set_ne (adj : adjmap) (k k' : ℕ) (v : List ℕ) (h : k' ≠ k) :
    adj_get (adj_set adj k v) k' = adj_get adj k' := by
  simp only [adj_get, adj_set, List.lookup, beq_eq_false_iff_ne.mpr h]

theorem add_neighbor_get_fst (adj : adjmap) (a b : ℕ) (hab : a ≠ b) :
    adj_get (add_neighbor adj a b) a = adj_get adj a ++ [b] := by
  unfold add_neighbor
  rw [adj_get_set_ne _ _ _ _ hab, adj_get_set_self]

theorem add_neighbor_get_snd (adj : adjmap) (a b : ℕ) (hab : a ≠ b) :
    adj_get (add_neighbor adj a b) b = adj_get adj b ++ [a] := by
  unfold add_neighbor
  rw [adj_get_set_self, adj_get_set_ne _ _ _ _ (Ne.symm hab)]

theorem add_neighbor_get_other (adj : adjmap) (a b k : ℕ) (ha : k ≠ a) (hb : k ≠ b) :
    adj_get (add_neighbor adj a b) k = adj_get adj k := by
  unfold add_neighbor
  rw [adj_get_set_ne _ _ _ _ hb, adj_get_set_ne _ _ _ _ ha]

theorem add_neighbor_mono (adj : adjmap) (a b k j : ℕ) (hab : a ≠ b)
    (h : j ∈ adj_get adj k) : j ∈ adj_get (add_neighbor adj a b) k := by
  by_cases hka : k = a
  · subst hka
    rw [add_neighbor_get_fst _ _ _ hab]
    exact List.mem_append_left _ h
  · by_cases hkb : k = b
    · subst hkb
      rw [add_neighbor_get_snd _ _ _ hab]
      exact List.mem_append_left _ h
    · rwa [add_neighbor_get_other _ _ _ _ hka hkb]

theorem add_neighbor_sym {adj : adjmap} (hs : adj_sym adj) {a b : ℕ} (hab : a ≠ b) :
    adj_sym (add_neighbor adj a b) := by
  intro i j hj
  by_cases hia : i = a
  · subst hia
    rw [add_neighbor_get_fst _ _ _ hab] at hj
    rcases List.mem_append.mp hj with hj | hj
    · exact add_neighbor_mono _ _ _ _ _ hab (hs _ _ hj)
    · simp only [List.mem_singleton] at hj
      subst hj
      rw [add_neighbor_get_snd _ _ _ hab]
      exact List.mem_append_right _ (List.mem_singleton_self _)
  · by_cases hib : i = b
    · subst hib
      rw [add_neighbor_get_snd _ _ _ hab] at hj
      rcases List.mem_append.mp hj with hj | hj
      · exact add_neighbor_mono _ _ _ _ _ hab (hs _ _ hj)
      · simp only [List.mem_singleton] at hj
        subst hj
        rw [add_neighbor_get_fst _ _ _ hab]
        exact List.mem_append_right _ (List.mem_singleton_self _)
    · rw [add_neighbor_get_other _ _ _ _ hia hib] at hj
      exact add_neighbor_mono _ _ _ _ _ hab (hs _ _ hj)

theorem add_neighbor_nodup {adj : adjmap} (hn : adj_nodup adj) {a b : ℕ}
    (hab : a ≠ b) (hba : b ∉ adj_get adj a) (hab2 : a ∉ adj_get adj b) :
    adj_nodup (add_neighbor adj a b) := by
  intro k
  by_cases hka : k = a
  · subst hka
    rw [add_neighbor_get_fst _ _ _ hab]
    exact List.Nodup.append (hn _) (List.nodup_singleton _) (by simpa using hba)
  · by_cases hkb : k = b
    · subst hkb
      rw [add_neighbor_get_snd _ _ _ hab]
      exact List.Nodup.append (hn _) (List.nodup_singleton _) (by simpa using hab2)
    · rw [add_neighbor_get_other _ _ _ _ hka hkb]
      exact hn _

theorem add_neighbor_hi {adj : adjmap} {N : ℕ}
    (hhi : ∀ k, N ≤ k → adj_get adj k = []) {a b : ℕ} (ha : a < N) (hb : b < N) :
    ∀ k, N ≤ k → adj_get (add_neighbor adj a b) k = [] := by
  intro k hk
  rw [add_neighbor_get_other _ _ _ _ (by omega) (by omega)]
  exact hhi k hk

theorem add_neighbor_lt {adj : adjmap} {N : ℕ}
    (hlt : ∀ k j, j ∈ adj_get adj k → j < N ∧ k < N) {a b : ℕ}
    (ha : a < N) (hb : b < N) (hab : a ≠ b) :
    ∀ k j, j ∈ adj_get (add_neighbor adj a b) k → j < N ∧ k < N := by
  intro k j hj
  by_cases hka : k = a
  · subst hka
    rw [add_neighbor_get_fst _ _ _ hab] at hj
    rcases List.mem_append.mp hj with hj | hj
    · exact ⟨(hlt _ _ hj).1, ha⟩
    · simp only [List.mem_singleton] at hj
      exact ⟨hj ▸ hb, ha⟩
  · by_cases hkb : k = b
    · subst hkb
      rw [add_neighbor_get_snd _ _ _ hab] at hj
      rcases List.mem_append.mp hj with hj | hj
      · exact ⟨(hlt _ _ hj).1, hb⟩
      · simp only [List.mem_singleton] at hj
        exact ⟨hj ▸ ha, hb⟩
    · rw [add_neighbor_get_other _ _ _ _ hka hkb] at hj
      exact hlt _ _ hj

theorem fold_erase_get (rid : ℕ) :
    ∀ (ns : List ℕ) (adj : adjmap), ns.Nodup →
      ∀ k, adj_get (ns.foldl (fun a b => adj_set a b ((adj_get a b).erase rid)) adj) k =
        if k ∈ ns then (adj_get adj k).erase rid else adj_get adj k := by
  intro ns
  induction ns with
  | nil => intro adj _ k; simp
  | cons b bs ih =>
    intro adj hnd k
    rw [List.foldl_cons, ih _ (List.nodup_cons.mp hnd).2]
    by_cases hkb : k = b
    · subst hkb
      have : k ∉ bs := (List.nodup_cons.mp hnd).1
      simp only [this, if_false, List.mem_cons, true_or, if_true]
      rw [adj_get_set_self]
    · by_cases hkbs : k ∈ bs
      · simp only [hkbs, if_true, List.mem_cons, or_true]
        rw [adj_get_set_ne _ _ _ _ hkb]
      · simp only [hkbs, if_false, List.mem_cons]
        rw [adj_get_set_ne _ _ _ _ hkb]
        simp [hkb, hkbs]

theorem remove_all_get {adj : adjmap} {rid : ℕ} (hnd : (adj_get adj rid).Nodup) (k : ℕ) :
    adj_get (remove_all_neighbors adj rid) k =
      if k = rid then []
      else if k ∈ adj_get adj rid then (adj_get adj k).erase rid
      else adj_get adj k := by
  unfold remove_all_neighbors
  by_cases hk : k = rid
  · subst hk
    simp only [if_true]
    rw [adj_get_set_self]
  · simp only [hk, if_false]
    rw [adj_get_set_ne _ _ _ _ hk, fold_erase_get _ _ _ hnd]

theorem remove_all_sub {adj : adjmap} {rid : ℕ} (hnd : (adj_get adj rid).Nodup)
    (k j : ℕ) (h : j ∈ adj_get (remove_all_neighbors adj rid) k) : j ∈ adj_get adj k := by
  rw [remove_all_get hnd] at h
  split at h
  · simp at h
  · split at h
    · exact (List.erase_subset _ _) h
    · exact h

theorem remove_all_sym {adj : adjmap} (hs : adj_sym adj) (hn : adj_nodup adj)
    (rid : ℕ) : adj_sym (remove_all_neighbors adj rid) := by
  intro i j hj
  rw [remove_all_get (hn rid)] at hj ⊢
  split at hj
  · simp at hj
  · rename_i hi
    have hji : j ∈ adj_get adj i ∧ j ≠ rid := by
      split at hj
      · have := (List.Nodup.mem_erase_iff (hn i)).mp hj
        exact ⟨this.2, this.1⟩
      · rename_i hnotin
        refine ⟨hj, ?_⟩
        intro hjr
        exact hnotin (hs i rid (hjr ▸ hj))
    have hij : i ∈ adj_get adj j := hs _ _ hji.1
    rw [if_neg hji.2]
    by_cases hjm : j ∈ adj_get adj rid
    · rw [if_pos hjm]
      exact (List.Nodup.mem_erase_iff (hn j)).mpr ⟨hi, hij⟩
    · rw [if_neg hjm]
      exact hij

theorem remove_all_nodup {adj : adjmap} (hn : adj_nodup adj) (rid : ℕ) :
    adj_nodup (remove_all_neighbors adj rid) := by
  intro k
  rw [remove_all_get (hn rid)]
  split
  · exact List.nodup_nil
  · split
    · exact (hn k).erase _
    · exact hn k

theorem remove_all_no_rid {adj : adjmap} (hs : adj_sym adj) (hn : adj_nodup adj)
    (rid : ℕ) : ∀ k, rid ∉ adj_get (remove_all_neighbors adj rid) k := by
  intro k
  rw [remove_all_get (hn rid)]
  split
  · simp
  · split
    · intro hmem
      exact ((List.Nodup.mem_erase_iff (hn k)).mp hmem).1 rfl
    · rename_i hk hnotin
      intro hmem
      exact hnotin (hs k rid hmem)

theorem remove_all_self_empty {adj : adjmap} {rid : ℕ}
    (hnd : (adj_get adj rid).Nodup) :
    adj_get (remove_all_neighbors adj rid) rid = [] := by
  rw [remove_all_get hnd]
  simp

theorem rbn_fold_fst (B : List shape) (l : List hanan_node) (adj : adjmap) :
    (l.foldr (fun n acc =>
      if B.any (fun blockage => inside_shape n.center blockage)
      then (acc.1, remove_all_neighbors acc.2 n.id)
      else (n :: acc.1, acc.2)) ([], adj)).1 =
    l.filter (fun n => !(B.any (fun blockage => inside_shape n.center blockage))) := by
  induction l with
  | nil => rfl
  | cons n rest ih =>
    rw [List.foldr_cons, List.filter_cons]
    cases hb : B.any (fun blockage => inside_shape n.center blockage)
    · simp only [hb, Bool.false_eq_true, if_false, Bool.not_false, if_true]
      rw [← ih]
    · simp only [hb, if_true, Bool.not_true, Bool.false_eq_true, if_false]
      rw [← ih]

theorem rbn_nodes (B : List shape) (g : hgraph) :
    (remove_blocked_nodes B g).nodes =
      g.nodes.filter (fun n => !(B.any (fun blockage => inside_shape n.center blockage))) :=
  rbn_fold_fst B g.nodes g.adj

theorem rbn_src (B : List shape) (g : hgraph) :
    (remove_blocked_nodes B g).source_nodes = g.source_nodes := rfl

theorem rbn_tgt (B : List shape) (g : hgraph) :
    (remove_blocked_nodes B g).target_nodes = g.target_nodes := rfl

theorem rbn_arena (B : List shape) (g : hgraph) :
    (remove_blocked_nodes B g).arena = g.arena := rfl

theorem rbn_fold_adj (B : List shape) :
    ∀ (l : List hanan_node) (adj : adjmap), adj_sym adj → adj_nodup adj →
      adj_sym (l.foldr (fun n acc =>
          if B.any (fun blockage => inside_shape n.center blockage)
          then (acc.1, remove_all_neighbors acc.2 n.id)
          else (n :: acc.1, acc.2)) ([], adj)).2 ∧
      adj_nodup (l.foldr (fun n acc =>
          if B.any (fun blockage => inside_shape n.center blockage)
          then (acc.1, remove_all_neighbors acc.2 n.id)
          else (n :: acc.1, acc.2)) ([], adj)).2 ∧
      (∀ k j, j ∈ adj_get (l.foldr (fun n acc =>
          if B.any (fun blockage => inside_shape n.center blockage)
          then (acc.1, remove_all_neighbors acc.2 n.id)
          else (n :: acc.1, acc.2)) ([], adj)).2 k → j ∈ adj_get adj k) ∧
      (∀ n ∈ l, B.any (fun blockage => inside_shape n.center blockage) = true →
        adj_get (l.foldr (fun n acc =>
          if B.any (fun blockage => inside_shape n.center blockage)
          then (acc.1, remove_all_neighbors acc.2 n.id)
          else (n :: acc.1, acc.2)) ([], adj)).2 n.id = [] ∧
        ∀ k, n.id ∉ adj_get (l.foldr (fun n acc =>
          if B.any (fun blockage => inside_shape n.center blockage)
          then (acc.1, remove_all_neighbors acc.2 n.id)
          else (n :: acc.1, acc.2)) ([], adj)).2 k) ∧
      (∀ k j, j ∈ adj_get adj k →
        (∀ n ∈ l, B.any (fun blockage => inside_shape n.center blockage) = true →
          j ≠ n.id ∧ k ≠ n.id) →
        j ∈ adj_get (l.foldr (fun n acc =>
          if B.any (fun blockage => inside_shape n.center blockage)
          then (acc.1, remove_all_neighbors acc.2 n.id)
          else (n :: acc.1, acc.2)) ([], adj)).2 k) := by
  intro l
  induction l with
  | nil =>
    intro adj hs hn
    exact ⟨hs, hn, fun k j h => h, by simp, fun k j h _ => h⟩
  | cons n rest ih =>
    intro adj hs hn
    obtain ⟨ihs, ihn, ihsub, ihrm, ihkeep⟩ := ih adj hs hn
    rw [List.foldr_cons]
    cases hb : B.any (fun blockage => inside_shape n.center blockage)
    · simp only [hb, Bool.false_eq_true, if_false]
      refine ⟨ihs, ihn, ihsub, ?_, ?_⟩
      · intro m hm hPm
        rcases List.mem_cons.mp hm with rfl | hm'
        · rw [hPm] at hb
          cases hb
        · exact ihrm m hm' hPm
      · intro k j hj hprot
        exact ihkeep k j hj (fun m hm hPm => hprot m (List.mem_cons_of_mem _ hm) hPm)
    · simp only [hb, if_true]
      refine ⟨remove_all_sym ihs ihn _, remove_all_nodup ihn _, ?_, ?_, ?_⟩
      · intro k j hj
        exact ihsub k j (remove_all_sub (ihn _) k j hj)
      · intro m hm hPm
        rcases List.mem_cons.mp hm with rfl | hm'
        · exact ⟨remove_all_self_empty (ihn _), remove_all_no_rid ihs ihn _⟩
        · obtain ⟨hempty, habs⟩ := ihrm m hm' hPm
          constructor
          · rw [remove_all_get (ihn _)]
            split
            · rfl
            · split
              · rw [hempty, List.erase_nil]
              · exact hempty
          · intro k hmem
            exact habs k (remove_all_sub (ihn _) k m.id hmem)
      · intro k j hj hprot
        have hinner := ihkeep k j hj
          (fun m hm hPm => hprot m (List.mem_cons_of_mem _ hm) hPm)
        have hjn : j ≠ n.id ∧ k ≠ n.id := hprot n (List.mem_cons_self _ _) hb
        rw [remove_all_get (ihn _)]
        rw [if_neg hjn.2]
        split
        · exact List.mem_erase_of_ne hjn.1 |>.mpr hinner
        · exact hinner

theorem rbn_adj_facts (B : List shape) (g : hgraph)
    (hs : adj_sym g.adj) (hn : adj_nodup g.adj) :
    adj_sym (remove_blocked_nodes B g).adj ∧
    adj_nodup (remove_blocked_nodes B g).adj ∧
    (∀ k j, j ∈ adj_get (remove_blocked_nodes B g).adj k → j ∈ adj_get g.adj k) ∧
    (∀ n ∈ g.nodes, B.any (fun blockage => inside_shape n.center blockage) = true →
      adj_get (remove_blocked_nodes B g).adj n.id = [] ∧
      ∀ k, n.id ∉ adj_get (remove_blocked_nodes B g).adj k) ∧
    (∀ k j, j ∈ adj_get g.adj k →
      (∀ n ∈ g.nodes, B.any (fun blockage => inside_shape n.center blockage) = true →
        j ≠ n.id ∧ k ≠ n.id) →
      j ∈ adj_get (remove_blocked_nodes B g).adj k) :=
  rbn_fold_adj B g.nodes g.adj hs hn

/-- C10.  `remove_blocked_nodes` leaves the source and target classification
lists untouched, so a pruned node that was classified as a source is still
seeded into the search queue (the seeding walks `source_nodes`, not the
surviving node list), and a pruned target remains in the goal list that the
search tests popped nodes against. -/
theorem claim10_prune_preserves_endpoints (B : List shape) (g : hgraph)
    (dist : vector3d → vector3d → ℚ) :
    (remove_blocked_nodes B g).source_nodes = g.source_nodes ∧
    (remove_blocked_nodes B g).target_nodes = g.target_nodes ∧
    (∀ n, n ∈ g.source_nodes →
      ((heur (remove_blocked_nodes B g) dist n, n.id, n) : sentry) ∈
        (init_state (remove_blocked_nodes B g) dist).queue) ∧
    (∀ n, n ∈ g.target_nodes → n ∈ (remove_blocked_nodes B g).target_nodes) := by
  refine ⟨rfl, rfl, ?_, ?_⟩
  · intro n hn
    rw [init_state_queue]
    exact List.mem_map.mpr ⟨n, List.mem_reverse.mpr hn, rfl⟩
  · intro n hn
    exact hn

/-- C10 witness: a blockage covering the example source prunes its node, yet
the node keeps its place in `source_nodes` and its seeded queue entry. -/
theorem claim10_witness :
    exnS ∈ exg1.source_nodes ∧
    exnS ∉ (remove_blocked_nodes [exblk2] exg1).nodes ∧
    ((heur (remove_blocked_nodes [exblk2] exg1) zero_dist exnS, exnS.id, exnS) : sentry) ∈
      (init_state (remove_blocked_nodes [exblk2] exg1) zero_dist).queue := by
  refine ⟨by with_unfolding_all decide, by with_unfolding_all decide, ?_⟩
  exact (claim10_prune_preserves_endpoints [exblk2] exg1 zero_dist).2.2.1 exnS
    (by with_unfolding_all decide)

theorem ids_getD {st : hgraph}
    (hw : st.nodes.map hanan_node.id = List.range st.nodes.length)
    {i : ℕ} (hi : i < st.nodes.length) (d : hanan_node) :
    (st.nodes.getD i d).id = i := by
  rw [List.getD_eq_getElem _ _ hi]
  have hmap : i < (st.nodes.map hanan_node.id).length := by simpa using hi
  have key : (st.nodes.map hanan_node.id)[i] = i := by
    rw [List.getElem_of_eq hw hmap]
    exact List.getElem_range i _
  rw [List.getElem_map] at key
  exact key

theorem getD_mem {l : List hanan_node} {i : ℕ} (hi : i < l.length) (d : hanan_node) :
    l.getD i d ∈ l := by
  rw [List.getD_eq_getElem _ _ hi]
  exact List.getElem_mem _

theorem ids_inj {st : hgraph}
    (hw : st.nodes.map hanan_node.id = List.range st.nodes.length) :
    ∀ a ∈ st.nodes, ∀ b ∈ st.nodes, a.id = b.id → a = b := by
  have hnd : (st.nodes.map hanan_node.id).Nodup := by
    rw [hw]
    exact List.nodup_range _
  exact fun a ha b hb h => List.inj_on_of_nodup_map hnd ha hb h

theorem ids_lt {st : hgraph}
    (hw : st.nodes.map hanan_node.id = List.range st.nodes.length) :
    ∀ n ∈ st.nodes, n.id < st.nodes.length := by
  intro n hn
  have : n.id ∈ st.nodes.map hanan_node.id := List.mem_map_of_mem _ hn
  rw [hw] at this
  exact List.mem_range.mp this

theorem cond_add_bundle {adj : adjmap} {M : ℕ} (c : Prop) [Decidable c] (a b : ℕ)
    (hsym : adj_sym adj) (hnd : adj_nodup adj)
    (hlt : ∀ k j, j ∈ adj_get adj k → j < M ∧ k < M)
    (hhi : ∀ k, M ≤ k → adj_get adj k = [])
    (ha : c → a < M) (hb : c → b < M) (hab : c → a ≠ b)
    (hfr1 : c → b ∉ adj_get adj a) (hfr2 : c → a ∉ adj_get adj b) :
    adj_sym (if c then add_neighbor adj a b else adj) ∧
    adj_nodup (if c then add_neighbor adj a b else adj) ∧
    (∀ k j, j ∈ adj_get (if c then add_neighbor adj a b else adj) k → j < M ∧ k < M) ∧
    (∀ k, M ≤ k → adj_get (if c then add_neighbor adj a b else adj) k = []) ∧
    (∀ k j, j ∈ adj_get adj k → j ∈ adj_get (if c then add_neighbor adj a b else adj) k) ∧
    (∀ k, k ≠ a → k ≠ b →
      adj_get (if c then add_neighbor adj a b else adj) k = adj_get adj k) ∧
    (c → adj_get (if c then add_neighbor adj a b else adj) a = adj_get adj a ++ [b] ∧
      adj_get (if c then add_neighbor adj a b else adj) b = adj_get adj b ++ [a]) ∧
    (¬c → (if c then add_neighbor adj a b else adj) = adj) := by
  by_cases hc : c
  · rw [if_pos hc]
    exact ⟨add_neighbor_sym hsym (hab hc),
      add_neighbor_nodup hnd (hab hc) (hfr1 hc) (hfr2 hc),
      add_neighbor_lt hlt (ha hc) (hb hc) (hab hc),
      add_neighbor_hi hhi (ha hc) (hb hc),
      fun k j h => add_neighbor_mono _ _ _ _ _ (hab hc) h,
      fun k hka hkb => add_neighbor_get_other _ _ _ _ hka hkb,
      fun _ => ⟨add_neighbor_get_fst _ _ _ (hab hc), add_neighbor_get_snd _ _ _ (hab hc)⟩,
      fun hnc => absurd hc hnc⟩
  · rw [if_neg hc]
    exact ⟨hsym, hnd, hlt, hhi, fun _ _ h => h, fun _ _ _ => rfl,
      fun hcc => absurd hcc hc, fun _ => rfl⟩

theorem hanan_step_wf (gb : List shape) (source target : shape) (ylen : ℕ)
    (st : hgraph) (x y : ℚ) (hwf : gen_wf st) (hyl : 1 ≤ ylen)
    (hfresh : ∀ n ∈ st.nodes, ¬(n.center.x = x ∧ n.center.y = y)) :
    gen_wf (hanan_step gb source target ylen st x y) ∧
    (hanan_step gb source target ylen st x y).nodes =
      st.nodes ++ [⟨st.nodes.length, ⟨x, y, 0⟩⟩, ⟨st.nodes.length + 1, ⟨x, y, 1⟩⟩] ∧
    (∀ k j, j ∈ adj_get st.adj k →
      j ∈ adj_get (hanan_step gb source target ylen st x y).adj k) := by
  obtain ⟨hir, hev, hhi, hlt, hnd, hsym, hvia, hpart, hz, hxy, hss, hts, har⟩ := hwf
  set L := st.nodes.length with hLdef
  set dB := st.nodes.getD (L - 2) default with hdB
  set dA := st.nodes.getD (L - 1) default with hdA
  set lB := st.nodes.getD (L - 2 * ylen) default with hlB
  set lA := st.nodes.getD (L - 2 * ylen + 1) default with hlA
  have hcount : L / 2 % ylen ≠ 0 → 2 ≤ L ∧ 2 ≤ ylen := by
    intro hc
    constructor
    · by_contra h
      have hL0 : L = 0 := by omega
      simp [hL0] at hc
    · by_contra h
      have hy1 : ylen = 1 := by omega
      rw [hy1] at hc
      omega
  have hleft : ylen ≤ L / 2 → 2 * ylen ≤ L := by omega
  have hdBid : 2 ≤ L → dB.id = L - 2 := by
    intro h
    rw [hdB]
    exact ids_getD hir (by omega) _
  have hdAid : 2 ≤ L → dA.id = L - 1 := by
    intro h
    rw [hdA]
    exact ids_getD hir (by omega) _
  have hlBid : 2 * ylen ≤ L → lB.id = L - 2 * ylen := by
    intro h
    rw [hlB]
    exact ids_getD hir (by omega) _
  have hlAid : 2 * ylen ≤ L → lA.id = L - 2 * ylen + 1 := by
    intro h
    rw [hlA]
    exact ids_getD hir (by omega) _
  have hb0 : adj_get st.adj L = [] := hhi L (le_refl L)
  have ha0 : adj_get st.adj (L + 1) = [] := hhi (L + 1) (by omega)
  have hlt2 : ∀ k j, j ∈ adj_get st.adj k → j < L + 2 ∧ k < L + 2 := by
    intro k j h
    have := hlt k j h
    omega
  have hhi2 : ∀ k, L + 2 ≤ k → adj_get st.adj k = [] := fun k hk => hhi k (by omega)
  set adj0 := add_neighbor st.adj L (L + 1) with hadj0
  have hne01 : L ≠ L + 1 := by omega
  have s0 : adj_sym adj0 := add_neighbor_sym hsym hne01
  have n0 : adj_nodup adj0 :=
    add_neighbor_nodup hnd hne01 (by rw [hb0]; simp) (by rw [ha0]; simp)
  have lt0 : ∀ k j, j ∈ adj_get adj0 k → j < L + 2 ∧ k < L + 2 :=
    add_neighbor_lt hlt2 (by omega) (by omega) hne01
  have hi0 : ∀ k, L + 2 ≤ k → adj_get adj0 k = [] :=
    add_neighbor_hi hhi2 (by omega) (by omega)
  have mono0 : ∀ k j, j ∈ adj_get st.adj k → j ∈ adj_get adj0 k :=
    fun k j h => add_neighbor_mono _ _ _ _ _ hne01 h
  have g0b : adj_get adj0 L = [L + 1] := by
    rw [hadj0, add_neighbor_get_fst _ _ _ hne01, hb0]
    rfl
  have g0a : adj_get adj0 (L + 1) = [L] := by
    rw [hadj0, add_neighbor_get_snd _ _ _ hne01, ha0]
    rfl
  have oth0 : ∀ k, k ≠ L → k ≠ L + 1 → adj_get adj0 k = adj_get st.adj k := by
    intro k h1 h2
    rw [hadj0]
    exact add_neighbor_get_other _ _ _ _ h1 h2
  -- stage 1: below to the pair below
  set adj1 := (if L / 2 % ylen ≠ 0 ∧ ¬ is_probe_blocked gb (⟨x, y, 0⟩ : vector3d) dB.center
    then add_neighbor adj0 L dB.id else adj0) with hadj1
  obtain ⟨s1, n1, lt1, hi1, mono1, oth1, pos1, neg1⟩ :=
    cond_add_bundle
      (L / 2 % ylen ≠ 0 ∧ ¬ is_probe_blocked gb (⟨x, y, 0⟩ : vector3d) dB.center)
      L dB.id s0 n0 lt0 hi0
      (fun _ => by omega)
      (fun hc => by have h2 := hcount hc.1; rw [hdBid h2.1]; omega)
      (fun hc => by have h2 := hcount hc.1; rw [hdBid h2.1]; omega)
      (fun hc => by
        have h2 := hcount hc.1
        rw [g0b, hdBid h2.1]
        simp only [List.mem_singleton]
        omega)
      (fun hc => by
        have h2 := hcount hc.1
        rw [hdBid h2.1, oth0 _ (by omega) (by omega)]
        intro hmem
        have := hlt _ _ hmem
        omega)
  rw [← hadj1] at s1 n1 lt1 hi1 mono1 oth1 pos1 neg1
  have chain1 : ∀ k, k ≠ L → k ≠ L + 1 → (L / 2 % ylen ≠ 0 → k ≠ L - 2) →
      adj_get adj1 k = adj_get st.adj k := by
    intro k hkL hkL1 hdown
    by_cases hc1 : (L / 2 % ylen ≠ 0 ∧ ¬ is_probe_blocked gb (⟨x, y, 0⟩ : vector3d) dB.center)
    · rw [oth1 _ hkL (by rw [hdBid (hcount hc1.1).1]; exact hdown hc1.1), oth0 _ hkL hkL1]
    · rw [neg1 hc1, oth0 _ hkL hkL1]
  have g1a : adj_get adj1 (L + 1) = [L] := by
    by_cases hc1 : (L / 2 % ylen ≠ 0 ∧ ¬ is_probe_blocked gb (⟨x, y, 0⟩ : vector3d) dB.center)
    · have h2 := hcount hc1.1
      rw [oth1 _ (by omega) (by rw [hdBid h2.1]; omega), g0a]
    · rw [neg1 hc1, g0a]
  -- stage 2: below to the pair on the left
  set adj2 := (if ylen ≤ L / 2 ∧ ¬ is_probe_blocked gb (⟨x, y, 0⟩ : vector3d) lB.center
    then add_neighbor adj1 L lB.id else adj1) with hadj2
  obtain ⟨s2, n2, lt2, hi2, mono2, oth2, pos2, neg2⟩ :=
    cond_add_bundle
      (ylen ≤ L / 2 ∧ ¬ is_probe_blocked gb (⟨x, y, 0⟩ : vector3d) lB.center)
      L lB.id s1 n1 lt1 hi1
      (fun _ => by omega)
      (fun hc => by have h2 := hleft hc.1; rw [hlBid h2]; omega)
      (fun hc => by have h2 := hleft hc.1; rw [hlBid h2]; omega)
      (fun hc => by
        have hl2 := hleft hc.1
        by_cases hc1 : (L / 2 % ylen ≠ 0 ∧ ¬ is_probe_blocked gb (⟨x, y, 0⟩ : vector3d) dB.center)
        · have h2 := hcount hc1.1
          rw [(pos1 hc1).1, g0b, hlBid hl2, hdBid h2.1]
          simp only [List.mem_append, List.mem_singleton]
          push_neg
          constructor <;> omega
        · rw [neg1 hc1, g0b, hlBid hl2]
          simp only [List.mem_singleton]
          omega)
      (fun hc => by
        have hl2 := hleft hc.1
        rw [hlBid hl2, chain1 _ (by omega) (by omega)
          (fun hd => by have := (hcount hd).2; omega)]
        intro hmem
        have := hlt _ _ hmem
        omega)
  rw [← hadj2] at s2 n2 lt2 hi2 mono2 oth2 pos2 neg2
  have chain2 : ∀ k, k ≠ L → k ≠ L + 1 → (L / 2 % ylen ≠ 0 → k ≠ L - 2) →
      (ylen ≤ L / 2 → k ≠ L - 2 * ylen) → adj_get adj2 k = adj_get st.adj k := by
    intro k hkL hkL1 hdown hlft
    by_cases hc2 : (ylen ≤ L / 2 ∧ ¬ is_probe_blocked gb (⟨x, y, 0⟩ : vector3d) lB.center)
    · rw [oth2 _ hkL (by rw [hlBid (hleft hc2.1)]; exact hlft hc2.1)]
      exact chain1 k hkL hkL1 hdown
    · rw [neg2 hc2]
      exact chain1 k hkL hkL1 hdown
  have g2a : adj_get adj2 (L + 1) = [L] := by
    by_cases hc2 : (ylen ≤ L / 2 ∧ ¬ is_probe_blocked gb (⟨x, y, 0⟩ : vector3d) lB.center)
    · have hl2 := hleft hc2.1
      rw [oth2 _ (by omega) (by rw [hlBid hl2]; omega), g1a]
    · rw [neg2 hc2, g1a]
  -- stage 3: above to the pair below
  set adj3 := (if L / 2 % ylen ≠ 0 ∧ ¬ is_probe_blocked gb (⟨x, y, 1⟩ : vector3d) dA.center
    then add_neighbor adj2 (L + 1) dA.id else adj2) with hadj3
  obtain ⟨s3, n3, lt3, hi3, mono3, oth3, pos3, neg3⟩ :=
    cond_add_bundle
      (L / 2 % ylen ≠ 0 ∧ ¬ is_probe_blocked gb (⟨x, y, 1⟩ : vector3d) dA.center)
      (L + 1) dA.id s2 n2 lt2 hi2
      (fun _ => by omega)
      (fun hc => by have h2 := hcount hc.1; rw [hdAid h2.1]; omega)
      (fun hc => by have h2 := hcount hc.1; rw [hdAid h2.1]; omega)
      (fun hc => by
        have h2 := hcount hc.1
        rw [g2a, hdAid h2.1]
        simp only [List.mem_singleton]
        omega)
      (fun hc => by
        have h2 := hcount hc.1
        rw [hdAid h2.1, chain2 _ (by omega) (by omega) (fun _ => by omega)
          (fun hl => by have := hleft hl; omega)]
        intro hmem
        have := hlt _ _ hmem
        omega)
  rw [← hadj3] at s3 n3 lt3 hi3 mono3 oth3 pos3 neg3
  have chain3 : ∀ k, k ≠ L → k ≠ L + 1 →
      (L / 2 % ylen ≠ 0 → k ≠ L - 2 ∧ k ≠ L - 1) →
      (ylen ≤ L / 2 → k ≠ L - 2 * ylen) → adj_get adj3 k = adj_get st.adj k := by
    intro k hkL hkL1 hdown hlft
    by_cases hc3 : (L / 2 % ylen ≠ 0 ∧ ¬ is_probe_blocked gb (⟨x, y, 1⟩ : vector3d) dA.center)
    · rw [oth3 _ hkL1 (by rw [hdAid (hcount hc3.1).1]; exact (hdown hc3.1).2)]
      exact chain2 k hkL hkL1 (fun hd => (hdown hd).1) hlft
    · rw [neg3 hc3]
      exact chain2 k hkL hkL1 (fun hd => (hdown hd).1) hlft
  -- stage 4: above to the pair on the left
  set adj4 := (if ylen ≤ L / 2 ∧ ¬ is_probe_blocked gb (⟨x, y, 1⟩ : vector3d) lA.center
    then add_neighbor adj3 (L + 1) lA.id else adj3) with hadj4
  obtain ⟨s4, n4, lt4, hi4, mono4, oth4, pos4, neg4⟩ :=
    cond_add_bundle
      (ylen ≤ L / 2 ∧ ¬ is_probe_blocked gb (⟨x, y, 1⟩ : vector3d) lA.center)
      (L + 1) lA.id s3 n3 lt3 hi3
      (fun _ => by omega)
      (fun hc => by have h2 := hleft hc.1; rw [hlAid h2]; omega)
      (fun hc => by have h2 := hleft hc.1; rw [hlAid h2]; omega)
      (fun hc => by
        have hl2 := hleft hc.1
        by_cases hc3 : (L / 2 % ylen ≠ 0 ∧ ¬ is_probe_blocked gb (⟨x, y, 1⟩ : vector3d) dA.center)
        · have h2 := hcount hc3.1
          rw [(pos3 hc3).1, g2a, hlAid hl2, hdAid h2.1]
          simp only [List.mem_append, List.mem_singleton]
          push_neg
          constructor <;> omega
        · rw [neg3 hc3, g2a, hlAid hl2]
          simp only [List.mem_singleton]
          omega)
      (fun hc => by
        have hl2 := hleft hc.1
        rw [hlAid hl2, chain3 _ (by omega) (by omega)
          (fun hd => by have := (hcount hd).2; constructor <;> omega)
          (fun _ => by omega)]
        intro hmem
        have := hlt _ _ hmem
        omega)
  rw [← hadj4] at s4 n4 lt4 hi4 mono4 oth4 pos4 neg4
  have mono_all : ∀ k j, j ∈ adj_get st.adj k → j ∈ adj_get adj4 k :=
    fun k j h => mono4 _ _ (mono3 _ _ (mono2 _ _ (mono1 _ _ (mono0 _ _ h))))
  have mono_from0 : ∀ k j, j ∈ adj_get adj0 k → j ∈ adj_get adj4 k :=
    fun k j h => mono4 _ _ (mono3 _ _ (mono2 _ _ (mono1 _ _ h)))
  have hres_adj : (hanan_step gb source target ylen st x y).adj = adj4 := rfl
  have hres_nodes : (hanan_step gb source target ylen st x y).nodes =
      st.nodes ++ [⟨L, ⟨x, y, 0⟩⟩, ⟨L + 1, ⟨x, y, 1⟩⟩] := rfl
  have hres_arena : (hanan_step gb source target ylen st x y).arena =
      st.arena ++ [⟨L, ⟨x, y, 0⟩⟩, ⟨L + 1, ⟨x, y, 1⟩⟩] := rfl
  have hres_len : (hanan_step gb source target ylen st x y).nodes.length = L + 2 := by
    rw [hres_nodes]
    simp
  have hsrc_cases : ∀ n ∈ (hanan_step gb source target ylen st x y).source_nodes,
      n ∈ st.source_nodes ∨ n = (⟨L, ⟨x, y, 0⟩⟩ : hanan_node) ∨
        n = (⟨L + 1, ⟨x, y, 1⟩⟩ : hanan_node) := by
    intro n hn
    have hexp : (hanan_step gb source target ylen st x y).source_nodes =
        (if inside_shape (⟨x, y, 1⟩ : vector3d) source then
          (if inside_shape (⟨x, y, 0⟩ : vector3d) source
            then st.source_nodes ++ [⟨L, ⟨x, y, 0⟩⟩] else st.source_nodes) ++
            [⟨L + 1, ⟨x, y, 1⟩⟩]
         else
          (if inside_shape (⟨x, y, 0⟩ : vector3d) source
            then st.source_nodes ++ [⟨L, ⟨x, y, 0⟩⟩] else st.source_nodes)) := rfl
    rw [hexp] at hn
    split at hn
    · rcases List.mem_append.mp hn with hn' | hn'
      · split at hn'
        · rcases List.mem_append.mp hn' with h3 | h3
          · exact Or.inl h3
          · simp only [List.mem_singleton] at h3
            exact Or.inr (Or.inl h3)
        · exact Or.inl hn'
      · simp only [List.mem_singleton] at hn'
        exact Or.inr (Or.inr hn')
    · split at hn
      · rcases List.mem_append.mp hn with h3 | h3
        · exact Or.inl h3
        · simp only [List.mem_singleton] at h3
          exact Or.inr (Or.inl h3)
      · exact Or.inl hn
  have htgt_cases : ∀ n ∈ (hanan_step gb source target ylen st x y).target_nodes,
      n ∈ st.target_nodes ∨ n = (⟨L, ⟨x, y, 0⟩⟩ : hanan_node) ∨
        n = (⟨L + 1, ⟨x, y, 1⟩⟩ : hanan_node) := by
    intro n hn
    have hexp : (hanan_step gb source target ylen st x y).target_nodes =
        (if ¬ inside_shape (⟨x, y, 1⟩ : vector3d) source ∧
            inside_shape (⟨x, y, 1⟩ : vector3d) target then
          (if ¬ inside_shape (⟨x, y, 0⟩ : vector3d) source ∧
              inside_shape (⟨x, y, 0⟩ : vector3d) target
            then st.target_nodes ++ [⟨L, ⟨x, y, 0⟩⟩] else st.target_nodes) ++
            [⟨L + 1, ⟨x, y, 1⟩⟩]
         else
          (if ¬ inside_shape (⟨x, y, 0⟩ : vector3d) source ∧
              inside_shape (⟨x, y, 0⟩ : vector3d) target
            then st.target_nodes ++ [⟨L, ⟨x, y, 0⟩⟩] else st.target_nodes)) := rfl
    rw [hexp] at hn
    split at hn
    · rcases List.mem_append.mp hn with hn' | hn'
      · split at hn'
        · rcases List.mem_append.mp hn' with h3 | h3
          · exact Or.inl h3
          · simp only [List.mem_singleton] at h3
            exact Or.inr (Or.inl h3)
        · exact Or.inl hn'
      · simp only [List.mem_singleton] at hn'
        exact Or.inr (Or.inr hn')
    · split at hn
      · rcases List.mem_append.mp hn with h3 | h3
        · exact Or.inl h3
        · simp only [List.mem_singleton] at h3
          exact Or.inr (Or.inl h3)
      · exact Or.inl hn
  have hidlt := ids_lt hir
  refine ⟨⟨?_, ?_, ?_, ?_, ?_, ?_, ?_, ?_, ?_, ?_, ?_, ?_, ?_⟩, hres_nodes, ?_⟩
  · -- ids_range
    rw [hres_nodes]
    have hlen2 : (st.nodes ++
        [(⟨L, ⟨x, y, 0⟩⟩ : hanan_node), ⟨L + 1, ⟨x, y, 1⟩⟩]).length = L + 2 := by
      simp
    rw [hlen2]
    simp only [List.map_append, List.map_cons, List.map_nil, hir]
    rw [show L + 2 = (L + 1) + 1 from rfl, List.range_succ, List.range_succ]
    simp
  · -- even_len
    rw [hres_len]
    omega
  · -- adj_hi
    rw [hres_adj, hres_len]
    exact hi4
  · -- adj_lt
    rw [hres_adj, hres_len]
    exact lt4
  · -- nodup
    rw [hres_adj]
    exact n4
  · -- symm
    rw [hres_adj]
    exact s4
  · -- via
    rw [hres_adj, hres_nodes]
    intro a ha b hb hid hpar
    rcases List.mem_append.mp ha with hao | han
    · rcases List.mem_append.mp hb with hbo | hbn
      · obtain ⟨m1, m2, mx, my⟩ := hvia a hao b hbo hid hpar
        exact ⟨mono_all _ _ m1, mono_all _ _ m2, mx, my⟩
      · exfalso
        have hal := hidlt a hao
        simp only [List.mem_cons, List.mem_singleton, List.not_mem_nil, or_false] at hbn
        rcases hbn with rfl | rfl
        · simp only at hid
          omega
        · simp only at hid
          omega
    · rcases List.mem_append.mp hb with hbo | hbn
      · exfalso
        have hbl := hidlt b hbo
        simp only [List.mem_cons, List.mem_singleton, List.not_mem_nil, or_false] at han
        rcases han with rfl | rfl
        · simp only at hid
          omega
        · simp only at hid
          omega
      · simp only [List.mem_cons, List.mem_singleton, List.not_mem_nil, or_false] at han hbn
        rcases han with rfl | rfl
        · rcases hbn with rfl | rfl
          · exfalso
            simp only at hid
            omega
          · refine ⟨?_, ?_, rfl, rfl⟩
            · simp only
              apply mono_from0
              rw [g0b]
              exact List.mem_singleton_self _
            · simp only
              apply mono_from0
              rw [g0a]
              exact List.mem_singleton_self _
        · exfalso
          simp only at hpar
          omega
  · -- partner
    rw [hres_nodes]
    intro a ha hpar
    rcases List.mem_append.mp ha with hao | han
    · obtain ⟨b, hb, hbid⟩ := hpart a hao hpar
      exact ⟨b, List.mem_append_left _ hb, hbid⟩
    · simp only [List.mem_cons, List.mem_singleton, List.not_mem_nil, or_false] at han
      rcases han with rfl | rfl
      · exact ⟨⟨L + 1, ⟨x, y, 1⟩⟩, List.mem_append_right _ (by simp), rfl⟩
      · exfalso
        simp only at hpar
        omega
  · -- z_mem
    rw [hres_nodes]
    intro a ha
    rcases List.mem_append.mp ha with hao | han
    · exact hz a hao
    · simp only [List.mem_cons, List.mem_singleton, List.not_mem_nil, or_false] at han
      rcases han with rfl | rfl
      · simp only
        rw [if_pos hev]
      · simp only
        rw [if_neg (by omega)]
  · -- xy_uniq
    rw [hres_nodes]
    intro a ha b hb hx2 hy2 hz2
    rcases List.mem_append.mp ha with hao | han
    · rcases List.mem_append.mp hb with hbo | hbn
      · exact hxy a hao b hbo hx2 hy2 hz2
      · exfalso
        simp only [List.mem_cons, List.mem_singleton, List.not_mem_nil, or_false] at hbn
        rcases hbn with rfl | rfl
        · exact hfresh a hao ⟨hx2, hy2⟩
        · exact hfresh a hao ⟨hx2, hy2⟩
    · rcases List.mem_append.mp hb with hbo | hbn
      · exfalso
        simp only [List.mem_cons, List.mem_singleton, List.not_mem_nil, or_false] at han
        rcases han with rfl | rfl
        · exact hfresh b hbo ⟨hx2.symm, hy2.symm⟩
        · exact hfresh b hbo ⟨hx2.symm, hy2.symm⟩
      · simp only [List.mem_cons, List.mem_singleton, List.not_mem_nil, or_false] at han hbn
        rcases han with rfl | rfl <;> rcases hbn with rfl | rfl
        · rfl
        · exfalso
          simp only at hz2
          exact absurd hz2 (by norm_num)
        · exfalso
          simp only at hz2
          exact absurd hz2 (by norm_num)
        · rfl
  · -- src_sub
    rw [hres_nodes]
    intro n hn
    rcases hsrc_cases n hn with h | h | h
    · exact List.mem_append_left _ (hss n h)
    · exact List.mem_append_right _ (by rw [h]; simp)
    · exact List.mem_append_right _ (by rw [h]; simp)
  · -- tgt_sub
    rw [hres_nodes]
    intro n hn
    rcases htgt_cases n hn with h | h | h
    · exact List.mem_append_left _ (hts n h)
    · exact List.mem_append_right _ (by rw [h]; simp)
    · exact List.mem_append_right _ (by rw [h]; simp)
  · -- arena_eq
    rw [hres_arena, hres_nodes, har]
  · -- monotonicity of adjacency
    rw [hres_adj]
    exact mono_all

theorem gen_wf_empty : gen_wf ⟨[], [], [], [], []⟩ := by
  refine ⟨rfl, rfl, fun k _ => rfl, ?_, fun k => ?_, ?_, ?_, ?_, ?_, ?_, ?_, ?_, rfl⟩
  · intro k j h
    simp [adj_get, List.lookup] at h
  · simp [adj_get, List.lookup]
  · intro i j h
    simp [adj_get, List.lookup] at h
  · intro a ha
    simp at ha
  · intro a ha
    simp at ha
  · intro a ha
    simp at ha
  · intro a ha
    simp at ha
  · intro n hn
    simp at hn
  · intro n hn
    simp at hn

theorem generate_eq_pairs (gb : List shape) (source target : shape)
    (xs ys : List ℚ) :
    generate_hanan_nodes gb source target xs ys =
      (grid_pairs xs ys).foldl
        (fun st p => hanan_step gb source target ys.length st p.1 p.2)
        ⟨[], [], [], [], []⟩ := by
  unfold generate_hanan_nodes grid_pairs
  generalize (⟨[], [], [], [], []⟩ : hgraph) = st0
  induction xs generalizing st0 with
  | nil => rfl
  | cons a rest ih =>
    rw [List.foldl_cons, List.flatMap_cons, List.foldl_append, List.foldl_map]
    exact ih _

theorem grid_pairs_nodup {xs ys : List ℚ} (hx : xs.Nodup) (hy : ys.Nodup) :
    (grid_pairs xs ys).Nodup := by
  unfold grid_pairs
  induction xs with
  | nil => simp
  | cons a rest ih =>
    rw [List.flatMap_cons]
    have ⟨hnotin, htail⟩ := List.nodup_cons.mp hx
    refine List.Nodup.append ?_ (ih htail) ?_
    · exact List.Nodup.map (fun y1 y2 h => by simpa using congrArg Prod.snd h) hy
    · intro p hp1 hp2
      rcases List.mem_map.mp hp1 with ⟨y1, _, rfl⟩
      rcases List.mem_flatMap.mp hp2 with ⟨x2, hx2, hpm⟩
      rcases List.mem_map.mp hpm with ⟨y2, _, heq⟩
      have : x2 = a := congrArg Prod.fst heq
      exact hnotin (this ▸ hx2)

theorem fold_gen_wf (gb : List shape) (source target : shape) (ylen : ℕ)
    (hyl : 1 ≤ ylen) :
    ∀ (pairs : List (ℚ × ℚ)) (st : hgraph), gen_wf st →
      (∀ p ∈ pairs, ∀ n ∈ st.nodes, ¬(n.center.x = p.1 ∧ n.center.y = p.2)) →
      pairs.Pairwise (· ≠ ·) →
      gen_wf (pairs.foldl (fun st2 p => hanan_step gb source target ylen st2 p.1 p.2) st) ∧
      (∀ n ∈ st.nodes,
        n ∈ (pairs.foldl (fun st2 p => hanan_step gb source target ylen st2 p.1 p.2) st).nodes) ∧
      (∀ p ∈ pairs, ∃ n0 n1 : hanan_node,
        n0 ∈ (pairs.foldl (fun st2 p => hanan_step gb source target ylen st2 p.1 p.2) st).nodes ∧
        n1 ∈ (pairs.foldl (fun st2 p => hanan_step gb source target ylen st2 p.1 p.2) st).nodes ∧
        n0.center = ⟨p.1, p.2, 0⟩ ∧ n1.center = ⟨p.1, p.2, 1⟩ ∧
        n1.id = n0.id + 1 ∧ n0.id % 2 = 0) := by
  intro pairs
  induction pairs with
  | nil =>
    intro st hwf _ _
    exact ⟨hwf, fun n hn => hn, by simp⟩
  | cons p rest ih =>
    intro st hwf hfr hpw
    obtain ⟨hwf', hnodes', hmono'⟩ :=
      hanan_step_wf gb source target ylen st p.1 p.2 hwf hyl
        (fun n hn => hfr p (List.mem_cons_self _ _) n hn)
    rw [List.foldl_cons]
    have hfr' : ∀ q ∈ rest, ∀ n ∈ (hanan_step gb source target ylen st p.1 p.2).nodes,
        ¬(n.center.x = q.1 ∧ n.center.y = q.2) := by
      intro q hq n hn
      rw [hnodes'] at hn
      rcases List.mem_append.mp hn with hno | hnn
      · exact hfr q (List.mem_cons_of_mem _ hq) n hno
      · simp only [List.mem_cons, List.mem_singleton, List.not_mem_nil, or_false] at hnn
        have hne : p ≠ q := (List.pairwise_cons.mp hpw).1 q hq
        rcases hnn with rfl | rfl
        · rintro ⟨h1, h2⟩
          simp only at h1 h2
          exact hne (Prod.ext h1 h2)
        · rintro ⟨h1, h2⟩
          simp only at h1 h2
          exact hne (Prod.ext h1 h2)
    obtain ⟨ihwf, ihmono, ihrep⟩ :=
      ih (hanan_step gb source target ylen st p.1 p.2) hwf' hfr'
        (List.pairwise_cons.mp hpw).2
    refine ⟨ihwf, ?_, ?_⟩
    · intro n hn
      refine ihmono n ?_
      rw [hnodes']
      exact List.mem_append_left _ hn
    · intro q hq
      rcases List.mem_cons.mp hq with rfl | hq'
      · refine ⟨⟨st.nodes.length, ⟨q.1, q.2, 0⟩⟩, ⟨st.nodes.length + 1, ⟨q.1, q.2, 1⟩⟩,
          ?_, ?_, rfl, rfl, rfl, ?_⟩
        · refine ihmono _ ?_
          rw [hnodes']
          exact List.mem_append_right _ (by simp)
        · refine ihmono _ ?_
          rw [hnodes']
          exact List.mem_append_right _ (by simp)
        · exact hwf.even_len
      · exact ihrep q hq'

theorem generate_wf (gb : List shape) (source target : shape) (xs ys : List ℚ)
    (hx : xs.Nodup) (hy : ys.Nodup) :
    gen_wf (generate_hanan_nodes gb source target xs ys) ∧
    (∀ x ∈ xs, ∀ y ∈ ys, ∃ n0 n1 : hanan_node,
      n0 ∈ (generate_hanan_nodes gb source target xs ys).nodes ∧
      n1 ∈ (generate_hanan_nodes gb source target xs ys).nodes ∧
      n0.center = ⟨x, y, 0⟩ ∧ n1.center = ⟨x, y, 1⟩ ∧
      n1.id = n0.id + 1 ∧ n0.id % 2 = 0) := by
  rcases Nat.eq_zero_or_pos ys.length with hy0 | hy1
  · have hys : ys = [] := List.length_eq_zero.mp hy0
    subst hys
    have hgp : grid_pairs xs [] = [] := by
      unfold grid_pairs
      simp
    rw [generate_eq_pairs, hgp]
    exact ⟨gen_wf_empty, by simp⟩
  · obtain ⟨hwf, _, hrep⟩ := fold_gen_wf gb source target ys.length hy1
      (grid_pairs xs ys) ⟨[], [], [], [], []⟩ gen_wf_empty (by simp)
      ((grid_pairs_nodup hx hy).imp fun h => h)
    rw [generate_eq_pairs]
    refine ⟨hwf, ?_⟩
    intro x hxm y hym
    have hpm : (x, y) ∈ grid_pairs xs ys := by
      unfold grid_pairs
      exact List.mem_flatMap.mpr ⟨x, hxm, List.mem_map.mpr ⟨y, hym, rfl⟩⟩
    exact hrep (x, y) hpm

theorem gcv_x_nodup (source target : shape) (B : List shape) (grid : ℚ) :
    (generate_cartesian_values source target B grid).1.Nodup :=
  nodup_mergeSort_dedup _

theorem gcv_y_nodup (source target : shape) (B : List shape) (grid : ℚ) :
    (generate_cartesian_values source target B grid).2.Nodup :=
  nodup_mergeSort_dedup _

theorem create_graph_eq (r : router_state) (pin_name : String)
    (source target : shape) :
    create_graph r pin_name source target =
      remove_blocked_nodes (graph_blockages_of r pin_name source target)
        (generate_hanan_nodes (graph_blockages_of r pin_name source target)
          source target
          (generate_cartesian_values source target
            (graph_blockages_of r pin_name source target) r.grid).1
          (generate_cartesian_values source target
            (graph_blockages_of r pin_name source target) r.grid).2) := rfl

/-- C9.  Edge symmetry holds in every constructed graph and is preserved by
both node generation and pruning: in the generated graph and in the final
`create_graph` result, node `j` lists node `i` as a neighbor exactly when
`i` lists `j`. -/
theorem claim9_edge_symmetry (r : router_state) (pin_name : String)
    (source target : shape) :
    (∀ i j, j ∈ adj_get (generate_hanan_nodes
        (graph_blockages_of r pin_name source target) source target
        (generate_cartesian_values source target
          (graph_blockages_of r pin_name source target) r.grid).1
        (generate_cartesian_values source target
          (graph_blockages_of r pin_name source target) r.grid).2).adj i ↔
      i ∈ adj_get (generate_hanan_nodes
        (graph_blockages_of r pin_name source target) source target
        (generate_cartesian_values source target
          (graph_blockages_of r pin_name source target) r.grid).1
        (generate_cartesian_values source target
          (graph_blockages_of r pin_name source target) r.grid).2).adj j) ∧
    (∀ i j, j ∈ adj_get (create_graph r pin_name source target).adj i ↔
      i ∈ adj_get (create_graph r pin_name source target).adj j) := by
  obtain ⟨hwf, _⟩ := generate_wf (graph_blockages_of r pin_name source target)
    source target _ _
    (gcv_x_nodup source target (graph_blockages_of r pin_name source target) r.grid)
    (gcv_y_nodup source target (graph_blockages_of r pin_name source target) r.grid)
  have hprune := rbn_adj_facts (graph_blockages_of r pin_name source target)
    (generate_hanan_nodes (graph_blockages_of r pin_name source target)
      source target
      (generate_cartesian_values source target
        (graph_blockages_of r pin_name source target) r.grid).1
      (generate_cartesian_values source target
        (graph_blockages_of r pin_name source target) r.grid).2)
    hwf.symm hwf.nodup
  constructor
  · intro i j
    exact ⟨fun h => hwf.symm i j h, fun h => hwf.symm j i h⟩
  · intro i j
    rw [create_graph_eq]
    exact ⟨fun h => hprune.1 i j h, fun h => hprune.1 j i h⟩

/-- C6.  After `create_graph` has pruned the generated graph, no surviving
node's center lies inside any collected blockage (on the blockage's layer),
and every generated node whose center lies inside some blockage has been
removed from the node list with its neighbor list emptied and its id erased
from every other neighbor list. -/
theorem claim6_blocked_nodes_removed (r : router_state) (pin_name : String)
    (source target : shape) :
    (∀ n ∈ (create_graph r pin_name source target).nodes,
      ∀ b ∈ graph_blockages_of r pin_name source target, ¬ inside_shape n.center b) ∧
    (∀ n ∈ (generate_hanan_nodes (graph_blockages_of r pin_name source target)
        source target
        (generate_cartesian_values source target
          (graph_blockages_of r pin_name source target) r.grid).1
        (generate_cartesian_values source target
          (graph_blockages_of r pin_name source target) r.grid).2).nodes,
      (∃ b ∈ graph_blockages_of r pin_name source target, inside_shape n.center b) →
        n ∉ (create_graph r pin_name source target).nodes ∧
        adj_get (create_graph r pin_name source target).adj n.id = [] ∧
        ∀ k, n.id ∉ adj_get (create_graph r pin_name source target).adj k) := by
  obtain ⟨hwf, _⟩ := generate_wf (graph_blockages_of r pin_name source target)
    source target _ _
    (gcv_x_nodup source target (graph_blockages_of r pin_name source target) r.grid)
    (gcv_y_nodup source target (graph_blockages_of r pin_name source target) r.grid)
  have hprune := rbn_adj_facts (graph_blockages_of r pin_name source target)
    (generate_hanan_nodes (graph_blockages_of r pin_name source target)
      source target
      (generate_cartesian_values source target
        (graph_blockages_of r pin_name source target) r.grid).1
      (generate_cartesian_values source target
        (graph_blockages_of r pin_name source target) r.grid).2)
    hwf.symm hwf.nodup
  constructor
  · intro n hn b hb
    rw [create_graph_eq, rbn_nodes] at hn
    have hpred := (List.mem_filter.mp hn).2
    rw [Bool.not_eq_eq_eq_not, Bool.not_true, List.any_eq_false] at hpred
    intro hin
    exact absurd hin (by simpa using hpred b hb)
  · intro n hn ⟨b, hb, hbin⟩
    have hany : (graph_blockages_of r pin_name source target).any
        (fun blockage => inside_shape n.center blockage) = true :=
      List.any_eq_true.mpr ⟨b, hb, hbin⟩
    refine ⟨?_, ?_, ?_⟩
    · intro hmem
      rw [create_graph_eq, rbn_nodes] at hmem
      have hpred := (List.mem_filter.mp hmem).2
      rw [hany] at hpred
      simp at hpred
    · rw [create_graph_eq]
      exact (hprune.2.2.2.1 n hn hany).1
    · rw [create_graph_eq]
      exact (hprune.2.2.2.1 n hn hany).2

/-- C8.  For every (x, y) of the Cartesian grid, the layer-0 and layer-1
nodes at (x, y) are created together and connected by a via edge regardless
of blockages, and whenever both survive pruning they remain mutual
neighbors in the final graph. -/
theorem claim8_via_connectivity (r : router_state) (pin_name : String)
    (source target : shape) :
    ∀ x ∈ (generate_cartesian_values source target
        (graph_blockages_of r pin_name source target) r.grid).1,
      ∀ y ∈ (generate_cartesian_values source target
        (graph_blockages_of r pin_name source target) r.grid).2,
      (∃ n0 n1 : hanan_node,
        n0 ∈ (generate_hanan_nodes (graph_blockages_of r pin_name source target)
          source target
          (generate_cartesian_values source target
            (graph_blockages_of r pin_name source target) r.grid).1
          (generate_cartesian_values source target
            (graph_blockages_of r pin_name source target) r.grid).2).nodes ∧
        n1 ∈ (generate_hanan_nodes (graph_blockages_of r pin_name source target)
          source target
          (generate_cartesian_values source target
            (graph_blockages_of r pin_name source target) r.grid).1
          (generate_cartesian_values source target
            (graph_blockages_of r pin_name source target) r.grid).2).nodes ∧
        n0.center = ⟨x, y, 0⟩ ∧ n1.center = ⟨x, y, 1⟩ ∧
        n1.id ∈ adj_get (generate_hanan_nodes
          (graph_blockages_of r pin_name source target) source target
          (generate_cartesian_values source target
            (graph_blockages_of r pin_name source target) r.grid).1
          (generate_cartesian_values source target
            (graph_blockages_of r pin_name source target) r.grid).2).adj n0.id ∧
        n0.id ∈ adj_get (generate_hanan_nodes
          (graph_blockages_of r pin_name source target) source target
          (generate_cartesian_values source target
            (graph_blockages_of r pin_name source target) r.grid).1
          (generate_cartesian_values source target
            (graph_blockages_of r pin_name source target) r.grid).2).adj n1.id) ∧
      (∀ m0 ∈ (create_graph r pin_name source target).nodes,
        ∀ m1 ∈ (create_graph r pin_name source target).nodes,
        m0.center = ⟨x, y, 0⟩ → m1.center = ⟨x, y, 1⟩ →
        m1.id ∈ adj_get (create_graph r pin_name source target).adj m0.id ∧
        m0.id ∈ adj_get (create_graph r pin_name source target).adj m1.id) := by
  obtain ⟨hwf, hrep⟩ := generate_wf (graph_blockages_of r pin_name source target)
    source target _ _
    (gcv_x_nodup source target (graph_blockages_of r pin_name source target) r.grid)
    (gcv_y_nodup source target (graph_blockages_of r pin_name source target) r.grid)
  have hprune := rbn_adj_facts (graph_blockages_of r pin_name source target)
    (generate_hanan_nodes (graph_blockages_of r pin_name source target)
      source target
      (generate_cartesian_values source target
        (graph_blockages_of r pin_name source target) r.grid).1
      (generate_cartesian_values source target
        (graph_blockages_of r pin_name source target) r.grid).2)
    hwf.symm hwf.nodup
  intro x hx y hy
  obtain ⟨n0, n1, hn0, hn1, hc0, hc1, hsucc, hev⟩ := hrep x hx y hy
  obtain ⟨hm1, hm2, _, _⟩ := hwf.via n0 hn0 n1 hn1 hsucc hev
  constructor
  · exact ⟨n0, n1, hn0, hn1, hc0, hc1, hm1, hm2⟩
  · intro m0 hmem0 m1 hmem1 hcm0 hcm1
    have hmem0' : m0 ∈ (generate_hanan_nodes
        (graph_blockages_of r pin_name source target) source target
        (generate_cartesian_values source target
          (graph_blockages_of r pin_name source target) r.grid).1
        (generate_cartesian_values source target
          (graph_blockages_of r pin_name source target) r.grid).2).nodes := by
      rw [create_graph_eq, rbn_nodes] at hmem0
      exact List.mem_of_mem_filter hmem0
    have hmem1' : m1 ∈ (generate_hanan_nodes
        (graph_blockages_of r pin_name source target) source target
        (generate_cartesian_values source target
          (graph_blockages_of r pin_name source target) r.grid).1
        (generate_cartesian_values source target
          (graph_blockages_of r pin_name source target) r.grid).2).nodes := by
      rw [create_graph_eq, rbn_nodes] at hmem1
      exact List.mem_of_mem_filter hmem1
    have he0 : m0 = n0 :=
      hwf.xy_uniq m0 hmem0' n0 hn0 (by rw [hcm0, hc0]) (by rw [hcm0, hc0])
        (by rw [hcm0, hc0])
    have he1 : m1 = n1 :=
      hwf.xy_uniq m1 hmem1' n1 hn1 (by rw [hcm1, hc1]) (by rw [hcm1, hc1])
        (by rw [hcm1, hc1])
    subst he0
    subst he1
    have hprot : ∀ rn ∈ (generate_hanan_nodes
        (graph_blockages_of r pin_name source target) source target
        (generate_cartesian_values source target
          (graph_blockages_of r pin_name source target) r.grid).1
        (generate_cartesian_values source target
          (graph_blockages_of r pin_name source target) r.grid).2).nodes,
        (graph_blockages_of r pin_name source target).any
          (fun blockage => inside_shape rn.center blockage) = true →
        ∀ m ∈ (create_graph r pin_name source target).nodes, m.id ≠ rn.id := by
      intro rn hrn hrnany m hm hmid
      have hmG0 : m ∈ (generate_hanan_nodes
          (graph_blockages_of r pin_name source target) source target
          (generate_cartesian_values source target
            (graph_blockages_of r pin_name source target) r.grid).1
          (generate_cartesian_values source target
            (graph_blockages_of r pin_name source target) r.grid).2).nodes := by
        rw [create_graph_eq, rbn_nodes] at hm
        exact List.mem_of_mem_filter hm
      have : m = rn := ids_inj hwf.ids_range m hmG0 rn hrn hmid
      subst this
      rw [create_graph_eq, rbn_nodes] at hm
      have hpred := (List.mem_filter.mp hm).2
      rw [hrnany] at hpred
      simp at hpred
    constructor
    · rw [create_graph_eq]
      refine hprune.2.2.2.2 m0.id m1.id hm1 ?_
      intro rn hrn hrnany
      exact ⟨hprot rn hrn hrnany m1 hmem1, hprot rn hrn hrnany m0 hmem0⟩
    · rw [create_graph_eq]
      refine hprune.2.2.2.2 m1.id m0.id hm2 ?_
      intro rn hrn hrnany
      exact ⟨hprot rn hrn hrnany m0 hmem0, hprot rn hrn hrnany m1 hmem1⟩


/-- C6 witness: the concrete generated node at (4, -5) on layer 0 lies
inside the example obstruction; it is gone from the built graph and fully
disconnected. -/
theorem claim6_witness :
    (⟨6, ⟨4, -5, 0⟩⟩ : hanan_node) ∉ (create_graph exrouter "A" exsrc extgt).nodes ∧
    adj_get (create_graph exrouter "A" exsrc extgt).adj 6 = [] ∧
    ∀ k, 6 ∉ adj_get (create_graph exrouter "A" exsrc extgt).adj k :=
  (claim6_blocked_nodes_removed exrouter "A" exsrc extgt).2
    (⟨6, ⟨4, -5, 0⟩⟩ : hanan_node) (by with_unfolding_all decide)
    ⟨⟨4, -5, 6, 5, 0⟩, by with_unfolding_all decide, by with_unfolding_all decide⟩

/-- C8 witness: the two surviving example nodes at (1/2, 1/2) stay mutual
via neighbors in the built graph. -/
theorem claim8_witness :
    (3 : ℕ) ∈ adj_get (create_graph exrouter "A" exsrc extgt).adj 2 ∧
    (2 : ℕ) ∈ adj_get (create_graph exrouter "A" exsrc extgt).adj 3 :=
  (claim8_via_connectivity exrouter "A" exsrc extgt
    (1 / 2) (by with_unfolding_all decide) (1 / 2) (by with_unfolding_all decide)).2
    (⟨2, ⟨1 / 2, 1 / 2, 0⟩⟩ : hanan_node) (by with_unfolding_all decide)
    (⟨3, ⟨1 / 2, 1 / 2, 1⟩⟩ : hanan_node) (by with_unfolding_all decide) rfl rfl


theorem lookup_cons_self {β : Type} (l : List (ℕ × β)) (k : ℕ) (w : β) :
    List.lookup k ((k, w) :: l) = some w := by
  simp [List.lookup]

theorem lookup_cons_ne {β : Type} (l : List (ℕ × β)) {k id : ℕ} (w : β)
    (h : k ≠ id) : List.lookup id ((k, w) :: l) = List.lookup id l := by
  simp only [List.lookup, beq_eq_false_iff_ne.mpr (fun hk => h hk.symm)]

theorem neighbors_of_pool {g : hgraph} {u v : hanan_node}
    (h : v ∈ neighbors_of g u) : v ∈ node_pool g := by
  unfold neighbors_of at h
  rcases List.mem_filterMap.mp h with ⟨j, _, hf⟩
  exact List.mem_append_right _ (List.mem_of_find?_eq_some hf)

theorem lookup_map_exists {α : Type} (l : List hanan_node) (f : hanan_node → α)
    {id : ℕ} (h : ∃ s ∈ l, s.id = id) :
    ∃ v, List.lookup id (l.map fun s => (s.id, f s)) = some v := by
  induction l with
  | nil => simp at h
  | cons a rest ih =>
    by_cases hid : a.id = id
    · subst hid
      exact ⟨f a, lookup_cons_self _ _ _⟩
    · obtain ⟨s, hs, hsid⟩ := h
      rcases List.mem_cons.mp hs with rfl | hs'
      · exact absurd hsid hid
      · obtain ⟨v, hv⟩ := ih ⟨s, hs', hsid⟩
        exact ⟨v, by rw [List.map_cons, lookup_cons_ne _ _ hid]; exact hv⟩

theorem lookup_map_mem {α : Type} (l : List hanan_node) (f : hanan_node → α)
    {id : ℕ} {v : α} (h : List.lookup id (l.map fun s => (s.id, f s)) = some v) :
    ∃ s ∈ l, s.id = id ∧ v = f s := by
  induction l with
  | nil => simp [List.lookup] at h
  | cons a rest ih =>
    rw [List.map_cons] at h
    by_cases hid : a.id = id
    · subst hid
      rw [lookup_cons_self] at h
      exact ⟨a, List.mem_cons_self _ _, rfl, by simpa using h.symm⟩
    · rw [lookup_cons_ne _ _ hid] at h
      obtain ⟨s, hs, hsid, hv⟩ := ih h
      exact ⟨s, List.mem_cons_of_mem _ hs, hsid, hv⟩

theorem lookup_cons_some {β : Type} {l : List (ℕ × β)} {id : ℕ} (k : ℕ) (w : β)
    (h : ∃ v, List.lookup id l = some v) :
    ∃ v, List.lookup id ((k, w) :: l) = some v := by
  by_cases hk : k = id
  · subst hk
    exact ⟨w, lookup_cons_self _ _ _⟩
  · obtain ⟨v, hv⟩ := h
    exact ⟨v, by rw [lookup_cons_ne _ _ hk]; exact hv⟩

theorem path_inv_init (g : hgraph) (dist : vector3d → vector3d → ℚ) :
    path_inv g (init_state g dist) := by
  refine ⟨?_, ?_, ?_, ?_, ?_, ?_⟩
  · intro e he
    exact (init_queue_src g dist e he).2.1
  · intro e he
    exact List.mem_append_left _ (init_queue_src g dist e he).1
  · intro e he
    rw [init_state_g]
    refine lookup_map_exists _ _ ?_
    exact ⟨e.2.2, List.mem_reverse.mpr (init_queue_src g dist e he).1,
      (init_queue_src g dist e he).2.1.symm⟩
  · intro id u hu
    rw [init_state_cf] at hu
    simp [List.lookup] at hu
  · intro id gv hgv _
    rw [init_state_g] at hgv
    obtain ⟨s, hs, hsid, hv⟩ := lookup_map_mem _ _ hgv
    exact ⟨hv, s, List.mem_reverse.mp hs, hsid⟩
  · intro n hn
    rw [init_state_close] at hn
    simp at hn

theorem path_inv_drop {g : hgraph} {st : astate} (hp : path_inv g st)
    (rest : List sentry) (hsub : ∀ e ∈ rest, e ∈ st.queue) :
    path_inv g { st with queue := rest } := by
  refine ⟨?_, ?_, ?_, hp.cf_edge, hp.nocf_src, hp.closed_pool⟩
  · intro e' he'
    exact hp.ent_key e' (hsub e' he')
  · intro e' he'
    exact hp.ent_pool e' (hsub e' he')
  · intro e' he'
    exact hp.ent_g e' (hsub e' he')

theorem path_inv_close {g : hgraph} {st : astate} (hp : path_inv g st)
    {c : hanan_node} (hc : c ∈ node_pool g) :
    path_inv g { st with close_set := c :: st.close_set } := by
  refine ⟨hp.ent_key, hp.ent_pool, hp.ent_g, hp.cf_edge, hp.nocf_src, ?_⟩
  intro n hn
  rcases List.mem_cons.mp hn with rfl | hn'
  · exact hc
  · exact hp.closed_pool n hn'

theorem path_inv_relax {g : hgraph} (cost : hanan_node → hanan_node → ℚ)
    (dist : vector3d → vector3d → ℚ) {current : hanan_node} {st : astate}
    (hp : path_inv g st) (hcur : current ∈ node_pool g)
    (hcurg : ∃ gv, st.g_scores.lookup current.id = some gv) :
    path_inv g (relax g cost dist current st) := by
  unfold relax
  have main : ∀ (ns : List hanan_node), (∀ v ∈ ns, v ∈ neighbors_of g current) →
      ∀ (st2 : astate), path_inv g st2 →
      (∃ gv, st2.g_scores.lookup current.id = some gv) →
      path_inv g (ns.foldl (relax_step g cost dist current) st2) := by
    intro ns
    induction ns with
    | nil => exact fun _ st2 hst2 _ => hst2
    | cons v vs ih =>
      intro hsub st2 hst2 hg2
      rw [List.foldl_cons]
      have hvn : v ∈ neighbors_of g current := hsub v (List.mem_cons_self _ _)
      refine ih (fun w hw => hsub w (List.mem_cons_of_mem _ hw)) _ ?_ ?_
      · simp only [relax_step]
        split
        · refine ⟨?_, ?_, ?_, ?_, ?_, ?_⟩
          · intro e he
            rcases List.mem_cons.mp he with rfl | he'
            · rfl
            · exact hst2.ent_key e he'
          · intro e he
            rcases List.mem_cons.mp he with rfl | he'
            · exact neighbors_of_pool hvn
            · exact hst2.ent_pool e he'
          · intro e he
            rcases List.mem_cons.mp he with rfl | he'
            · exact ⟨_, lookup_cons_self _ _ _⟩
            · exact lookup_cons_some _ _ (hst2.ent_g e he')
          · intro id u hu
            by_cases hid : v.id = id
            · subst hid
              rw [lookup_cons_self] at hu
              have hcc : u = current := by simpa using hu.symm
              subst hcc
              exact ⟨hcur, lookup_cons_some _ _ hg2,
                ⟨_, lookup_cons_self _ _ _⟩, v, hvn, rfl⟩
            · rw [lookup_cons_ne _ _ hid] at hu
              obtain ⟨hu1, hu2, hu3, hu4⟩ := hst2.cf_edge id u hu
              refine ⟨hu1, lookup_cons_some _ _ hu2, ?_, hu4⟩
              obtain ⟨gv, hgv⟩ := hu3
              exact ⟨gv, by rw [lookup_cons_ne _ _ hid]; exact hgv⟩
          · intro id gv hgv hcf
            by_cases hid : v.id = id
            · subst hid
              rw [lookup_cons_self] at hcf
              cases hcf
            · rw [lookup_cons_ne _ _ hid] at hgv hcf
              exact hst2.nocf_src id gv hgv hcf
          · exact hst2.closed_pool
        · exact hst2
      · simp only [relax_step]
        split
        · exact lookup_cons_some _ _ hg2
        · exact hg2
  exact main _ (fun v hv => hv) st hp hcurg

theorem back_walk_spec (cf : List (ℕ × hanan_node)) :
    ∀ (fuel : ℕ) (cur : hanan_node) (acc res : List hanan_node),
      back_walk cf fuel cur acc = some res →
      ∃ l, res = acc ++ l ∧ l.head? = some cur ∧
        List.Chain' (fun a b => cf.lookup a.id = some b) l ∧
        ∃ z, l.getLast? = some z ∧ cf.lookup z.id = none := by
  intro fuel
  induction fuel with
  | zero => intro cur acc res h; simp [back_walk] at h
  | succ n ih =>
    intro cur acc res h
    simp only [back_walk] at h
    rcases hlk : cf.lookup cur.id with _ | prev
    · rw [hlk] at h
      refine ⟨[cur], by simpa using h.symm, rfl, List.chain'_singleton cur,
        cur, rfl, hlk⟩
    · rw [hlk] at h
      obtain ⟨l, hres, hhead, hch, z, hz, hzn⟩ := ih prev (acc ++ [cur]) res h
      rcases l with _ | ⟨p0, lt⟩
      · cases hhead
      · have hp0 : p0 = prev := by simpa using hhead
        refine ⟨cur :: p0 :: lt, by simpa [List.append_assoc] using hres, rfl,
          ?_, z, by simpa using hz, hzn⟩
        rw [List.chain'_cons]
        exact ⟨by rw [hlk, hp0], hch⟩

theorem cf_chain_pool {g : hgraph} {st : astate} (hp : path_inv g st) :
    ∀ l : List hanan_node,
      List.Chain' (fun a b => st.came_from.lookup a.id = some b) l →
      (∀ x, l.head? = some x → x ∈ node_pool g) →
      ∀ y ∈ l, y ∈ node_pool g := by
  intro l
  induction l with
  | nil => intro _ _ y hy; simp at hy
  | cons a tail ih =>
    intro hch hhd y hy
    have ha : a ∈ node_pool g := hhd a rfl
    rcases List.mem_cons.mp hy with rfl | hy'
    · exact ha
    · rcases tail with _ | ⟨b, t⟩
      · simp at hy'
      · rw [List.chain'_cons] at hch
        refine ih hch.2 ?_ y hy'
        intro x hx
        have hxb : b = x := by simpa using hx
        exact hxb ▸ (hp.cf_edge a.id b hch.1).1

theorem cf_chain_g {g : hgraph} {st : astate} (hp : path_inv g st) :
    ∀ l : List hanan_node,
      List.Chain' (fun a b => st.came_from.lookup a.id = some b) l →
      (∀ x, l.head? = some x → ∃ gv, st.g_scores.lookup x.id = some gv) →
      ∀ y ∈ l, ∃ gv, st.g_scores.lookup y.id = some gv := by
  intro l
  induction l with
  | nil => intro _ _ y hy; simp at hy
  | cons a tail ih =>
    intro hch hhd y hy
    rcases List.mem_cons.mp hy with rfl | hy'
    · exact hhd _ rfl
    · rcases tail with _ | ⟨b, t⟩
      · simp at hy'
      · rw [List.chain'_cons] at hch
        refine ih hch.2 ?_ y hy'
        intro x hx
        have hxb : b = x := by simpa using hx
        exact hxb ▸ (hp.cf_edge a.id b hch.1).2.1

theorem cf_chain_edges {g : hgraph} {st : astate} (hp : path_inv g st)
    (hu : uid_ok g) :
    ∀ l : List hanan_node, (∀ y ∈ l, y ∈ node_pool g) →
      List.Chain' (fun a b => st.came_from.lookup a.id = some b) l →
      List.Chain' (fun a b => a ∈ neighbors_of g b) l := by
  intro l
  induction l with
  | nil => simp
  | cons a tail ih =>
    intro hmem hch
    rcases tail with _ | ⟨b, t⟩
    · simp
    · rw [List.chain'_cons] at hch ⊢
      refine ⟨?_, ih (fun y hy => hmem y (List.mem_cons_of_mem _ hy)) hch.2⟩
      obtain ⟨_, _, _, v, hv, hvid⟩ := hp.cf_edge a.id b hch.1
      have hva : v = a :=
        hu v (neighbors_of_pool hv) a (hmem a (List.mem_cons_self _ _)) hvid
      exact hva ▸ hv

theorem astar_sound {g : hgraph} {cost : hanan_node → hanan_node → ℚ}
    {dist : vector3d → vector3d → ℚ} (hu : uid_ok g) :
    ∀ (fuel : ℕ) (st : astate), path_inv g st →
      ∀ p, astar_loop g cost dist fuel st = some p →
        p ≠ [] ∧ (∃ t, p.head? = some t ∧ t ∈ g.target_nodes) ∧
        (∃ s, p.getLast? = some s ∧ s ∈ g.source_nodes) ∧
        List.Chain' (fun a b => a ∈ neighbors_of g b) p := by
  intro fuel
  induction fuel with
  | zero => intro st _ p h; simp [astar_loop] at h
  | succ n ih =>
    intro st hp p h
    rcases hpm : pop_min st.queue with _ | ⟨e, rest⟩
    · simp only [astar_loop, hpm] at h
      cases h
    simp only [astar_loop, hpm] at h
    have hrest : ∀ e' ∈ rest, e' ∈ st.queue :=
      fun e' he' => pop_min_mem_rest hpm he'
    have hepool : e.2.2 ∈ node_pool g := hp.ent_pool e (pop_min_mem hpm)
    have heg : ∃ gv, st.g_scores.lookup e.2.2.id = some gv := by
      have h1 := hp.ent_g e (pop_min_mem hpm)
      rwa [hp.ent_key e (pop_min_mem hpm)] at h1
    by_cases hcl : e.2.2 ∈ st.close_set
    · rw [if_pos hcl] at h
      exact ih _ (path_inv_drop hp rest hrest) p h
    · rw [if_neg hcl] at h
      have hp1 : path_inv g
          { st with queue := rest, close_set := e.2.2 :: st.close_set } :=
        path_inv_close (path_inv_drop hp rest hrest) hepool
      by_cases htg : e.2.2 ∈ g.target_nodes
      · rw [if_pos htg] at h
        obtain ⟨l, hres, hhead, hch, z, hz, hzn⟩ :=
          back_walk_spec st.came_from _ e.2.2 [] p h
        rw [List.nil_append] at hres
        subst hres
        have hpoolall : ∀ y ∈ p, y ∈ node_pool g := by
          refine cf_chain_pool hp1 p hch ?_
          intro x hx
          have hxe : e.2.2 = x := by rw [hhead] at hx; simpa using hx
          exact hxe ▸ hepool
        have hgall : ∀ y ∈ p, ∃ gv, st.g_scores.lookup y.id = some gv := by
          refine cf_chain_g hp1 p hch ?_
          intro x hx
          have hxe : e.2.2 = x := by rw [hhead] at hx; simpa using hx
          exact hxe ▸ heg
        have hzmem : z ∈ p := List.mem_of_mem_getLast? hz
        obtain ⟨gv, hgv⟩ := hgall z hzmem
        obtain ⟨_, s, hs, hsid⟩ := hp.nocf_src z.id gv hgv hzn
        have hsz : s = z :=
          hu s (List.mem_append_left _ hs) z (hpoolall z hzmem) hsid
        refine ⟨?_, ⟨e.2.2, hhead, htg⟩, ⟨z, hz, hsz ▸ hs⟩,
          cf_chain_edges hp1 hu p hpoolall hch⟩
        intro hnil
        subst hnil
        cases hhead
      · rw [if_neg htg] at h
        exact ih _ (path_inv_relax cost dist hp1 hepool heg) p h

/-- C1, counterexample: on a two-node graph whose source and target are
adjacent, `find_shortest_path` returns the list `[target, source]`: its first
element is the target and is not a source node, so the returned sequence does
not start at a source node as the specification states. -/
theorem claim1_counterexample :
    find_shortest_path exg1 unit_cost zero_dist = some [exnT, exnS] ∧
    exnT ∈ exg1.target_nodes ∧ exnT ∉ exg1.source_nodes := by
  with_unfolding_all decide

/-- C1, amended: the path returned by `find_shortest_path` runs from the
target back to the source (the reconstruction loop appends while walking the
predecessor map and never reverses): on any graph with injective node ids a
returned path is nonempty, starts at a target node, ends at a source node,
and each node is a graph neighbor of its successor in the list. -/
theorem claim1_path_target_to_source (g : hgraph)
    (cost : hanan_node → hanan_node → ℚ) (dist : vector3d → vector3d → ℚ)
    (hu : uid_ok g) (p : List hanan_node)
    (h : find_shortest_path g cost dist = some p) :
    p ≠ [] ∧ (∃ t, p.head? = some t ∧ t ∈ g.target_nodes) ∧
    (∃ s, p.getLast? = some s ∧ s ∈ g.source_nodes) ∧
    List.Chain' (fun a b => a ∈ neighbors_of g b) p :=
  astar_sound hu (search_fuel g) (init_state g dist) (path_inv_init g dist) p h

theorem claim1_witness :
    uid_ok exg1 ∧
    ([exnT, exnS] ≠ [] ∧
      (∃ t, ([exnT, exnS] : List hanan_node).head? = some t ∧
        t ∈ exg1.target_nodes) ∧
      (∃ s, ([exnT, exnS] : List hanan_node).getLast? = some s ∧
        s ∈ exg1.source_nodes) ∧
      List.Chain' (fun a b => a ∈ neighbors_of exg1 b) [exnT, exnS]) :=
  ⟨by unfold uid_ok; with_unfolding_all decide,
    claim1_path_target_to_source exg1 unit_cost zero_dist
      (by unfold uid_ok; with_unfolding_all decide) [exnT, exnS]
      (by with_unfolding_all decide)⟩



theorem key_le_refl (a : WithTop ℚ × ℕ) : key_le a a = true := by
  simp [key_le]

theorem key_le_total (a b : WithTop ℚ × ℕ) :
    key_le a b = true ∨ key_le b a = true := by
  unfold key_le
  rcases lt_trichotomy a.1 b.1 with h | h | h
  · left; simp [h]
  · rcases le_total a.2 b.2 with h2 | h2
    · left; simp [h, h2]
    · right; simp [h.symm, h2]
  · right; simp [h]

theorem key_le_trans {a b c : WithTop ℚ × ℕ} (h1 : key_le a b = true)
    (h2 : key_le b c = true) : key_le a c = true := by
  unfold key_le at *
  simp only [Bool.or_eq_true, Bool.and_eq_true, decide_eq_true_eq] at *
  rcases h1 with h1 | ⟨h1e, h1n⟩ <;> rcases h2 with h2 | ⟨h2e, h2n⟩
  · exact Or.inl (h1.trans h2)
  · exact Or.inl (h2e ▸ h1)
  · exact Or.inl (h1e ▸ h2)
  · exact Or.inr ⟨h1e.trans h2e, h1n.trans h2n⟩

theorem key_le_antisymm {a b : WithTop ℚ × ℕ} (h1 : key_le a b = true)
    (h2 : key_le b a = true) : a = b := by
  unfold key_le at *
  simp only [Bool.or_eq_true, Bool.and_eq_true, decide_eq_true_eq] at *
  rcases h1 with h1 | ⟨h1e, h1n⟩ <;> rcases h2 with h2 | ⟨h2e, h2n⟩
  · exact absurd (h1.trans h2) (lt_irrefl _)
  · exact absurd h1 (h2e ▸ lt_irrefl _)
  · exact absurd h2 (h1e ▸ lt_irrefl _)
  · exact Prod.ext h1e (le_antisymm h1n h2n)

theorem key_le_fst {a b : WithTop ℚ × ℕ} (h : key_le a b = true) :
    a.1 ≤ b.1 := by
  unfold key_le at h
  simp only [Bool.or_eq_true, Bool.and_eq_true, decide_eq_true_eq] at h
  rcases h with h | ⟨he, _⟩
  · exact le_of_lt h
  · exact le_of_eq he

theorem pop_min_min {q : List sentry} {e : sentry} {rest : List sentry}
    (h : pop_min q = some (e, rest)) :
    ∀ e' ∈ q, key_le (ekey e) (ekey e') = true := by
  induction q generalizing e rest with
  | nil => simp [pop_min] at h
  | cons a as ih =>
    rcases hpm : pop_min as with _ | ⟨m, r⟩ <;>
      simp only [pop_min, hpm, Option.some.injEq, Prod.mk.injEq] at h
    · rcases h with ⟨rfl, rfl⟩
      intro e' he'
      rcases List.mem_cons.mp he' with rfl | he''
      · exact key_le_refl _
      · rw [pop_min_eq_none hpm] at he''
        simp at he''
    · split at h <;> simp only [Option.some.injEq, Prod.mk.injEq] at h <;>
        rcases h with ⟨rfl, rfl⟩
      · rename_i hle
        intro e' he'
        rcases List.mem_cons.mp he' with rfl | he''
        · exact key_le_refl _
        · exact key_le_trans hle (ih hpm e' he'')
      · rename_i hle
        intro e' he'
        rcases List.mem_cons.mp he' with rfl | he''
        · rcases key_le_total (ekey m) (ekey e') with h' | h'
          · exact h'
          · exact absurd h' hle
        · exact ih hpm e' he''

theorem foldl_min_le_init (f : hanan_node → WithTop ℚ) :
    ∀ (l : List hanan_node) (init : WithTop ℚ),
      l.foldl (fun m t => min m (f t)) init ≤ init := by
  intro l
  induction l with
  | nil => intro init; exact le_refl _
  | cons a t ih =>
    intro init
    exact le_trans (ih (min init (f a))) (min_le_left _ _)

theorem foldl_min_le_elem (f : hanan_node → WithTop ℚ) :
    ∀ (l : List hanan_node) (init : WithTop ℚ) (t : hanan_node), t ∈ l →
      l.foldl (fun m t => min m (f t)) init ≤ f t := by
  intro l
  induction l with
  | nil => intro _ t ht; simp at ht
  | cons a r ih =>
    intro init t ht
    rcases List.mem_cons.mp ht with rfl | ht'
    · exact le_trans (foldl_min_le_init f r _) (min_le_right _ _)
    · exact ih _ t ht'

theorem le_foldl_min (f : hanan_node → WithTop ℚ) :
    ∀ (l : List hanan_node) (init : WithTop ℚ) (c : WithTop ℚ), c ≤ init →
      (∀ t ∈ l, c ≤ f t) → c ≤ l.foldl (fun m t => min m (f t)) init := by
  intro l
  induction l with
  | nil => intro _ _ h _; exact h
  | cons a r ih =>
    intro init c h hall
    exact ih _ c (le_min h (hall a (List.mem_cons_self _ _)))
      (fun t ht => hall t (List.mem_cons_of_mem _ ht))

theorem heur_le_tgt (g : hgraph) (dist : vector3d → vector3d → ℚ)
    (n : hanan_node) {t : hanan_node} (ht : t ∈ g.target_nodes) :
    heur g dist n ≤
      ((dist t.center n.center + ((t.center.z - n.center.z).natAbs : ℚ) : ℚ) :
        WithTop ℚ) :=
  foldl_min_le_elem _ _ _ t ht

theorem heur_ne_top {g : hgraph} (dist : vector3d → vector3d → ℚ)
    (n : hanan_node) (h : g.target_nodes ≠ []) : heur g dist n ≠ ⊤ := by
  rcases hl : g.target_nodes with _ | ⟨t, ts⟩
  · exact absurd hl h
  · exact ne_top_of_le_ne_top WithTop.coe_ne_top
      (heur_le_tgt g dist n (hl ▸ List.mem_cons_self t ts))

theorem heur_nonneg {g : hgraph} {cost : hanan_node → hanan_node → ℚ}
    {dist : vector3d → vector3d → ℚ} (hc : cost_ok g cost dist)
    {n : hanan_node} (hn : n ∈ node_pool g) : 0 ≤ heur g dist n := by
  refine le_foldl_min _ _ _ 0 le_top ?_
  intro t ht
  have h1 : (0:ℚ) ≤ dist t.center n.center + ((t.center.z - n.center.z).natAbs : ℚ) :=
    add_nonneg (hc.dpos t ht n hn) (Nat.cast_nonneg _)
  exact_mod_cast h1

theorem heur_tgt_zero {g : hgraph} {cost : hanan_node → hanan_node → ℚ}
    {dist : vector3d → vector3d → ℚ} (hc : cost_ok g cost dist)
    {t : hanan_node} (ht : t ∈ g.target_nodes) (htp : t ∈ node_pool g) :
    heur g dist t = 0 := by
  refine le_antisymm ?_ (heur_nonneg hc htp)
  have h1 := heur_le_tgt g dist t ht
  have h2 : dist t.center t.center + ((t.center.z - t.center.z).natAbs : ℚ) = 0 := by
    rw [hc.self0 t ht, sub_self]
    simp
  rw [h2] at h1
  exact_mod_cast h1

theorem walk_to_pool {g : hgraph} {q : List hanan_node} {m : hanan_node}
    (h : walk_to g q m) : m ∈ node_pool g := by
  induction h with
  | base hs => exact List.mem_append_left _ hs
  | step _ hv _ => exact neighbors_of_pool hv

theorem walk_to_last {g : hgraph} {q : List hanan_node} {m : hanan_node}
    (h : walk_to g q m) : q.getLast? = some m := by
  induction h with
  | base hs => rfl
  | step _ hv _ => exact List.getLast?_concat _

theorem walk_cost_concat (cost : hanan_node → hanan_node → ℚ) :
    ∀ (q : List hanan_node) (u v : hanan_node), q.getLast? = some u →
      walk_cost cost (q ++ [v]) = walk_cost cost q + cost u v := by
  intro q
  induction q with
  | nil => intro u v h; cases h
  | cons a t ih =>
    intro u v h
    rcases t with _ | ⟨b, r⟩
    · have hau : a = u := by simpa using h
      subst hau
      simp [walk_cost]
    · rw [List.getLast?_cons_cons] at h
      have : walk_cost cost ((a :: b :: r) ++ [v]) =
          cost a b + walk_cost cost ((b :: r) ++ [v]) := rfl
      rw [this, ih u v h]
      have : walk_cost cost (a :: b :: r) = cost a b + walk_cost cost (b :: r) := rfl
      rw [this]
      ring

theorem init_g_lookup {g : hgraph} (dist : vector3d → vector3d → ℚ) {id : ℕ}
    {gv : ℚ} (h : (init_state g dist).g_scores.lookup id = some gv) :
    gv = 0 ∧ ∃ s ∈ g.source_nodes, s.id = id := by
  rw [init_state_g] at h
  obtain ⟨s, hs, hsid, hv⟩ := lookup_map_mem _ _ h
  exact ⟨hv, s, List.mem_reverse.mp hs, hsid⟩

theorem astar_inv_init (g : hgraph) (cost : hanan_node → hanan_node → ℚ)
    (dist : vector3d → vector3d → ℚ) (hu : uid_ok g) :
    astar_inv g cost dist (init_state g dist) := by
  refine ⟨path_inv_init g dist, ?_, ?_, ?_, ?_, ?_, ?_, ?_, ?_, ?_⟩
  · intro id gv h
    rw [(init_g_lookup dist h).1]
  · intro e he
    obtain ⟨hs, hid, hf⟩ := init_queue_src g dist e he
    obtain ⟨gv, hgv⟩ := (path_inv_init g dist).ent_g e he
    refine ⟨gv, hgv, ?_⟩
    rw [hid] at hgv
    rw [(init_g_lookup dist hgv).1, hf]
    simp
  · intro n hn gv hgv
    obtain ⟨h0, s, hs, hsid⟩ := init_g_lookup dist hgv
    have hsn : s = n := hu s (List.mem_append_left _ hs) n hn hsid
    subst hsn
    refine Or.inr ⟨(heur g dist s, s.id, s), ?_, rfl, ?_⟩
    · rw [init_state_queue]
      exact List.mem_map.mpr ⟨s, List.mem_reverse.mpr hs, rfl⟩
    · rw [h0]
      simp
  · intro n hn
    rw [init_state_close] at hn
    simp at hn
  · intro n hn
    rw [init_state_close] at hn
    simp at hn
  · intro id gv hgv
    obtain ⟨h0, s, hs, hsid⟩ := init_g_lookup dist hgv
    exact ⟨s, [s], List.mem_append_left _ hs, hsid, walk_to.base hs,
      by rw [h0]; exact le_refl _⟩
  · intro id u hu'
    rw [init_state_cf] at hu'
    simp [List.lookup] at hu'
  · intro s hs
    rw [init_state_g]
    obtain ⟨v, hv⟩ := lookup_map_exists g.source_nodes.reverse
      (fun _ => (0:ℚ)) ⟨s, List.mem_reverse.mpr hs, rfl⟩
    obtain ⟨s', _, _, hv0⟩ := lookup_map_mem _ _ hv
    exact ⟨v, hv, by rw [hv0]⟩
  · intro t _
    rw [init_state_close]
    simp

theorem astar_inv_drop {g : hgraph} {cost : hanan_node → hanan_node → ℚ}
    {dist : vector3d → vector3d → ℚ} {st : astate}
    (inv : astar_inv g cost dist st) {e : sentry} {rest : List sentry}
    (hpm : pop_min st.queue = some (e, rest)) (hcl : e.2.2 ∈ st.close_set) :
    astar_inv g cost dist { st with queue := rest } := by
  have hrest : ∀ e' ∈ rest, e' ∈ st.queue := fun e' he' => pop_min_mem_rest hpm he'
  refine ⟨path_inv_drop inv.base rest hrest, inv.g_nonneg, ?_, ?_,
    inv.closed_relax, inv.closed_opt, inv.g_sound, inv.cf_cost, inv.src_le,
    inv.no_tgt_closed⟩
  · intro e' he'
    exact inv.ent_le e' (hrest e' he')
  · intro n hn gv hgv
    by_cases hncl : n ∈ st.close_set
    · exact Or.inl hncl
    · rcases inv.known_open n hn gv hgv with hc | ⟨e', he', hen, hle⟩
      · exact absurd hc hncl
      · refine Or.inr ⟨e', ?_, hen, hle⟩
        have hne : e' ≠ e := fun hee => hncl (by rw [← hen, hee]; exact hcl)
        have hmm : e' ∈ e :: rest := (pop_min_perm hpm).mem_iff.mp he'
        rcases List.mem_cons.mp hmm with h' | h'
        · exact absurd h' hne
        · exact h'

theorem astar_cover {g : hgraph} {cost : hanan_node → hanan_node → ℚ}
    {dist : vector3d → vector3d → ℚ} {st : astate} (hu : uid_ok g)
    (hc : cost_ok g cost dist) (inv : astar_inv g cost dist st)
    {e : sentry} {rest : List sentry} (hpm : pop_min st.queue = some (e, rest)) :
    ∀ {q : List hanan_node} {m : hanan_node}, walk_to g q m → m ∉ st.close_set →
      e.1 ≤ ((walk_cost cost q : ℚ) : WithTop ℚ) + heur g dist m := by
  intro q m hw
  induction hw with
  | base hs =>
    rename_i s
    intro hscl
    obtain ⟨gv, hgv, hgv0⟩ := inv.src_le s hs
    rcases inv.known_open s (List.mem_append_left _ hs) gv hgv with hcl | he'
    · exact absurd hcl hscl
    · obtain ⟨e', he', hen, hle⟩ := he'
      have h1 : e.1 ≤ e'.1 := key_le_fst (pop_min_min hpm e' he')
      have h2 : (gv : WithTop ℚ) + heur g dist s ≤
          ((0:ℚ) : WithTop ℚ) + heur g dist s :=
        add_le_add_right (by exact_mod_cast hgv0) _
      have h3 : walk_cost cost [s] = 0 := rfl
      rw [h3]
      exact le_trans h1 (le_trans hle h2)
  | step hwq hv ih =>
    rename_i q' u v
    intro hvcl
    have hupool : u ∈ node_pool g := walk_to_pool hwq
    have hvpool : v ∈ node_pool g := neighbors_of_pool hv
    have hcat : walk_cost cost (q' ++ [v]) = walk_cost cost q' + cost u v :=
      walk_cost_concat cost q' u v (walk_to_last hwq)
    rw [hcat]
    by_cases hucl : u ∈ st.close_set
    · obtain ⟨gu, gvv, hgu, hgvv, hrel⟩ := inv.closed_relax u hucl v hv
      obtain ⟨gu', hgu', hopt⟩ := inv.closed_opt u hucl
      have hguu : gu' = gu := Option.some.inj (hgu'.symm.trans hgu)
      have hgub : gu ≤ walk_cost cost q' := hguu ▸ hopt q' hwq
      rcases inv.known_open v hvpool gvv hgvv with hcl | ⟨e', he', hen, hle⟩
      · exact absurd hcl hvcl
      · have h1 : e.1 ≤ e'.1 := key_le_fst (pop_min_min hpm e' he')
        have h2 : (gvv : WithTop ℚ) ≤ ((walk_cost cost q' + cost u v : ℚ) : WithTop ℚ) := by
          exact_mod_cast le_trans hrel (add_le_add_right hgub _)
        exact le_trans h1 (le_trans hle (add_le_add_right h2 _))
    · have h1 := ih hucl
      have h2 : heur g dist u ≤ (cost u v : WithTop ℚ) + heur g dist v :=
        hc.cons u hupool v hv
      calc e.1 ≤ ((walk_cost cost q' : ℚ) : WithTop ℚ) + heur g dist u := h1
        _ ≤ ((walk_cost cost q' : ℚ) : WithTop ℚ) +
            ((cost u v : WithTop ℚ) + heur g dist v) := add_le_add_left h2 _
        _ = ((walk_cost cost q' + cost u v : ℚ) : WithTop ℚ) + heur g dist v := by
            push_cast
            exact (add_assoc _ _ _).symm

theorem improved_lt {gs : List (ℕ × ℚ)} {idv : ℕ} {t : ℚ}
    (h : (match gs.lookup idv with
          | none => true
          | some gv => decide (t < gv)) = true)
    {gvold : ℚ} (hl : gs.lookup idv = some gvold) : t < gvold := by
  rw [hl] at h
  simpa using h

theorem path_inv_step {g : hgraph} (cost : hanan_node → hanan_node → ℚ)
    (dist : vector3d → vector3d → ℚ) {cur : hanan_node} {st2 : astate}
    {v : hanan_node} (hu : uid_ok g) (hst2 : path_inv g st2)
    (hcur : cur ∈ node_pool g) (hvn : v ∈ neighbors_of g cur)
    (hg2 : ∃ gv, st2.g_scores.lookup cur.id = some gv) :
    path_inv g (relax_step g cost dist cur st2 v) := by
  simp only [relax_step]
  split
  · refine ⟨?_, ?_, ?_, ?_, ?_, ?_⟩
    · intro e he
      rcases List.mem_cons.mp he with rfl | he'
      · rfl
      · exact hst2.ent_key e he'
    · intro e he
      rcases List.mem_cons.mp he with rfl | he'
      · exact neighbors_of_pool hvn
      · exact hst2.ent_pool e he'
    · intro e he
      rcases List.mem_cons.mp he with rfl | he'
      · exact ⟨_, lookup_cons_self _ _ _⟩
      · exact lookup_cons_some _ _ (hst2.ent_g e he')
    · intro id u hu'
      by_cases hid : v.id = id
      · subst hid
        rw [lookup_cons_self] at hu'
        have hcc : u = cur := by simpa using hu'.symm
        subst hcc
        exact ⟨hcur, lookup_cons_some _ _ hg2,
          ⟨_, lookup_cons_self _ _ _⟩, v, hvn, rfl⟩
      · rw [lookup_cons_ne _ _ hid] at hu'
        obtain ⟨hu1, hu2, hu3, hu4⟩ := hst2.cf_edge id u hu'
        refine ⟨hu1, lookup_cons_some _ _ hu2, ?_, hu4⟩
        obtain ⟨gv, hgv⟩ := hu3
        exact ⟨gv, by rw [lookup_cons_ne _ _ hid]; exact hgv⟩
    · intro id gv hgv hcf
      by_cases hid : v.id = id
      · subst hid
        rw [lookup_cons_self] at hcf
        cases hcf
      · rw [lookup_cons_ne _ _ hid] at hgv hcf
        exact hst2.nocf_src id gv hgv hcf
    · exact hst2.closed_pool
  · exact hst2

theorem mid_inv_step {g : hgraph} {cost : hanan_node → hanan_node → ℚ}
    {dist : vector3d → vector3d → ℚ} {cur : hanan_node} {gc : ℚ}
    {rem : List hanan_node} {st2 : astate} {v : hanan_node} (hu : uid_ok g)
    (hc : cost_ok g cost dist) (hcurpool : cur ∈ node_pool g)
    (hv : v ∈ neighbors_of g cur)
    (inv : mid_inv g cost dist cur gc (v :: rem) st2) :
    mid_inv g cost dist cur gc rem (relax_step g cost dist cur st2 v) := by
  have hvpool : v ∈ node_pool g := neighbors_of_pool hv
  have hgcd : (st2.g_scores.lookup cur.id).getD 0 = gc := by rw [inv.gcur]; rfl
  have hbase : path_inv g (relax_step g cost dist cur st2 v) :=
    path_inv_step cost dist hu inv.base hcurpool hv ⟨gc, inv.gcur⟩
  have hcost0 : 0 ≤ cost cur v := hc.nonneg cur hcurpool v hv
  simp only [relax_step] at hbase ⊢
  split
  all_goals rename_i himp
  · rw [if_pos himp] at hbase
    have hvnc : v ∉ st2.close_set := by
      intro hvc
      obtain ⟨gvv, hgvv, hopt⟩ := inv.closed_opt v hvc
      have hlt : cost cur v + (st2.g_scores.lookup cur.id).getD 0 < gvv :=
        improved_lt himp hgvv
      obtain ⟨n', q, hn'p, hn'id, hwalk, hwc⟩ := inv.g_sound cur.id gc inv.gcur
      have hn'c : n' = cur := hu n' hn'p cur hcurpool hn'id
      subst hn'c
      have hb := hopt (q ++ [v]) (hwalk.step hv)
      rw [walk_cost_concat cost q n' v (walk_to_last hwalk)] at hb
      rw [hgcd] at hlt
      linarith
    have hvidcur : v.id ≠ cur.id := by
      intro hid
      have hvc : v = cur := hu v hvpool cur hcurpool hid
      have hlt : cost cur v + (st2.g_scores.lookup cur.id).getD 0 < gc := by
        refine improved_lt himp ?_
        rw [hid]
        exact inv.gcur
      rw [hgcd] at hlt
      linarith
    refine ⟨hbase, ?_, ?_, ?_, ?_, ?_, ?_, ?_, ?_, ?_, inv.no_tgt_closed⟩
    · rw [lookup_cons_ne _ _ hvidcur]
      exact inv.gcur
    · intro id gv hgv
      by_cases hid : v.id = id
      · subst hid
        rw [lookup_cons_self] at hgv
        have : cost cur v + (st2.g_scores.lookup cur.id).getD 0 = gv := by
          simpa using hgv
        rw [← this, hgcd]
        exact add_nonneg hcost0 (inv.g_nonneg cur.id gc inv.gcur)
      · rw [lookup_cons_ne _ _ hid] at hgv
        exact inv.g_nonneg id gv hgv
    · intro e he
      rcases List.mem_cons.mp he with rfl | he'
      · exact ⟨_, lookup_cons_self _ _ _, le_refl _⟩
      · obtain ⟨gvold, hgvold, hle⟩ := inv.ent_le e he'
        by_cases hid : v.id = e.2.1
        · have hkey : e.2.1 = e.2.2.id := inv.base.ent_key e he'
          have hven : v = e.2.2 :=
            hu v hvpool e.2.2 (inv.base.ent_pool e he') (hid.trans hkey)
          have hlt : cost cur v + (st2.g_scores.lookup cur.id).getD 0 < gvold := by
            refine improved_lt himp ?_
            rw [hid]
            exact hgvold
          refine ⟨_, by rw [← hid]; exact lookup_cons_self _ _ _, ?_⟩
          refine le_trans ?_ hle
          rw [← hven]
          exact add_le_add_right (by exact_mod_cast le_of_lt hlt) _
        · exact ⟨gvold, by rw [lookup_cons_ne _ _ hid]; exact hgvold, hle⟩
    · intro n hn gv hgv
      by_cases hid : v.id = n.id
      · have hvn' : v = n := hu v hvpool n hn hid
        rw [← hid, lookup_cons_self] at hgv
        have hgveq : cost cur v + (st2.g_scores.lookup cur.id).getD 0 = gv := by
          simpa using hgv
        refine Or.inr ⟨_, List.mem_cons_self _ _, hvn', ?_⟩
        rw [← hvn', hgveq]
      · rw [lookup_cons_ne _ _ hid] at hgv
        rcases inv.known_open n hn gv hgv with hcl | ⟨e', he', hen, hle⟩
        · exact Or.inl hcl
        · exact Or.inr ⟨e', List.mem_cons_of_mem _ he', hen, hle⟩
    · intro n hncl w hw
      rcases inv.closed_relax2 n hncl w hw with ⟨hncur, hwrem⟩ | ⟨gu, gw, hgu, hgw, hb⟩
      · rcases List.mem_cons.mp hwrem with hwv | hwrem'
        · refine Or.inr ⟨gc,
            cost cur v + (st2.g_scores.lookup cur.id).getD 0, ?_, ?_, ?_⟩
          · rw [hncur, lookup_cons_ne _ _ hvidcur]
            exact inv.gcur
          · rw [hwv, lookup_cons_self]
          · rw [hncur, hwv, hgcd]
            linarith
        · exact Or.inl ⟨hncur, hwrem'⟩
      · have hnid : v.id ≠ n.id := by
          intro hid
          exact hvnc ((hu v hvpool n (inv.base.closed_pool n hncl) hid) ▸ hncl)
        refine Or.inr ?_
        by_cases hidw : v.id = w.id
        · have hvw : v = w := hu v hvpool w
            (neighbors_of_pool hw) hidw
          have hlt : cost cur v + (st2.g_scores.lookup cur.id).getD 0 < gw := by
            refine improved_lt himp ?_
            rw [hidw]
            exact hgw
          refine ⟨gu, cost cur v + (st2.g_scores.lookup cur.id).getD 0,
            by rw [lookup_cons_ne _ _ hnid]; exact hgu, ?_, ?_⟩
          · rw [← hidw]
            exact lookup_cons_self _ _ _
          · exact le_trans (le_of_lt hlt) hb
        · exact ⟨gu, gw, by rw [lookup_cons_ne _ _ hnid]; exact hgu,
            by rw [lookup_cons_ne _ _ hidw]; exact hgw, hb⟩
    · intro n hncl
      have hnid : v.id ≠ n.id := by
        intro hid
        exact hvnc ((hu v hvpool n (inv.base.closed_pool n hncl) hid) ▸ hncl)
      obtain ⟨gv, hgv, hopt⟩ := inv.closed_opt n hncl
      exact ⟨gv, by rw [lookup_cons_ne _ _ hnid]; exact hgv, hopt⟩
    · intro id gv hgv
      by_cases hid : v.id = id
      · rw [← hid, lookup_cons_self] at hgv
        have hgveq : cost cur v + (st2.g_scores.lookup cur.id).getD 0 = gv := by
          simpa using hgv
        obtain ⟨n', q, hn'p, hn'id, hwalk, hwc⟩ := inv.g_sound cur.id gc inv.gcur
        have hn'c : n' = cur := hu n' hn'p cur hcurpool hn'id
        subst hn'c
        refine ⟨v, q ++ [v], hvpool, hid, hwalk.step hv, ?_⟩
        rw [walk_cost_concat cost q n' v (walk_to_last hwalk), ← hgveq, hgcd]
        linarith
      · rw [lookup_cons_ne _ _ hid] at hgv
        exact inv.g_sound id gv hgv
    · intro id u hcf
      by_cases hid : v.id = id
      · rw [← hid, lookup_cons_self] at hcf
        have hucur : u = cur := by simpa using hcf.symm
        refine ⟨gc, cost cur v + (st2.g_scores.lookup cur.id).getD 0, v,
          ?_, ?_, ?_, hid, ?_⟩
        · rw [hucur, lookup_cons_ne _ _ hvidcur]
          exact inv.gcur
        · rw [← hid]
          exact lookup_cons_self _ _ _
        · rw [hucur]
          exact hv
        · rw [hucur, hgcd]
          linarith
      · rw [lookup_cons_ne _ _ hid] at hcf
        obtain ⟨gu, gv2, w, hgu, hgv2, hwnb, hwid, hb⟩ := inv.cf_cost id u hcf
        have hupool : u ∈ node_pool g := (inv.base.cf_edge id u hcf).1
        by_cases hidu : v.id = u.id
        · have hvu : v = u := hu v hvpool u hupool hidu
          have hlt : cost cur v + (st2.g_scores.lookup cur.id).getD 0 < gu := by
            refine improved_lt himp ?_
            rw [hidu]
            exact hgu
          refine ⟨cost cur v + (st2.g_scores.lookup cur.id).getD 0, gv2, w,
            ?_, by rw [lookup_cons_ne _ _ hid]; exact hgv2, hwnb, hwid, ?_⟩
          · rw [← hidu]
            exact lookup_cons_self _ _ _
          · calc cost cur v + (st2.g_scores.lookup cur.id).getD 0 + cost u w
                ≤ gu + cost u w := by linarith
              _ ≤ gv2 := hb
        · exact ⟨gu, gv2, w, by rw [lookup_cons_ne _ _ hidu]; exact hgu,
            by rw [lookup_cons_ne _ _ hid]; exact hgv2, hwnb, hwid, hb⟩
    · intro s hs
      by_cases hid : v.id = s.id
      · have hvs : v = s := hu v hvpool s (List.mem_append_left _ hs) hid
        obtain ⟨gvold, hgvold, hle0⟩ := inv.src_le s hs
        have hlt : cost cur v + (st2.g_scores.lookup cur.id).getD 0 < gvold := by
          refine improved_lt himp ?_
          rw [hid]
          exact hgvold
        refine ⟨cost cur v + (st2.g_scores.lookup cur.id).getD 0, ?_, by linarith⟩
        rw [← hid]
        exact lookup_cons_self _ _ _
      · obtain ⟨gvold, hgvold, hle0⟩ := inv.src_le s hs
        exact ⟨gvold, by rw [lookup_cons_ne _ _ hid]; exact hgvold, hle0⟩
  · refine ⟨inv.base, inv.gcur, inv.g_nonneg, inv.ent_le, inv.known_open, ?_,
      inv.closed_opt, inv.g_sound, inv.cf_cost, inv.src_le, inv.no_tgt_closed⟩
    intro n hncl w hw
    rcases inv.closed_relax2 n hncl w hw with ⟨hncur, hwrem⟩ | hR
    · rcases List.mem_cons.mp hwrem with hwv | hwrem'
      · rcases hL : st2.g_scores.lookup v.id with _ | gvold
        · exfalso
          rw [hL] at himp
          simp at himp
        · have hnlt : ¬ (cost cur v + (st2.g_scores.lookup cur.id).getD 0 < gvold) := by
            rw [hL] at himp
            simpa using himp
          refine Or.inr ⟨gc, gvold, ?_, ?_, ?_⟩
          · rw [hncur]
            exact inv.gcur
          · rw [hwv]
            exact hL
          · rw [hncur, hwv]
            rw [hgcd] at hnlt
            have := not_lt.mp hnlt
            linarith
      · exact Or.inl ⟨hncur, hwrem'⟩
    · exact Or.inr hR

theorem mid_inv_fold {g : hgraph} {cost : hanan_node → hanan_node → ℚ}
    {dist : vector3d → vector3d → ℚ} {cur : hanan_node} {gc : ℚ} (hu : uid_ok g)
    (hc : cost_ok g cost dist) (hcurpool : cur ∈ node_pool g) :
    ∀ (rem : List hanan_node) (st2 : astate),
      (∀ w ∈ rem, w ∈ neighbors_of g cur) →
      mid_inv g cost dist cur gc rem st2 →
      mid_inv g cost dist cur gc []
        (rem.foldl (relax_step g cost dist cur) st2) := by
  intro rem
  induction rem with
  | nil => intro st2 _ h; exact h
  | cons v vs ih =>
    intro st2 hsub hinv
    rw [List.foldl_cons]
    refine ih _ (fun w hw => hsub w (List.mem_cons_of_mem _ hw)) ?_
    exact mid_inv_step hu hc hcurpool (hsub v (List.mem_cons_self _ _)) hinv

theorem mid_inv_start {g : hgraph} {cost : hanan_node → hanan_node → ℚ}
    {dist : vector3d → vector3d → ℚ} {st : astate} (hu : uid_ok g)
    (hc : cost_ok g cost dist) (htne : g.target_nodes ≠ [])
    (inv : astar_inv g cost dist st) {e : sentry} {rest : List sentry}
    (hpm : pop_min st.queue = some (e, rest)) (hecl : e.2.2 ∉ st.close_set)
    (hetg : e.2.2 ∉ g.target_nodes) :
    ∃ gc, st.g_scores.lookup e.2.2.id = some gc ∧
      mid_inv g cost dist e.2.2 gc (neighbors_of g e.2.2)
        { st with queue := rest, close_set := e.2.2 :: st.close_set } := by
  have hemem := pop_min_mem hpm
  have hkey := inv.base.ent_key e hemem
  have hepool := inv.base.ent_pool e hemem
  have hrest : ∀ e' ∈ rest, e' ∈ st.queue := fun e' he' => pop_min_mem_rest hpm he'
  obtain ⟨gc, hgc0, hfle⟩ := inv.ent_le e hemem
  rw [hkey] at hgc0
  refine ⟨gc, hgc0, ?_, hgc0, inv.g_nonneg, ?_, ?_, ?_, ?_, inv.g_sound,
    inv.cf_cost, inv.src_le, ?_⟩
  · exact path_inv_close (path_inv_drop inv.base rest hrest) hepool
  · intro e' he'
    exact inv.ent_le e' (hrest e' he')
  · intro n hn gv hgv
    by_cases hne : n = e.2.2
    · exact Or.inl (by rw [hne]; exact List.mem_cons_self _ _)
    · by_cases hncl : n ∈ st.close_set
      · exact Or.inl (List.mem_cons_of_mem _ hncl)
      · rcases inv.known_open n hn gv hgv with hcl | ⟨e', he', hen, hle⟩
        · exact absurd hcl hncl
        · refine Or.inr ⟨e', ?_, hen, hle⟩
          have hnee : e' ≠ e := by
            intro hee
            exact hne (by rw [← hen, hee])
          have hmm : e' ∈ e :: rest := (pop_min_perm hpm).mem_iff.mp he'
          rcases List.mem_cons.mp hmm with h' | h'
          · exact absurd h' hnee
          · exact h'
  · intro n hncl w hw
    rcases List.mem_cons.mp hncl with rfl | hncl'
    · exact Or.inl ⟨rfl, hw⟩
    · obtain ⟨gu, gw, hgu, hgw, hb⟩ := inv.closed_relax n hncl' w hw
      exact Or.inr ⟨gu, gw, hgu, hgw, hb⟩
  · intro n hncl
    rcases List.mem_cons.mp hncl with rfl | hncl'
    · refine ⟨gc, hgc0, ?_⟩
      intro q hq
      have hcov := astar_cover hu hc inv hpm hq hecl
      have hle2 : (gc : WithTop ℚ) + heur g dist e.2.2 ≤
          ((walk_cost cost q : ℚ) : WithTop ℚ) + heur g dist e.2.2 :=
        le_trans hfle hcov
      have := (WithTop.add_le_add_iff_right
        (heur_ne_top dist e.2.2 htne)).mp hle2
      exact_mod_cast this
    · exact inv.closed_opt n hncl'
  · intro t ht
    simp only [List.mem_cons, not_or]
    exact ⟨fun hte => hetg (hte ▸ ht), inv.no_tgt_closed t ht⟩

theorem astar_inv_relax {g : hgraph} {cost : hanan_node → hanan_node → ℚ}
    {dist : vector3d → vector3d → ℚ} {st : astate} (hu : uid_ok g)
    (hc : cost_ok g cost dist) (htne : g.target_nodes ≠ [])
    (inv : astar_inv g cost dist st) {e : sentry} {rest : List sentry}
    (hpm : pop_min st.queue = some (e, rest)) (hecl : e.2.2 ∉ st.close_set)
    (hetg : e.2.2 ∉ g.target_nodes) :
    astar_inv g cost dist (relax g cost dist e.2.2
      { st with queue := rest, close_set := e.2.2 :: st.close_set }) := by
  obtain ⟨gc, hgc, hmid⟩ := mid_inv_start hu hc htne inv hpm hecl hetg
  have hepool := inv.base.ent_pool e (pop_min_mem hpm)
  have hm2 := mid_inv_fold hu hc hepool (neighbors_of g e.2.2) _
    (fun w hw => hw) hmid
  refine ⟨hm2.base, hm2.g_nonneg, hm2.ent_le, hm2.known_open, ?_,
    hm2.closed_opt, hm2.g_sound, hm2.cf_cost, hm2.src_le, hm2.no_tgt_closed⟩
  intro n hncl w hw
  rcases hm2.closed_relax2 n hncl w hw with ⟨_, hmem⟩ | hR
  · simp at hmem
  · exact hR

theorem rev_chain_walk {g : hgraph} :
    ∀ (l : List hanan_node) (cur : hanan_node), l.head? = some cur →
      List.Chain' (fun a b => a ∈ neighbors_of g b) l →
      (∃ z, l.getLast? = some z ∧ z ∈ g.source_nodes) →
      walk_to g l.reverse cur := by
  intro l
  induction l with
  | nil => intro cur h; cases h
  | cons a t ih =>
    intro cur hhd hch hz
    have hac : a = cur := by simpa using hhd
    subst hac
    rcases t with _ | ⟨b, r⟩
    · obtain ⟨z, hz1, hz2⟩ := hz
      have hza : z = a := by simpa using hz1.symm
      subst hza
      exact walk_to.base hz2
    · rw [List.chain'_cons] at hch
      obtain ⟨z, hz1, hz2⟩ := hz
      rw [List.getLast?_cons_cons] at hz1
      have hw := ih b rfl hch.2 ⟨z, hz1, hz2⟩
      have : (a :: b :: r).reverse = (b :: r).reverse ++ [a] := by
        simp
      rw [this]
      exact hw.step hch.1

theorem cf_chain_cost {g : hgraph} {cost : hanan_node → hanan_node → ℚ}
    {dist : vector3d → vector3d → ℚ} {st : astate} (hu : uid_ok g)
    (inv : astar_inv g cost dist st) :
    ∀ (l : List hanan_node),
      List.Chain' (fun a b => st.came_from.lookup a.id = some b) l →
      (∀ y ∈ l, y ∈ node_pool g) →
      ∀ a0, l.head? = some a0 → ∀ ga, st.g_scores.lookup a0.id = some ga →
      ∀ z, l.getLast? = some z → ∀ gz, st.g_scores.lookup z.id = some gz →
        walk_cost cost l.reverse + gz ≤ ga := by
  intro l
  induction l with
  | nil => intro _ _ a0 h; cases h
  | cons a t ih =>
    intro hch hpool a0 hhd ga hga z hlast gz hgz
    have hac2 : a = a0 := by simpa using hhd
    rw [← hac2] at hga
    rcases t with _ | ⟨b, r⟩
    · have hza : z = a := by simpa using hlast.symm
      rw [hza] at hgz
      have hgeq : gz = ga := Option.some.inj (hgz.symm.trans hga)
      have hwc : walk_cost cost [a].reverse = 0 := rfl
      rw [hwc]
      linarith
    · rw [List.chain'_cons] at hch
      rw [List.getLast?_cons_cons] at hlast
      obtain ⟨gu, gv, v, hgu, hgv, hvnb, hvid, hb⟩ :=
        inv.cf_cost a.id b hch.1
      have hva : v = a := hu v (neighbors_of_pool hvnb) a
        (hpool a (List.mem_cons_self _ _)) hvid
      rw [hva] at hvnb hb
      have hgva : gv = ga := Option.some.inj (hgv.symm.trans hga)
      have hih := ih hch.2 (fun y hy => hpool y (List.mem_cons_of_mem _ hy))
        b rfl gu hgu z hlast gz hgz
      have hrev : (a :: b :: r).reverse = (b :: r).reverse ++ [a] := by simp
      have hlastrev : (b :: r).reverse.getLast? = some b := by
        rw [List.getLast?_reverse]
        rfl
      rw [hrev, walk_cost_concat cost _ b a hlastrev]
      linarith

theorem astar_opt_loop {g : hgraph} {cost : hanan_node → hanan_node → ℚ}
    {dist : vector3d → vector3d → ℚ} (hu : uid_ok g)
    (hc : cost_ok g cost dist) (htne : g.target_nodes ≠ []) :
    ∀ (fuel : ℕ) (st : astate), astar_inv g cost dist st →
      ∀ p, astar_loop g cost dist fuel st = some p →
        st_walk g p.reverse ∧
        ∀ q, st_walk g q → walk_cost cost p.reverse ≤ walk_cost cost q := by
  intro fuel
  induction fuel with
  | zero => intro st _ p h; simp [astar_loop] at h
  | succ n ih =>
    intro st inv p h
    rcases hpm : pop_min st.queue with _ | ⟨e, rest⟩
    · simp only [astar_loop, hpm] at h
      cases h
    simp only [astar_loop, hpm] at h
    by_cases hcl : e.2.2 ∈ st.close_set
    · rw [if_pos hcl] at h
      exact ih _ (astar_inv_drop inv hpm hcl) p h
    · rw [if_neg hcl] at h
      by_cases htg : e.2.2 ∈ g.target_nodes
      · rw [if_pos htg] at h
        obtain ⟨l, hres, hhead, hch, z, hz, hzn⟩ :=
          back_walk_spec st.came_from _ e.2.2 [] p h
        rw [List.nil_append] at hres
        subst hres
        have hemem := pop_min_mem hpm
        have hepool := inv.base.ent_pool e hemem
        have hkey := inv.base.ent_key e hemem
        obtain ⟨gcur, hgcur0, hfle⟩ := inv.ent_le e hemem
        rw [hkey] at hgcur0
        have hpoolall : ∀ y ∈ p, y ∈ node_pool g := by
          refine cf_chain_pool inv.base p hch ?_
          intro x hx
          have hxe : e.2.2 = x := by rw [hhead] at hx; simpa using hx
          exact hxe ▸ hepool
        have hgall : ∀ y ∈ p, ∃ gv, st.g_scores.lookup y.id = some gv := by
          refine cf_chain_g inv.base p hch ?_
          intro x hx
          have hxe : e.2.2 = x := by rw [hhead] at hx; simpa using hx
          exact hxe ▸ ⟨gcur, hgcur0⟩
        have hedges := cf_chain_edges inv.base hu p hpoolall hch
        have hzmem : z ∈ p := List.mem_of_mem_getLast? hz
        obtain ⟨gz, hgz⟩ := hgall z hzmem
        obtain ⟨hgz0, s, hs, hsid⟩ := inv.base.nocf_src z.id gz hgz hzn
        have hsz : s = z :=
          hu s (List.mem_append_left _ hs) z (hpoolall z hzmem) hsid
        have hwalk := rev_chain_walk p e.2.2 hhead hedges ⟨z, hz, hsz ▸ hs⟩
        refine ⟨⟨e.2.2, hwalk, htg⟩, ?_⟩
        have hcost := cf_chain_cost hu inv p hch hpoolall e.2.2 hhead gcur
          hgcur0 z hz gz hgz
        rw [hgz0] at hcost
        intro q hq
        obtain ⟨t', hwq, ht'⟩ := hq
        have ht'ncl : t' ∉ st.close_set := inv.no_tgt_closed t' ht'
        have hcov := astar_cover hu hc inv hpm hwq ht'ncl
        have ht'pool : t' ∈ node_pool g := walk_to_pool hwq
        have hh1 : heur g dist e.2.2 = 0 := heur_tgt_zero hc htg hepool
        have hh2 : heur g dist t' = 0 := heur_tgt_zero hc ht' ht'pool
        rw [hh1] at hfle
        rw [hh2] at hcov
        have hwt : (gcur : WithTop ℚ) ≤ ((walk_cost cost q : ℚ) : WithTop ℚ) := by
          calc (gcur : WithTop ℚ) = (gcur : WithTop ℚ) + 0 := (add_zero _).symm
            _ ≤ e.1 := hfle
            _ ≤ ((walk_cost cost q : ℚ) : WithTop ℚ) + 0 := hcov
            _ = ((walk_cost cost q : ℚ) : WithTop ℚ) := add_zero _
        have hfin : gcur ≤ walk_cost cost q := by exact_mod_cast hwt
        linarith
      · rw [if_neg htg] at h
        exact ih _ (astar_inv_relax hu hc htne inv hpm hcl htg) p h

/-- C2: under the spec's admissibility conditions on the pluggable cost and
distance functions (`cost_ok`), on any graph with injective node ids and a
nonempty target set, a path returned by `find_shortest_path` is optimal: read
source-to-target (reversed), it is a walk from a source node to a target node
whose total edge cost is a lower bound of (hence equal to the minimum of) the
cost of every source-to-target walk in the graph. -/
theorem claim2_first_closed_target_optimal (g : hgraph)
    (cost : hanan_node → hanan_node → ℚ) (dist : vector3d → vector3d → ℚ)
    (hu : uid_ok g) (htne : g.target_nodes ≠ []) (hc : cost_ok g cost dist)
    (p : List hanan_node) (h : find_shortest_path g cost dist = some p) :
    st_walk g p.reverse ∧
    ∀ q, st_walk g q → walk_cost cost p.reverse ≤ walk_cost cost q :=
  astar_opt_loop hu hc htne (search_fuel g) (init_state g dist)
    (astar_inv_init g cost dist hu) p h

theorem claim2_witness :
    uid_ok exg2 ∧ exg2.target_nodes ≠ [] ∧
    (st_walk exg2 ([exnT, exnM, exnS] : List hanan_node).reverse ∧
      ∀ q, st_walk exg2 q →
        walk_cost unit_cost ([exnT, exnM, exnS] : List hanan_node).reverse ≤
          walk_cost unit_cost q) :=
  ⟨by unfold uid_ok; with_unfolding_all decide,
   by with_unfolding_all decide,
   claim2_first_closed_target_optimal exg2 unit_cost zero_dist
     (by unfold uid_ok; with_unfolding_all decide)
     (by with_unfolding_all decide)
     ⟨by unfold node_pool; with_unfolding_all decide,
      by unfold node_pool; with_unfolding_all decide,
      by with_unfolding_all decide,
      by unfold node_pool; with_unfolding_all decide⟩
     [exnT, exnM, exnS] (by with_unfolding_all decide)⟩


theorem det_inv_init (g : hgraph) (cost : hanan_node → hanan_node → ℚ)
    (dist : vector3d → vector3d → ℚ) (hu : uid_ok g) :
    det_inv g cost dist (init_state g dist) := by
  refine ⟨path_inv_init g dist, ?_, ?_⟩
  · intro e he
    obtain ⟨hs, hid, hf⟩ := init_queue_src g dist e he
    obtain ⟨gv, hgv⟩ := (path_inv_init g dist).ent_g e he
    refine ⟨gv, hgv, ?_⟩
    rw [hid] at hgv
    rw [(init_g_lookup dist hgv).1, hf]
    simp
  · intro e1 he1 e2 he2 hk
    rw [init_state_queue] at he1 he2
    rcases List.mem_map.mp he1 with ⟨s1, hs1, rfl⟩
    rcases List.mem_map.mp he2 with ⟨s2, hs2, rfl⟩
    have hid : s1.id = s2.id := congrArg Prod.snd hk
    have hss : s1 = s2 :=
      hu s1 (List.mem_append_left _ (List.mem_reverse.mp hs1))
        s2 (List.mem_append_left _ (List.mem_reverse.mp hs2)) hid
    rw [hss]

theorem det_inv_drop {g : hgraph} {cost : hanan_node → hanan_node → ℚ}
    {dist : vector3d → vector3d → ℚ} {st : astate}
    (inv : det_inv g cost dist st) {rest : List sentry}
    (hsub : ∀ e ∈ rest, e ∈ st.queue) :
    det_inv g cost dist { st with queue := rest } := by
  refine ⟨path_inv_drop inv.base rest hsub, ?_, ?_⟩
  · intro e he
    exact inv.ent_le e (hsub e he)
  · intro e1 he1 e2 he2 hk
    exact inv.uniq e1 (hsub e1 he1) e2 (hsub e2 he2) hk

theorem det_inv_close {g : hgraph} {cost : hanan_node → hanan_node → ℚ}
    {dist : vector3d → vector3d → ℚ} {st : astate}
    (inv : det_inv g cost dist st) {c : hanan_node} (hcp : c ∈ node_pool g) :
    det_inv g cost dist { st with close_set := c :: st.close_set } :=
  ⟨path_inv_close inv.base hcp, inv.ent_le, inv.uniq⟩

theorem det_inv_step {g : hgraph} {cost : hanan_node → hanan_node → ℚ}
    {dist : vector3d → vector3d → ℚ} {cur : hanan_node} {st2 : astate}
    {v : hanan_node} (hu : uid_ok g) (htne : g.target_nodes ≠ [])
    (hcurpool : cur ∈ node_pool g) (hv : v ∈ neighbors_of g cur)
    (hg2 : ∃ gv, st2.g_scores.lookup cur.id = some gv)
    (inv : det_inv g cost dist st2) :
    det_inv g cost dist (relax_step g cost dist cur st2 v) := by
  have hvpool : v ∈ node_pool g := neighbors_of_pool hv
  have hbase : path_inv g (relax_step g cost dist cur st2 v) :=
    path_inv_step cost dist hu inv.base hcurpool hv hg2
  simp only [relax_step] at hbase ⊢
  split
  all_goals rename_i himp
  · rw [if_pos himp] at hbase
    have hcollide : ∀ e ∈ st2.queue, e.2.1 = v.id →
        ((cost cur v + (st2.g_scores.lookup cur.id).getD 0 : ℚ) : WithTop ℚ) +
          heur g dist v < e.1 := by
      intro e he hid
      have hkey : e.2.1 = e.2.2.id := inv.base.ent_key e he
      have hven : v = e.2.2 :=
        hu v hvpool e.2.2 (inv.base.ent_pool e he) (hid.symm.trans hkey)
      obtain ⟨gvold, hgvold, hle⟩ := inv.ent_le e he
      have hlt : cost cur v + (st2.g_scores.lookup cur.id).getD 0 < gvold := by
        refine improved_lt himp ?_
        rw [hid] at hgvold
        exact hgvold
      refine lt_of_lt_of_le ?_ hle
      rw [← hven]
      exact (WithTop.add_lt_add_iff_right (heur_ne_top dist v htne)).mpr
        (by exact_mod_cast hlt)
    refine ⟨hbase, ?_, ?_⟩
    · intro e he
      rcases List.mem_cons.mp he with rfl | he'
      · exact ⟨_, lookup_cons_self _ _ _, le_refl _⟩
      · obtain ⟨gvold, hgvold, hle⟩ := inv.ent_le e he'
        by_cases hid : v.id = e.2.1
        · have hkey : e.2.1 = e.2.2.id := inv.base.ent_key e he'
          have hven : v = e.2.2 :=
            hu v hvpool e.2.2 (inv.base.ent_pool e he') (hid.trans hkey)
          have hlt : cost cur v + (st2.g_scores.lookup cur.id).getD 0 < gvold := by
            refine improved_lt himp ?_
            rw [hid]
            exact hgvold
          refine ⟨_, by rw [← hid]; exact lookup_cons_self _ _ _, ?_⟩
          refine le_trans ?_ hle
          rw [← hven]
          exact add_le_add_right (by exact_mod_cast le_of_lt hlt) _
        · exact ⟨gvold, by rw [lookup_cons_ne _ _ hid]; exact hgvold, hle⟩
    · intro e1 he1 e2 he2 hk
      rcases List.mem_cons.mp he1 with rfl | he1' <;>
        rcases List.mem_cons.mp he2 with rfl | he2'
      · rfl
      · exfalso
        have hid : e2.2.1 = v.id := (congrArg Prod.snd hk).symm
        have hlt := hcollide e2 he2' hid
        have hfeq : e2.1 =
            ((cost cur v + (st2.g_scores.lookup cur.id).getD 0 : ℚ) : WithTop ℚ) +
              heur g dist v := (congrArg Prod.fst hk).symm
        rw [hfeq] at hlt
        exact lt_irrefl _ hlt
      · exfalso
        have hid : e1.2.1 = v.id := congrArg Prod.snd hk
        have hlt := hcollide e1 he1' hid
        have hfeq : e1.1 =
            ((cost cur v + (st2.g_scores.lookup cur.id).getD 0 : ℚ) : WithTop ℚ) +
              heur g dist v := congrArg Prod.fst hk
        rw [hfeq] at hlt
        exact lt_irrefl _ hlt
      · exact inv.uniq e1 he1' e2 he2' hk
  · exact inv

theorem det_inv_relax {g : hgraph} {cost : hanan_node → hanan_node → ℚ}
    {dist : vector3d → vector3d → ℚ} {cur : hanan_node} {st : astate}
    (hu : uid_ok g) (htne : g.target_nodes ≠ []) (hcurpool : cur ∈ node_pool g)
    (hcurg : ∃ gv, st.g_scores.lookup cur.id = some gv)
    (inv : det_inv g cost dist st) :
    det_inv g cost dist (relax g cost dist cur st) := by
  unfold relax
  have main : ∀ (ns : List hanan_node), (∀ w ∈ ns, w ∈ neighbors_of g cur) →
      ∀ (st2 : astate), det_inv g cost dist st2 →
      (∃ gv, st2.g_scores.lookup cur.id = some gv) →
      det_inv g cost dist (ns.foldl (relax_step g cost dist cur) st2) := by
    intro ns
    induction ns with
    | nil => exact fun _ st2 h _ => h
    | cons v vs ih =>
      intro hsub st2 hst2 hg2
      rw [List.foldl_cons]
      refine ih (fun w hw => hsub w (List.mem_cons_of_mem _ hw)) _
        (det_inv_step hu htne hcurpool (hsub v (List.mem_cons_self _ _)) hg2 hst2) ?_
      simp only [relax_step]
      split
      · exact lookup_cons_some _ _ hg2
      · exact hg2
  exact main _ (fun w hw => hw) st inv hcurg

theorem astate_ext {a b : astate} (h1 : a.queue = b.queue)
    (h2 : a.close_set = b.close_set) (h3 : a.came_from = b.came_from)
    (h4 : a.g_scores = b.g_scores) (h5 : a.f_scores = b.f_scores) : a = b := by
  cases a
  cases b
  simp_all

theorem pop_min_some (q : List sentry) (h : q ≠ []) :
    ∃ pr, pop_min q = some pr := by
  rcases q with _ | ⟨a, as⟩
  · exact absurd rfl h
  · rcases hpm : pop_min as with _ | ⟨m, r⟩
    · exact ⟨(a, []), by simp [pop_min, hpm]⟩
    · by_cases hk : key_le (ekey a) (ekey m) = true
      · exact ⟨(a, as), by simp [pop_min, hpm, hk]⟩
      · exact ⟨(m, a :: r), by simp [pop_min, hpm, hk]⟩

theorem relax_shift (g : hgraph) (cost : hanan_node → hanan_node → ℚ)
    (dist : vector3d → vector3d → ℚ) (cur : hanan_node) :
    ∀ (ns : List hanan_node) (st2 : astate) (q' : List sentry),
      ∃ push : List sentry,
      ns.foldl (relax_step g cost dist cur) { st2 with queue := q' } =
        { ns.foldl (relax_step g cost dist cur) st2 with queue := push ++ q' } ∧
      (ns.foldl (relax_step g cost dist cur) st2).queue = push ++ st2.queue := by
  intro ns
  induction ns with
  | nil =>
    intro st2 q'
    exact ⟨[], by simp, by simp⟩
  | cons v vs ih =>
    intro st2 q'
    rw [List.foldl_cons, List.foldl_cons]
    simp only [relax_step]
    split
    · obtain ⟨push, h1, h2⟩ := ih
        { st2 with
          queue :=
            ((cost cur v + (st2.g_scores.lookup cur.id).getD 0 : ℚ) +
              heur g dist v, v.id, v) :: st2.queue
          came_from := (v.id, cur) :: st2.came_from
          g_scores := (v.id, cost cur v + (st2.g_scores.lookup cur.id).getD 0) ::
            st2.g_scores
          f_scores := (v.id, ((cost cur v +
            (st2.g_scores.lookup cur.id).getD 0 : ℚ) : WithTop ℚ) +
              heur g dist v) :: st2.f_scores }
        (((cost cur v + (st2.g_scores.lookup cur.id).getD 0 : ℚ) +
          heur g dist v, v.id, v) :: q')
      refine ⟨push ++ [((cost cur v + (st2.g_scores.lookup cur.id).getD 0 : ℚ) +
        heur g dist v, v.id, v)], ?_, ?_⟩
      · rw [List.append_assoc]
        exact h1
      · rw [List.append_assoc]
        exact h2
    · exact ih st2 q'

theorem astar_det {g : hgraph} {cost : hanan_node → hanan_node → ℚ}
    {dist : vector3d → vector3d → ℚ} (hu : uid_ok g)
    (htne : g.target_nodes ≠ []) :
    ∀ (fuel : ℕ) (st : astate) (q' : List sentry), q'.Perm st.queue →
      det_inv g cost dist st →
      astar_loop g cost dist fuel { st with queue := q' } =
        astar_loop g cost dist fuel st := by
  intro fuel
  induction fuel with
  | zero => intro st q' _ _; rfl
  | succ n ih =>
    intro st q' hperm inv
    rcases hpm : pop_min st.queue with _ | ⟨e, rest⟩
    · have hq : st.queue = [] := pop_min_eq_none hpm
      have hq' : q' = [] := (hq ▸ hperm).eq_nil
      simp only [astar_loop, hpm, hq']
      simp [pop_min]
    · have hq'ne : q' ≠ [] := by
        intro h0
        rw [h0] at hperm
        rw [hperm.symm.eq_nil] at hpm
        simp [pop_min] at hpm
      obtain ⟨⟨e', rest'⟩, hpm'⟩ := pop_min_some q' hq'ne
      have hein : e ∈ st.queue := pop_min_mem hpm
      have he'in : e' ∈ st.queue := hperm.mem_iff.mp (pop_min_mem hpm')
      have hkeq : ekey e' = ekey e :=
        key_le_antisymm (pop_min_min hpm' e (hperm.mem_iff.mpr hein))
          (pop_min_min hpm e' he'in)
      have hee : e' = e := inv.uniq e' he'in e hein hkeq
      subst hee
      have hr : rest'.Perm rest :=
        (((pop_min_perm hpm').symm.trans hperm).trans (pop_min_perm hpm)).cons_inv
      simp only [astar_loop, hpm, hpm']
      by_cases hcl : e'.2.2 ∈ st.close_set
      · rw [if_pos hcl, if_pos hcl]
        exact ih { st with queue := rest } rest' hr
          (det_inv_drop inv (fun x hx => pop_min_mem_rest hpm hx))
      · rw [if_neg hcl, if_neg hcl]
        by_cases htg : e'.2.2 ∈ g.target_nodes
        · rw [if_pos htg, if_pos htg]
        · rw [if_neg htg, if_neg htg]
          have hepool : e'.2.2 ∈ node_pool g := inv.base.ent_pool e' hein
          have hcurg : ∃ gv, st.g_scores.lookup e'.2.2.id = some gv := by
            obtain ⟨gv, hgv, _⟩ := inv.ent_le e' hein
            rw [inv.base.ent_key e' hein] at hgv
            exact ⟨gv, hgv⟩
          obtain ⟨push, h1, h2⟩ := relax_shift g cost dist e'.2.2 (neighbors_of g e'.2.2) { st with queue := rest, close_set := e'.2.2 :: st.close_set } rest'
          have hinv2 : det_inv g cost dist (relax g cost dist e'.2.2 { st with queue := rest, close_set := e'.2.2 :: st.close_set }) := by
            refine det_inv_relax hu htne hepool hcurg ?_
            exact det_inv_close
              (det_inv_drop inv (fun x hx => pop_min_mem_rest hpm hx)) hepool
          have hqperm : (push ++ rest').Perm (relax g cost dist e'.2.2 { st with queue := rest, close_set := e'.2.2 :: st.close_set }).queue := by
            unfold relax
            rw [h2]
            exact hr.append_left push
          have hfin := ih _ (push ++ rest') hqperm hinv2
          calc astar_loop g cost dist n ((neighbors_of g e'.2.2).foldl (relax_step g cost dist e'.2.2) { st with queue := rest', close_set := e'.2.2 :: st.close_set })
              = astar_loop g cost dist n { (neighbors_of g e'.2.2).foldl (relax_step g cost dist e'.2.2) { st with queue := rest, close_set := e'.2.2 :: st.close_set } with queue := push ++ rest' } := by rw [← h1]
            _ = astar_loop g cost dist n (relax g cost dist e'.2.2 { st with queue := rest, close_set := e'.2.2 :: st.close_set }) := hfin

/-- C4, counterexample: the secondary heap key of every push is the node's
creation id, not an insertion sequence number: on a graph whose source has
id 4, whose intermediate node has id 0 and whose target has id 5, the keys
pushed onto the queue are 4, 0, 5 in push order, which is not monotonically
increasing. -/
theorem claim4_counterexample :
    push_keys exg4 unit_cost zero_dist = [4, 0, 5] ∧
    mono_keys (push_keys exg4 unit_cost zero_dist) = false := by
  constructor
  · with_unfolding_all decide
  · with_unfolding_all decide

/-- C4, amended: the search is nevertheless deterministic, because ties in
the primary key are broken by the node id (the second tuple component), which
determines the popped entry whatever the heap's internal arrangement: on a
graph with injective node ids and a nonempty target set, running the loop on
any permutation of the seeded queue returns the same result as
`find_shortest_path`. -/
theorem claim4_deterministic_node_id_tiebreak (g : hgraph)
    (cost : hanan_node → hanan_node → ℚ) (dist : vector3d → vector3d → ℚ)
    (hu : uid_ok g) (htne : g.target_nodes ≠ []) (q' : List sentry)
    (hq : q'.Perm (init_state g dist).queue) :
    astar_loop g cost dist (search_fuel g)
        { init_state g dist with queue := q' } =
      find_shortest_path g cost dist :=
  astar_det hu htne (search_fuel g) (init_state g dist) q' hq
    (det_inv_init g cost dist hu)

theorem claim4_witness :
    uid_ok exg5 ∧ exg5.target_nodes ≠ [] ∧
    ([((0 : WithTop ℚ), 0, exnS), ((0 : WithTop ℚ), 3, exnP)] :
        List sentry).Perm (init_state exg5 zero_dist).queue ∧
    astar_loop exg5 unit_cost zero_dist (search_fuel exg5)
        { init_state exg5 zero_dist with
          queue := [((0 : WithTop ℚ), 0, exnS), ((0 : WithTop ℚ), 3, exnP)] } =
      find_shortest_path exg5 unit_cost zero_dist :=
  ⟨by unfold uid_ok; with_unfolding_all decide,
   by with_unfolding_all decide,
   by with_unfolding_all decide,
   claim4_deterministic_node_id_tiebreak exg5 unit_cost zero_dist
     (by unfold uid_ok; with_unfolding_all decide)
     (by with_unfolding_all decide)
     [((0 : WithTop ℚ), 0, exnS), ((0 : WithTop ℚ), 3, exnP)]
     (by with_unfolding_all decide)⟩
end HananGraph
